import Mathlib

/-!
# Two-pass assembler: shallow embedding and verified properties

The definitions below embed the C sources of the assembler
(`definitions.h`, `utils.c`, `first_pass.c`, `second_pass.c`,
`file_writer.c`, `assemble.c`, `preprocessor.c`) as pure Lean functions.

Conventions of the embedding:

* a C string is a `List Char` (the terminating NUL is implicit; reading the
  terminator is `List.getD _ _ '\x00'`); a `Char` stands for one `char`,
  that is one byte of the text;
* `int`, `long` and `short` variables are `Int`, unsigned ones are `Nat`,
  with an explicit reduction modulo `2 ^ w` wherever the C code narrows;
* `exit(EXIT_FAILURE)` and `return false` are the `error` case of `Except`;
* memory obtained from `malloc` and never written is a parameter `uninit`
  of the function that allocates it.
-/

namespace Assembler

/-! ## definitions.h -/

/-- Maximum size of the code image and of the data image. -/
def CODE_ARR_IMG_LENGTH : Int := 4096

/-- Capacity of the extern table and of the entry table. -/
def MAX_EXTERN_ENTRIES : Nat := 100

/-- Maximum length of a single source line. -/
def MAX_LINE_LENGTH : Nat := 100

/-- Initial value of the instruction counter. -/
def IC_INIT_VALUE : Int := 100

/-- Maximum length of a label (`first_pass.h`). -/
def MAX_LABEL_LENGTH : Nat := 31

/-- Maximum length of an operand buffer (`second_pass.h`). -/
def MAX_OPERAND_LENGTH : Nat := 31

/-- Operand addressing types, `enum addressing_types`. -/
inductive addressing_type where
  | IMMEDIATE_ADDR
  | DIRECT_ADDR
  | RELATIVE_ADDR
  | REGISTER_ADDR
  | NONE_ADDR
  deriving DecidableEq, Repr

/-- Numeric value of an addressing type in the C enumeration. -/
def addressing_type.toInt : addressing_type → Int
  | .IMMEDIATE_ADDR => 1
  | .DIRECT_ADDR => 2
  | .RELATIVE_ADDR => 4
  | .REGISTER_ADDR => 8
  | .NONE_ADDR => -1

/-- Operation codes, `enum opcodes`. -/
inductive opcode where
  | MOV_OP | CMP_OP | ADD_OP | SUB_OP | LEA_OP
  | CLR_OP | NOT_OP | INC_OP | DEC_OP | JMP_OP | BNE_OP | RED_OP | PRN_OP | JSR_OP
  | RTS_OP | STOP_OP
  | NONE_OP
  deriving DecidableEq, Repr

/-- Numeric value of an opcode in the C enumeration. -/
def opcode.toInt : opcode → Int
  | .MOV_OP => 0 | .CMP_OP => 1 | .ADD_OP => 2 | .SUB_OP => 3 | .LEA_OP => 4
  | .CLR_OP => 5 | .NOT_OP => 6 | .INC_OP => 7 | .DEC_OP => 8 | .JMP_OP => 9
  | .BNE_OP => 10 | .RED_OP => 11 | .PRN_OP => 12 | .JSR_OP => 13
  | .RTS_OP => 14 | .STOP_OP => 15
  | .NONE_OP => -1

/-- Value stored in an unsigned bit-field of `w` bits when it is assigned `v`. -/
def bitfield (w : Nat) (v : Int) : Nat := (v % (2 : Int) ^ w).toNat

/-- Value stored in an `unsigned long` (64 bits) when it is assigned `v`. -/
def to_ulong (v : Int) : Nat := (v % (2 : Int) ^ 64).toNat

/-- Value stored in an `unsigned int` (32 bits) when it is assigned `v`. -/
def to_uint (v : Nat) : Nat := v % 2 ^ 32

/-- Value of a `short` (16 bits, two's complement) after the cast `(short)v`. -/
def to_short (v : Int) : Int := (v + 2 ^ 15) % 2 ^ 16 - 2 ^ 15

/-- Value of an `int` (32 bits, two's complement) holding the result `v`. -/
def to_int32 (v : Int) : Int := (v + 2 ^ 31) % 2 ^ 32 - 2 ^ 31

/-- First word of an instruction, `codeWord`: four unsigned bit-fields. -/
structure codeWord where
  ARE : Nat
  dest_address : Nat
  src_address : Nat
  opcode : Nat
  deriving DecidableEq, Repr

/-- Extension word, `dataWord`: a 3-bit `ARE` and an `unsigned long` datum. -/
structure dataWord where
  ARE : Nat
  data : Nat
  deriving DecidableEq, Repr

/-- The union `word` of `MachineWordsArray`. -/
inductive word where
  | data (d : dataWord)
  | code (c : codeWord)
  deriving DecidableEq, Repr

/-- One slot of the code image, `MachineWordsArray`. -/
structure MachineWordsArray where
  length : Int
  word : word
  deriving DecidableEq, Repr

/-! ## utils.c -/

/-- Character of a C string at index `i` (the terminator past the end). -/
def char_at (s : List Char) (i : Nat) : Char := s.getD i '\x00'

/-- Embedding of `is_alpha`. -/
def is_alpha (c : Char) : Bool :=
  (decide ('A' ≤ c) && decide (c ≤ 'Z')) || (decide ('a' ≤ c) && decide (c ≤ 'z'))

/-- Embedding of `is_digit`. -/
def is_digit (c : Char) : Bool := decide ('0' ≤ c) && decide (c ≤ '9')

/-- Embedding of `is_alnum`. -/
def is_alnum (c : Char) : Bool := is_alpha c || (decide ('0' ≤ c) && decide (c ≤ '9'))

/-- The C expression `c - '0'`. -/
def digit_value (c : Char) : Int := (c.toNat : Int) - 48

/-- Embedding of `is_valid_operand`. -/
def is_valid_operand (operand : List Char) : Bool :=
  if char_at operand 0 = '#' then
    (operand.drop 1).all (fun c => is_digit c || c == '-' || c == '+')
  else if char_at operand 0 = 'r' then
    if is_digit (char_at operand 1) && char_at operand 2 == '\x00' then
      !(decide (digit_value (char_at operand 1) < 0) || decide (digit_value (char_at operand 1) > 7))
    else false
  else if char_at operand 0 = '*' then
    if char_at operand 1 == 'r' && is_digit (char_at operand 2) && char_at operand 3 == '\x00' then
      !(decide (digit_value (char_at operand 2) < 0) || decide (digit_value (char_at operand 2) > 7))
    else false
  else if is_alpha (char_at operand 0) then
    (operand.drop 1).all is_alnum
  else false

/-- Embedding of `get_addressing_type`. -/
def get_addressing_type (operand : List Char) : addressing_type :=
  if char_at operand 0 = '#' then .IMMEDIATE_ADDR
  else if is_alpha (char_at operand 0) then
    if char_at operand 0 == 'r' && is_digit (char_at operand 1) && char_at operand 2 == '\x00' then
      if decide (digit_value (char_at operand 1) ≥ 0) && decide (digit_value (char_at operand 1) ≤ 7) then
        .REGISTER_ADDR
      else .NONE_ADDR
    else .DIRECT_ADDR
  else if char_at operand 0 = '*' then .RELATIVE_ADDR
  else .NONE_ADDR

/-- Embedding of `get_opcode`. -/
def get_opcode (operation : List Char) : opcode :=
  if operation = "mov".toList then .MOV_OP
  else if operation = "cmp".toList then .CMP_OP
  else if operation = "add".toList then .ADD_OP
  else if operation = "sub".toList then .SUB_OP
  else if operation = "lea".toList then .LEA_OP
  else if operation = "clr".toList then .CLR_OP
  else if operation = "not".toList then .NOT_OP
  else if operation = "inc".toList then .INC_OP
  else if operation = "dec".toList then .DEC_OP
  else if operation = "jmp".toList then .JMP_OP
  else if operation = "bne".toList then .BNE_OP
  else if operation = "red".toList then .RED_OP
  else if operation = "prn".toList then .PRN_OP
  else if operation = "jsr".toList then .JSR_OP
  else if operation = "rts".toList then .RTS_OP
  else if operation = "stop".toList then .STOP_OP
  else .NONE_OP

/-! ## file_writer.c -/

/-- Embedding of `convert_code_word_to_binary`. -/
def convert_code_word_to_binary (codeword : codeWord) : Nat :=
  to_uint ((((0 ||| (codeword.opcode <<< 11)) ||| (codeword.src_address <<< 7))
    ||| (codeword.dest_address <<< 3)) ||| codeword.ARE)

/-- Embedding of `handle_data_value`; the parameter is a 32-bit `int`, whose
bit pattern (two's complement) is masked with `0x7FFF`. -/
def handle_data_value (data_value : Int) : Nat :=
  let data_value := if data_value < 0 then to_int32 ((1 <<< 15 : Nat) + data_value) else data_value
  (data_value % 2 ^ 32).toNat &&& 0x7FFF

/-- Embedding of `convert_data_word_to_binary`. -/
def convert_data_word_to_binary (dataword : dataWord) : Nat :=
  to_uint ((0 ||| ((dataword.data &&& 0xFFF) <<< 3)) ||| dataword.ARE)

/-- The loop of `convert_binary_to_octal`, on 32-bit unsigned variables. -/
def convert_binary_to_octal_loop (binary_value octal_value place_value : Nat) : Nat :=
  if h : binary_value ≠ 0 then
    convert_binary_to_octal_loop (binary_value / 8)
      (to_uint (octal_value + to_uint ((binary_value % 8) * place_value)))
      (to_uint (place_value * 10))
  else octal_value
termination_by binary_value
decreasing_by exact Nat.div_lt_self (Nat.pos_of_ne_zero h) (by decide)

/-- Embedding of `convert_binary_to_octal`. -/
def convert_binary_to_octal (binary_value : Nat) : Nat :=
  convert_binary_to_octal_loop binary_value 0 1

/-! ## C library functions used by the sources -/

/-- One call of `strtok` on the text that remains to be scanned: `none` when
no token is left, otherwise the token and the text after the delimiter that
ended it. -/
def strtok (delims : List Char) (s : List Char) : Option (List Char × List Char) :=
  match s.dropWhile (fun c => delims.contains c) with
  | [] => none
  | r => some (r.takeWhile (fun c => !delims.contains c),
      (r.dropWhile (fun c => !delims.contains c)).drop 1)

/-- Tokens returned by calling `strtok` until it returns `NULL`; every call
consumes at least one character, so `fuel` above the length of the text is
never exhausted. -/
def strtok_all_aux (delims : List Char) : Nat → List Char → List (List Char)
  | 0, _ => []
  | fuel + 1, s =>
    match strtok delims s with
    | none => []
    | some (t, r) => t :: strtok_all_aux delims fuel r

/-- Tokens returned by calling `strtok` until it returns `NULL`. -/
def strtok_all (delims : List Char) (s : List Char) : List (List Char) :=
  strtok_all_aux delims (s.length + 1) s

/-- The C predicate `isspace` in the "C" locale. -/
def isspace (c : Char) : Bool :=
  c == ' ' || c == '\t' || c == '\n' || c == '\x0b' || c == '\x0c' || c == '\r'

/-- Value of the leading decimal digits of `s`, continuing from `acc`, and
the text after them. -/
def strtol_digits : Int → List Char → Int × List Char
  | acc, [] => (acc, [])
  | acc, c :: cs =>
    if is_digit c then strtol_digits (acc * 10 + digit_value c) cs else (acc, c :: cs)

/-- Smallest value of a `long`. -/
def LONG_MIN : Int := -(2 ^ 63)

/-- Largest value of a `long`. -/
def LONG_MAX : Int := 2 ^ 63 - 1

/-- The call `strtol(s, &endptr, 10)`: the value and the text `endptr`
points to. Without any digit no conversion is made and `endptr` is `s`. -/
def strtol (s : List Char) : Int × List Char :=
  let t := s.dropWhile isspace
  let neg := decide (t.head? = some '-')
  let body := if t.head? = some '-' ∨ t.head? = some '+' then t.drop 1 else t
  if is_digit (char_at body 0) then
    let r := strtol_digits 0 body
    let v := if neg then -r.1 else r.1
    (if v < LONG_MIN then LONG_MIN else if v > LONG_MAX then LONG_MAX else v, r.2)
  else (0, s)

/-- The C call `strstr(hay, needle) != NULL`. -/
def strstr_found (hay needle : List Char) : Bool :=
  hay.tails.any (fun t => needle.isPrefixOf t)

/-! ## Errors -/

deriving instance DecidableEq for Except

/-- The ways in which assembling stops: one constructor for each diagnostic
of the sources (`exit(EXIT_FAILURE)` or `return false`), and one for a
dereference of a `NULL` operand. -/
inductive asm_error where
  | unknown_operation
  | too_many_operands
  | invalid_operand
  | missing_operands
  | invalid_operand_type
  | invalid_source_operand_type
  | invalid_destination_operand_type
  | duplicate_label
  | invalid_label
  | extern_array_full
  | entry_array_full
  | invalid_comma
  | invalid_number
  | invalid_data_directive
  | expected_opening_quote
  | missing_closing_quote
  | invalid_string_directive
  | unknown_directive_or_operation
  | ram_overflow
  | line_too_long
  | operands_not_extracted
  | unrecognized_operation
  | invalid_addressing_type
  | label_not_initialized
  | unrecognized_operation_or_directive
  | entry_label_not_found
  | null_operand
  deriving DecidableEq, Repr

/-! ## first_pass.h -/

/-- A label with the value of the line counter at its definition, `Label`. -/
structure Label where
  label : List Char
  line_number : Int
  deriving DecidableEq, Repr

/-- An extern or entry record, `ExternEntry`. -/
structure ExternEntry where
  name : List Char
  line_number : Int
  deriving DecidableEq, Repr

/-- The extern table and the entry table, `ExternEntryArray`; the counts are
the lengths of the lists. -/
structure ExternEntryArray where
  externs : List ExternEntry
  entries : List ExternEntry
  deriving DecidableEq, Repr

/-- An operation with its valid addressing types, `operation_info`; each
array has five cells, the cells an initializer leaves out being zero. -/
structure operation_info where
  operation : List Char
  valid_src_types : List Int
  valid_dest_types : List Int
  deriving DecidableEq, Repr

/-! ## first_pass.c -/

/-- The array `operations`. -/
def operations : List (List Char) :=
  ["mov".toList, "cmp".toList, "add".toList, "sub".toList, "lea".toList, "clr".toList,
   "not".toList, "inc".toList, "dec".toList, "jmp".toList, "bne".toList, "red".toList,
   "prn".toList, "jsr".toList, "rts".toList, "stop".toList]

/-- The array `operations_info`. -/
def operations_info : List operation_info :=
  [⟨"mov".toList, [1, 2, 4, 8, -1], [2, 4, 8, -1, 0]⟩,
   ⟨"cmp".toList, [1, 2, 4, 8, -1], [1, 2, 4, 8, -1]⟩,
   ⟨"add".toList, [1, 2, 4, 8, -1], [2, 4, 8, -1, 0]⟩,
   ⟨"sub".toList, [1, 2, 4, 8, -1], [2, 4, 8, -1, 0]⟩,
   ⟨"lea".toList, [2, -1, -1, -1, -1], [2, 4, 8, -1, -1]⟩,
   ⟨"clr".toList, [-1, -1, -1, -1, -1], [2, 4, 8, -1, -1]⟩,
   ⟨"not".toList, [-1, -1, -1, -1, -1], [2, 4, 8, -1, -1]⟩,
   ⟨"inc".toList, [-1, -1, -1, -1, -1], [2, 4, 8, -1, -1]⟩,
   ⟨"dec".toList, [-1, -1, -1, -1, -1], [2, 4, 8, -1, -1]⟩,
   ⟨"jmp".toList, [-1, -1, -1, -1, -1], [2, 4, -1, -1, -1]⟩,
   ⟨"bne".toList, [-1, -1, -1, -1, -1], [2, 4, -1, -1, -1]⟩,
   ⟨"red".toList, [-1, -1, -1, -1, -1], [2, 4, 8, -1, -1]⟩,
   ⟨"prn".toList, [-1, -1, -1, -1, -1], [1, 2, 4, 8, -1]⟩,
   ⟨"jsr".toList, [-1, -1, -1, -1, -1], [2, 4, -1, -1, -1]⟩,
   ⟨"rts".toList, [-1, -1, -1, -1, -1], [-1, -1, -1, -1, -1]⟩,
   ⟨"stop".toList, [-1, -1, -1, -1, -1], [-1, -1, -1, -1, -1]⟩]

/-- Embedding of `is_operation`. -/
def is_operation (token : List Char) : Bool := operations.contains token

/-- Embedding of `get_operand_count`. -/
def get_operand_count (operation : List Char) : Int :=
  if operation = "mov".toList ∨ operation = "cmp".toList ∨ operation = "add".toList ∨
      operation = "sub".toList ∨ operation = "lea".toList then 2
  else if operation = "clr".toList ∨ operation = "not".toList ∨ operation = "inc".toList ∨
      operation = "dec".toList ∨ operation = "jmp".toList ∨ operation = "bne".toList ∨
      operation = "red".toList ∨ operation = "prn".toList ∨ operation = "jsr".toList then 1
  else if operation = "rts".toList ∨ operation = "stop".toList then 0
  else -1

/-- Embedding of `is_valid_operand_type`: the scan stops at the first `-1`. -/
def is_valid_operand_type (type : Int) : List Int → Bool
  | [] => false
  | v :: vs => if v = -1 then false else if type = v then true else is_valid_operand_type type vs

/-- Embedding of `get_operation_info`. -/
def get_operation_info (operation : List Char) : Option operation_info :=
  operations_info.find? (fun i => decide (operation = i.operation))

/-- The `strtok` loop of `calculate_instruction_lines`: the number of
operands and the addressing types of the first two. A third token ends the
program, so the loop is written out for three calls. -/
def scan_operands (operands : List Char) :
    Except asm_error (Int × addressing_type × addressing_type) :=
  match strtok " ,\t".toList operands with
  | none => .ok (0, .NONE_ADDR, .NONE_ADDR)
  | some (t1, r1) =>
    if !is_valid_operand t1 then .error .invalid_operand
    else
      match strtok " ,\t".toList r1 with
      | none => .ok (1, get_addressing_type t1, .NONE_ADDR)
      | some (t2, r2) =>
        if !is_valid_operand t2 then .error .invalid_operand
        else
          match strtok " ,\t".toList r2 with
          | none => .ok (2, get_addressing_type t1, get_addressing_type t2)
          | some _ => .error .too_many_operands

/-- Whether an addressing type is register or relative. -/
def is_reg_or_rel (a : addressing_type) : Bool :=
  decide (a = .REGISTER_ADDR) || decide (a = .RELATIVE_ADDR)

/-- The operand-type validation of `calculate_instruction_lines`: the error
it ends with, if any. -/
def operand_type_error (op_info : operation_info) (operand_count : Int)
    (src_type dest_type : addressing_type) : Option asm_error :=
  if operand_count = 1 then
    if is_valid_operand_type src_type.toInt op_info.valid_dest_types = false then
      some .invalid_operand_type
    else none
  else if operand_count ≥ 1 ∧
      is_valid_operand_type src_type.toInt op_info.valid_src_types = false then
    some .invalid_source_operand_type
  else if operand_count = 2 ∧
      is_valid_operand_type dest_type.toInt op_info.valid_dest_types = false then
    some .invalid_destination_operand_type
  else none

/-- The line count `calculate_instruction_lines` computes from the
addressing types of the operands. -/
def count_lines (src_type dest_type : addressing_type) : Int :=
  let n1 : Int := 1
  let n2 := if src_type ≠ .NONE_ADDR then n1 + 1 else n1
  let n3 := if dest_type ≠ .NONE_ADDR then n2 + 1 else n2
  if is_reg_or_rel src_type && is_reg_or_rel dest_type then n3 - 1 else n3

/-- Embedding of `calculate_instruction_lines`; a `NULL` operand text, on
which `strtok` finds no token, is the empty text. -/
def calculate_instruction_lines (operation operands : List Char) : Except asm_error Int :=
  match get_operation_info operation with
  | none => .error .unknown_operation
  | some op_info =>
    match scan_operands operands with
    | .error e => .error e
    | .ok (operand_count, src_type, dest_type) =>
      let expected_operand_count := get_operand_count operation
      if expected_operand_count ≠ operand_count then
        if operand_count < expected_operand_count then .error .missing_operands
        else .error .too_many_operands
      else
        match operand_type_error op_info operand_count src_type dest_type with
        | some e => .error e
        | none => .ok (count_lines src_type dest_type)

/-- Embedding of `is_unique_label`. -/
def is_unique_label (array : List Label) (label : List Char) : Bool :=
  !array.any (fun l => decide (l.label = label))

/-- Embedding of `add_label`: the name is copied with
`strncpy(_, label, MAX_LABEL_LENGTH)`. -/
def add_label (array : List Label) (label : List Char) (line_number : Int) :
    Except asm_error (List Label) :=
  if !is_unique_label array label then .error .duplicate_label
  else .ok (array ++ [{ label := label.take MAX_LABEL_LENGTH, line_number := line_number }])

/-- Embedding of `is_valid_label`. -/
def is_valid_label (label : List Char) : Bool :=
  if !is_alpha (char_at label 0) then false
  else (label.drop 1).all is_alnum

/-- Embedding of `add_extern`: the name is copied with
`strncpy(_, name, MAX_LABEL_LENGTH)` into an array of `MAX_LABEL_LENGTH`
bytes. A name of fewer than 31 characters is stored as it is. A longer name
fills the array and leaves it without a terminator: what a reader of the
string finds after the 31 characters is the content of the bytes behind the
array (padding and the line number), which is not embedded; the stored name
is then the first 31 characters. -/
def add_extern (array : ExternEntryArray) (name : List Char) (line_number : Int) :
    Except asm_error ExternEntryArray :=
  if array.externs.length ≥ MAX_EXTERN_ENTRIES then .error .extern_array_full
  else .ok { array with
    externs := array.externs ++
      [{ name := name.take MAX_LABEL_LENGTH, line_number := line_number }] }

/-- Embedding of `add_entry`: the name is copied with
`strncpy(_, name, MAX_LABEL_LENGTH)` into an array of `MAX_LABEL_LENGTH`
bytes. A name of fewer than 31 characters is stored as it is. A longer name
fills the array and leaves it without a terminator: what a reader of the
string finds after the 31 characters is the content of the bytes behind the
array (padding and the line number), which is not embedded; the stored name
is then the first 31 characters. -/
def add_entry (array : ExternEntryArray) (name : List Char) (line_number : Int) :
    Except asm_error ExternEntryArray :=
  if array.entries.length ≥ MAX_EXTERN_ENTRIES then .error .entry_array_full
  else .ok { array with
    entries := array.entries ++
      [{ name := name.take MAX_LABEL_LENGTH, line_number := line_number }] }

/-- The token loop of `handle_extern_entry_directive`. -/
def add_extern_entry_tokens (directive : List Char) (line_number : Int) :
    List (List Char) → ExternEntryArray → Except asm_error ExternEntryArray
  | [], array => .ok array
  | token :: tokens, array =>
    if directive = ".extern".toList then
      match add_extern array token line_number with
      | .error e => .error e
      | .ok array1 => add_extern_entry_tokens directive line_number tokens array1
    else if directive = ".entry".toList then
      match add_entry array token line_number with
      | .error e => .error e
      | .ok array1 => add_extern_entry_tokens directive line_number tokens array1
    else add_extern_entry_tokens directive line_number tokens array

/-- Embedding of `handle_extern_entry_directive`; `rest` is the text that
`strtok` has not scanned yet. -/
def handle_extern_entry_directive (directive rest : List Char)
    (ext_entry_array : ExternEntryArray) (line_number : Int) :
    Except asm_error ExternEntryArray :=
  add_extern_entry_tokens directive line_number (strtok_all " \t".toList rest) ext_entry_array

/-- The loop of `validate_commas` over the characters of the line, with its
three variables, followed by the test for a trailing comma. -/
def validate_commas_loop (is_data : Bool) :
    List Char → (expecting_number_or_operand : Bool) → (prev_char : Char) →
    (in_string : Bool) → Bool
  | [], _, prev_char, _ => !(prev_char == ',')
  | current_char :: cs, expecting, prev_char, in_string =>
    if is_data then
      if current_char = ',' then
        if expecting || prev_char == ',' then false
        else validate_commas_loop is_data cs true current_char in_string
      else if current_char ≠ ' ' ∧ current_char ≠ '\t' then
        validate_commas_loop is_data cs false current_char in_string
      else validate_commas_loop is_data cs expecting current_char in_string
    else
      if current_char = ',' ∧ in_string = false then
        if expecting || prev_char == ',' then false
        else validate_commas_loop is_data cs true current_char in_string
      else if current_char = '"' then
        validate_commas_loop is_data cs expecting current_char (!in_string)
      else if in_string = false ∧ current_char ≠ ' ' ∧ current_char ≠ '\t' then
        validate_commas_loop is_data cs false current_char in_string
      else validate_commas_loop is_data cs expecting current_char in_string

/-- Embedding of `validate_commas`. -/
def validate_commas (line : List Char) (is_data : Bool) : Bool :=
  validate_commas_loop is_data line true '\x00' false

/-- The token loop of `handle_data_directive`: every token must be read in
full by `strtol`, and advances the line counter by one. -/
def count_data_tokens : List (List Char) → Int → Except asm_error Int
  | [], line_counter => .ok line_counter
  | token :: tokens, line_counter =>
    if (strtol token).2 ≠ [] then .error .invalid_number
    else count_data_tokens tokens (line_counter + 1)

/-- Embedding of `handle_data_directive`: the new value of the line counter. -/
def handle_data_directive (line : List Char) (line_counter : Int) : Except asm_error Int :=
  if !validate_commas line true then .error .invalid_comma
  else count_data_tokens (strtok_all " \t,".toList line) line_counter

/-- The backward scan of `handle_string_directive` over trailing blanks:
`end` moves down while it is above `start` (index 1) and on a blank. -/
def skip_trailing_blanks (line : List Char) : Nat → Nat
  | 0 => 0
  | e + 1 =>
    if e + 1 > 1 ∧ (char_at line (e + 1) = ' ' ∨ char_at line (e + 1) = '\t') then
      skip_trailing_blanks line e
    else e + 1

/-- Embedding of `handle_string_directive`: the new value of the line
counter, one more than the number of characters between the opening quote
and the last quote. -/
def handle_string_directive (line : List Char) (line_counter : Int) : Except asm_error Int :=
  let line := line.dropWhile (fun c => c == ' ' || c == '\t')
  if char_at line 0 ≠ '"' then .error .expected_opening_quote
  else
    let last_quote := skip_trailing_blanks line (line.length - 1)
    if char_at line last_quote ≠ '"' then .error .missing_closing_quote
    else .ok (line_counter + ((last_quote - 1 : Nat) : Int) + 1)

/-- The variables of `first_pass` that persist from line to line. -/
structure first_pass_state where
  label_array : List Label
  ext_entry_array : ExternEntryArray
  line_counter : Int
  user_line_counter : Int
  deriving DecidableEq, Repr

/-- The branches of the loop body of `first_pass` on the first token after
the optional label: an instruction, `.data`, `.string`, `.extern` or
`.entry`; `rest` is the text `strtok` has not scanned yet. -/
def first_pass_dispatch (st : first_pass_state) (token rest : List Char) :
    Except asm_error first_pass_state :=
  if is_operation token then
    let operands := (strtok "\n".toList rest).map (fun p => p.1)
    match calculate_instruction_lines token (operands.getD []) with
    | .error e => .error e
    | .ok num_of_lines => .ok { st with line_counter := st.line_counter + num_of_lines }
  else if token = ".data".toList then
    match strtok "\n".toList rest with
    | some (data_part, _) =>
      match handle_data_directive data_part st.line_counter with
      | .error e => .error e
      | .ok c => .ok { st with line_counter := c }
    | none => .error .invalid_data_directive
  else if token = ".string".toList then
    match strtok "\n".toList rest with
    | some (string_directive, _) =>
      match handle_string_directive
          (string_directive.dropWhile (fun c => c == ' ' || c == '\t')) st.line_counter with
      | .error e => .error e
      | .ok c => .ok { st with line_counter := c }
    | none => .error .invalid_string_directive
  else if token = ".extern".toList ∨ token = ".entry".toList then
    match handle_extern_entry_directive token rest st.ext_entry_array st.line_counter with
    | .error e => .error e
    | .ok array => .ok { st with ext_entry_array := array }
  else .error .unknown_directive_or_operation

/-- The part of the loop body of `first_pass` that handles the text after
the optional label: `token` is the result of the last `strtok` call (the
token and the text not scanned yet). A line without such a token counts one
word and skips the test for RAM overflow. -/
def first_pass_statement (st : first_pass_state) (token : Option (List Char × List Char)) :
    Except asm_error first_pass_state :=
  match token with
  | none =>
    .ok { st with
      user_line_counter := st.user_line_counter + 1, line_counter := st.line_counter + 1 }
  | some (token, rest) =>
    match first_pass_dispatch st token rest with
    | .error e => .error e
    | .ok st1 =>
      if st1.line_counter > CODE_ARR_IMG_LENGTH then .error .ram_overflow
      else .ok { st1 with user_line_counter := st1.user_line_counter + 1 }

/-- The loop body of `first_pass` on one line as `fgets` returns it. -/
def first_pass_line (st : first_pass_state) (raw : List Char) :
    Except asm_error first_pass_state :=
  if raw.length > MAX_LINE_LENGTH then .error .line_too_long
  else
    let line := raw.takeWhile (fun c => !(c == '\r' || c == '\n'))
    if line.length = 0 ∨ (line.takeWhile (fun c => c == ' ' || c == '\t')).length = line.length then
      .ok { st with user_line_counter := st.user_line_counter + 1 }
    else if !validate_commas line (strstr_found line ".data".toList) then .error .invalid_comma
    else
      match strtok " \t".toList line with
      | some (token, rest) =>
        if token.contains ':' then
          let label := token.takeWhile (fun c => !(c == ':'))
          if is_valid_label label then
            match add_label st.label_array label st.line_counter with
            | .error e => .error e
            | .ok labels =>
              first_pass_statement { st with label_array := labels } (strtok " \t".toList rest)
          else .error .invalid_label
        else first_pass_statement st (some (token, rest))
      | none => first_pass_statement st none

/-- The loop of `first_pass` over the lines that remain. -/
def first_pass_lines : first_pass_state → List (List Char) → Except asm_error first_pass_state
  | st, [] => .ok st
  | st, line :: lines =>
    match first_pass_line st line with
    | .error e => .error e
    | .ok st1 => first_pass_lines st1 lines

/-- The state of `first_pass` before the first line, as `process_file`
initializes it. -/
def first_pass_init : first_pass_state :=
  { label_array := [], ext_entry_array := { externs := [], entries := [] },
    line_counter := IC_INIT_VALUE, user_line_counter := 1 }

/-- Embedding of `first_pass` on the lines of the expanded source, each as
`fgets` returns it (at most `MAX_LINE_LENGTH` characters, the newline
included). -/
def first_pass (lines : List (List Char)) : Except asm_error first_pass_state :=
  first_pass_lines first_pass_init lines

/-! ## second_pass.c -/

/-- Contents of memory returned by `malloc` at the time it is allocated: a
code-image slot and an extension word. -/
structure uninit_memory where
  machine_word : MachineWordsArray
  data_word : dataWord
  deriving DecidableEq, Repr

/-- What the second pass builds while it encodes instructions: the code
image (indexed by `ic - IC_INIT_VALUE`), the instruction counter, and the
array of extern uses, which is `NULL` (`none`) or holds the listed records
followed by a terminating record with an empty name. -/
structure code_state where
  code_img : Int → Option MachineWordsArray
  ic : Int
  extern_printing_array : Option (List ExternEntry)

/-- The statements `code_img[*ic - IC_INIT_VALUE] = word_to_write; (*ic)++`. -/
def store_word (st : code_state) (w : MachineWordsArray) : code_state :=
  { st with
    code_img := fun i => if i = st.ic - IC_INIT_VALUE then some w else st.code_img i
    ic := st.ic + 1 }

/-- The state in which `process_file` starts the second pass: an empty code
image, `IC = IC_INIT_VALUE`, and no extern-use array. -/
def second_pass_init : code_state :=
  { code_img := fun _ => none, ic := IC_INIT_VALUE, extern_printing_array := none }

/-- Embedding of `create_code_word`. -/
def create_code_word (curr_opcode : opcode) (_op_count : Int)
    (operand0 operand1 : Option (List Char)) : codeWord :=
  let first_addressing :=
    match operand0 with
    | some o => get_addressing_type o
    | none => addressing_type.NONE_ADDR
  let second_addressing :=
    match operand1 with
    | some o => get_addressing_type o
    | none => addressing_type.NONE_ADDR
  let codeword : codeWord :=
    { opcode := bitfield 4 curr_opcode.toInt, ARE := bitfield 3 4,
      dest_address := bitfield 4 0, src_address := bitfield 4 0 }
  if curr_opcode = .MOV_OP ∨ curr_opcode = .CMP_OP ∨ curr_opcode = .ADD_OP ∨
      curr_opcode = .SUB_OP ∨ curr_opcode = .LEA_OP then
    { codeword with
      src_address := bitfield 4 first_addressing.toInt
      dest_address := bitfield 4 second_addressing.toInt }
  else if curr_opcode = .CLR_OP ∨ curr_opcode = .NOT_OP ∨ curr_opcode = .INC_OP ∨
      curr_opcode = .DEC_OP ∨ curr_opcode = .JMP_OP ∨ curr_opcode = .BNE_OP ∨
      curr_opcode = .JSR_OP ∨ curr_opcode = .RED_OP ∨ curr_opcode = .PRN_OP then
    { codeword with dest_address := bitfield 4 first_addressing.toInt }
  else codeword

/-- Embedding of `handle_register_address_word`; `uninit` is the content of
the allocated word, whose `data` is assigned in three of the four cases. -/
def handle_register_address_word (uninit : dataWord)
    (num_of_first_reg num_of_second_reg : Int) : dataWord :=
  let dataword : dataWord := { uninit with ARE := bitfield 3 4 }
  if num_of_first_reg ≠ 0 ∧ num_of_second_reg = 0 then
    { dataword with data := to_ulong (num_of_first_reg * 2 ^ 3) }
  else if num_of_first_reg = 0 ∧ num_of_second_reg ≠ 0 then
    { dataword with data := to_ulong num_of_second_reg }
  else if num_of_first_reg ≠ 0 ∧ num_of_second_reg ≠ 0 then
    { dataword with
      data := ((to_ulong num_of_first_reg <<< 3) % 2 ^ 64) ||| to_ulong num_of_second_reg }
  else dataword

/-- Embedding of `handle_non_register_address_word`; `uninit` is the content
of the allocated word, left as it is for an addressing type that is neither
immediate nor direct. -/
def handle_non_register_address_word (uninit : dataWord) (addressing : addressing_type)
    (data : Int) (is_extern_symbol : Bool) : dataWord :=
  if addressing = .IMMEDIATE_ADDR then
    { ARE := bitfield 3 4, data := to_ulong data }
  else if addressing = .DIRECT_ADDR then
    { ARE := bitfield 3 (if is_extern_symbol then 1 else 2), data := to_ulong data }
  else uninit

/-- The search loop of `generate_non_register_code_word` for the first free
record of the extern-use array: the index of the first record whose name is
empty (the terminating record, when no earlier one is). -/
def extern_count_scan (extern_printing_array : Option (List ExternEntry)) : Nat :=
  match extern_printing_array with
  | none => 0
  | some l => (l.takeWhile (fun e => !e.name.isEmpty)).length

/-- The records of the extern-use array before the terminating record, which
`write_externs_to_file` prints in this order. -/
def extern_uses (extern_printing_array : Option (List ExternEntry)) : List ExternEntry :=
  match extern_printing_array with
  | none => []
  | some l => l.takeWhile (fun e => !e.name.isEmpty)

/-- The statements of `generate_non_register_code_word` that record a use of
the extern `e` at `ic`: the array is reallocated to `extern_count + 2`
records, the record is written at `extern_count` and the terminator after. -/
def record_extern_use (extern_printing_array : Option (List ExternEntry)) (e : ExternEntry)
    (ic : Int) : Option (List ExternEntry) :=
  let extern_count := extern_count_scan extern_printing_array
  let kept := (extern_printing_array.getD []).take extern_count
  some (kept ++ [{ name := e.name.take (MAX_LABEL_LENGTH - 1), line_number := ic }])

/-- Embedding of `generate_non_register_code_word`; a `NULL` operand is
`none`. -/
def generate_non_register_code_word (u : uninit_memory) (st : code_state)
    (operand : Option (List Char)) (label_array : List Label)
    (ext_entry_array : ExternEntryArray) : Except asm_error code_state :=
  match operand with
  | none => .error .null_operand
  | some operand =>
    let operand_addressing := get_addressing_type operand
    if operand_addressing ≠ .NONE_ADDR then
      if operand_addressing = .IMMEDIATE_ADDR then
        let value := to_short (strtol (operand.drop 1)).1
        .ok (store_word st
          { length := 0
            word := .data (handle_non_register_address_word u.data_word .IMMEDIATE_ADDR value false) })
      else if operand_addressing = .DIRECT_ADDR then
        match ext_entry_array.externs.find? (fun e => decide (e.name = operand)) with
        | some e =>
          .ok (store_word
            { st with
              extern_printing_array := record_extern_use st.extern_printing_array e st.ic }
            { length := 0
              word := .data (handle_non_register_address_word u.data_word .DIRECT_ADDR 0 true) })
        | none =>
          match label_array.find? (fun l => decide (l.label = operand)) with
          | some l =>
            .ok (store_word st
              { length := 0
                word := .data
                  (handle_non_register_address_word u.data_word .DIRECT_ADDR l.line_number false) })
          | none => .error .label_not_initialized
      else .ok (store_word st u.machine_word)
    else .ok st

/-- The register number read by `generate_register_code_word` from an
operand of the given addressing type; a `NULL` operand that is read is an
error. -/
def read_register (addr : addressing_type) (operand : Option (List Char)) :
    Except asm_error Int :=
  if addr = .REGISTER_ADDR then
    match operand with
    | some o => .ok (to_short (strtol (o.drop 1)).1)
    | none => .error .null_operand
  else if addr = .RELATIVE_ADDR then
    match operand with
    | some o => .ok (to_short (strtol (o.drop 2)).1)
    | none => .error .null_operand
  else .ok 0

/-- Embedding of `generate_register_code_word`. -/
def generate_register_code_word (u : uninit_memory) (st : code_state)
    (first_operand_addr second_operand_addr : addressing_type)
    (operand1 operand2 : Option (List Char)) : Except asm_error code_state :=
  match read_register first_operand_addr operand1 with
  | .error e => .error e
  | .ok num_of_first_reg =>
    match read_register second_operand_addr operand2 with
    | .error e => .error e
    | .ok num_of_second_reg =>
      .ok (store_word st
        { length := 0
          word := .data
            (handle_register_address_word u.data_word num_of_first_reg num_of_second_reg) })

/-- The operand-splitting loop of `process_code`: at most two tokens are
kept, each copied into a buffer of `MAX_OPERAND_LENGTH` bytes. -/
def extract_operands (operands_line : List Char) :
    Except asm_error (Option (List Char) × Option (List Char)) :=
  if operands_line ≠ [] then
    match strtok ", \t".toList operands_line with
    | none => .error .operands_not_extracted
    | some (t1, r1) =>
      match strtok ", \t".toList r1 with
      | none => .ok (some (t1.take (MAX_OPERAND_LENGTH - 1)), none)
      | some (t2, _) =>
        .ok (some (t1.take (MAX_OPERAND_LENGTH - 1)), some (t2.take (MAX_OPERAND_LENGTH - 1)))
  else .ok (none, none)

/-- The addressing type `process_code` computes for an operand that is
present; `NONE_ADDR` makes it return `false`. -/
def operand_addressing (operand : Option (List Char)) : Except asm_error addressing_type :=
  match operand with
  | none => .ok .NONE_ADDR
  | some o =>
    if get_addressing_type o = .NONE_ADDR then .error .invalid_addressing_type
    else .ok (get_addressing_type o)

/-- The extension words of `process_code`: the branches on the addressing
types of the operands, with `operand_count` already decremented once. -/
def emit_operand_words (u : uninit_memory) (st : code_state) (operand_count : Int)
    (first_operand_addressing second_operand_addressing : addressing_type)
    (operand0 operand1 : Option (List Char)) (labels : List Label)
    (ext_entry_array : ExternEntryArray) : Except asm_error code_state :=
  if is_reg_or_rel first_operand_addressing && is_reg_or_rel second_operand_addressing then
    generate_register_code_word u st first_operand_addressing second_operand_addressing
      operand0 operand1
  else if is_reg_or_rel first_operand_addressing then
    if operand_count = 0 then
      generate_register_code_word u st .NONE_ADDR first_operand_addressing none operand0
    else
      match generate_register_code_word u st first_operand_addressing
          second_operand_addressing operand0 none with
      | .error e => .error e
      | .ok st1 => generate_non_register_code_word u st1 operand1 labels ext_entry_array
  else if is_reg_or_rel second_operand_addressing then
    if operand_count ≠ 0 then
      match generate_non_register_code_word u st operand0 labels ext_entry_array with
      | .error e => .error e
      | .ok st1 =>
        generate_register_code_word u st1 first_operand_addressing second_operand_addressing
          none operand1
    else
      generate_register_code_word u st first_operand_addressing second_operand_addressing
        none operand1
  else
    match generate_non_register_code_word u st operand0 labels ext_entry_array with
    | .error e => .error e
    | .ok st1 =>
      if operand_count > 0 then
        generate_non_register_code_word u st1 operand1 labels ext_entry_array
      else .ok st1

/-- Embedding of `process_code`; the `NULL` operand text is the empty text,
as `second_pass` passes it. -/
def process_code (u : uninit_memory) (operation operands_line : List Char) (st : code_state)
    (labels : List Label) (ext_entry_array : ExternEntryArray) : Except asm_error code_state :=
  match extract_operands operands_line with
  | .error e => .error e
  | .ok (operand0, operand1) =>
    let curr_opcode := get_opcode operation
    if curr_opcode = .NONE_OP then .error .unrecognized_operation
    else
      let operand_count := get_operand_count operation
      let codeword := create_code_word curr_opcode operand_count operand0 operand1
      let ic_before := st.ic
      let st1 := store_word st { u.machine_word with word := .code codeword }
      match operand_addressing operand0 with
      | .error e => .error e
      | .ok first_operand_addressing =>
        match operand_addressing operand1 with
        | .error e => .error e
        | .ok second_operand_addressing =>
          let emitted :=
            if operand_count ≠ 0 then
              emit_operand_words u st1 (operand_count - 1) first_operand_addressing
                second_operand_addressing operand0 operand1 labels ext_entry_array
            else .ok st1
          match emitted with
          | .error e => .error e
          | .ok st2 =>
            .ok { st2 with
              code_img := fun i =>
                if i = ic_before - IC_INIT_VALUE then
                  (st2.code_img i).map (fun w => { w with length := st2.ic - ic_before })
                else st2.code_img i }

/-- What `second_pass` builds: the state of the encoder, the data image and
the data counter. A cell of the data image that was never written is
`none`. -/
structure second_pass_state where
  code : code_state
  data_img : Int → Option Int
  dc : Int

/-- The statements `data_img[*dc] = value; (*dc)++`. -/
def store_data (st : second_pass_state) (value : Int) : second_pass_state :=
  { st with
    data_img := fun i => if i = st.dc then some value else st.data_img i
    dc := st.dc + 1 }

/-- The token loop of `handle_data_directive_SP`. -/
def store_data_tokens : List (List Char) → second_pass_state →
    Except asm_error second_pass_state
  | [], st => .ok st
  | token :: tokens, st =>
    if (strtol token).2 ≠ [] then .error .invalid_number
    else store_data_tokens tokens (store_data st (strtol token).1)

/-- Embedding of `handle_data_directive_SP`. -/
def handle_data_directive_SP (line : List Char) (st : second_pass_state) :
    Except asm_error second_pass_state :=
  store_data_tokens (strtok_all " \t,".toList line) st

/-- The C expression `(long)(*start)` for a `char` that holds the byte `c`:
the type `char` is signed, so a byte of 128 or more is a negative value; for
the characters of the 7-bit set it is the code of the character. -/
def char_value (c : Char) : Int := ((c.toNat : Int) + 128) % 256 - 128

/-- The character loop of `handle_string_directive_SP`: every character
(byte) of the literal is stored as a `long`. -/
def store_characters : List Char → second_pass_state → second_pass_state
  | [], st => st
  | c :: cs, st => store_characters cs (store_data st (char_value c))

/-- Embedding of `handle_string_directive_SP`: the string ends at the first
quote after the opening one. -/
def handle_string_directive_SP (line : List Char) (st : second_pass_state) :
    Except asm_error second_pass_state :=
  let line := line.dropWhile (fun c => c == ' ' || c == '\t')
  if char_at line 0 ≠ '"' then .error .expected_opening_quote
  else
    let start := line.drop 1
    if !start.contains '"' then .error .missing_closing_quote
    else .ok (store_data (store_characters (start.takeWhile (fun c => !(c == '"'))) st) 0)

/-- The loop body of `second_pass` on one line as `fgets` returns it. -/
def second_pass_line (u : uninit_memory) (label_array : List Label)
    (ext_entry_array : ExternEntryArray) (st : second_pass_state) (raw : List Char) :
    Except asm_error second_pass_state :=
  let line := raw.takeWhile (fun c => !(c == '\r' || c == '\n'))
  let first := strtok " \t".toList line
  let statement : Option (List Char × List Char) :=
    match first with
    | some (token, rest) => if token.contains ':' then strtok " \t".toList rest else first
    | none => none
  match statement with
  | none => .ok st
  | some (operation, rest) =>
    let remaining_line := ((strtok [] rest).map (fun p => p.1)).getD []
    if operation = ".extern".toList ∨ operation = ".entry".toList then .ok st
    else if operation = ".data".toList then handle_data_directive_SP remaining_line st
    else if operation = ".string".toList then handle_string_directive_SP remaining_line st
    else if is_operation operation then
      match process_code u operation remaining_line st.code label_array ext_entry_array with
      | .error e => .error e
      | .ok code => .ok { st with code := code }
    else .error .unrecognized_operation_or_directive

/-- The loop of `second_pass` over the lines that remain. -/
def second_pass_lines (u : uninit_memory) (label_array : List Label)
    (ext_entry_array : ExternEntryArray) :
    second_pass_state → List (List Char) → Except asm_error second_pass_state
  | st, [] => .ok st
  | st, line :: lines =>
    match second_pass_line u label_array ext_entry_array st line with
    | .error e => .error e
    | .ok st1 => second_pass_lines u label_array ext_entry_array st1 lines

/-- Embedding of `second_pass` on the lines of the expanded source, from the
state `process_file` sets up: `IC = IC_INIT_VALUE`, `DC = 0`. -/
def second_pass (u : uninit_memory) (label_array : List Label)
    (ext_entry_array : ExternEntryArray) (lines : List (List Char)) :
    Except asm_error second_pass_state :=
  second_pass_lines u label_array ext_entry_array
    { code := second_pass_init, data_img := fun _ => none, dc := 0 } lines

/-! ## file_writer.c: the object file -/

/-- The value `write_ob_file` computes for a slot of the code image: the
slot is read as a code word when its `length` is positive and as a data
word otherwise. Reading the member of the union that was not written is
`none`. -/
def ob_binary_value (w : MachineWordsArray) : Option Nat :=
  if w.length > 0 then
    match w.word with
    | .code c => some (convert_code_word_to_binary c)
    | .data _ => none
  else
    match w.word with
    | .data d => some (convert_data_word_to_binary d)
    | .code _ => none

/-- The first loop of `write_ob_file`, for `i` from 0 to `n - 1`: the
address and the binary value of each code word. An empty slot is `none`. -/
def ob_code_values (code_img : Int → Option MachineWordsArray) : Nat → Option (List (Int × Nat))
  | 0 => some []
  | n + 1 =>
    match ob_code_values code_img n, (code_img n).bind ob_binary_value with
    | some lines, some b => some (lines ++ [((n : Int) + 100, b)])
    | _, _ => none

/-- The second loop of `write_ob_file`, for `i` from 0 to `n - 1`: the
address and the binary value of each data word; the `long` of the data
image is passed as an `int`. -/
def ob_data_values (data_img : Int → Option Int) (icf : Int) : Nat → Option (List (Int × Nat))
  | 0 => some []
  | n + 1 =>
    match ob_data_values data_img icf n, data_img n with
    | some lines, some v =>
      some (lines ++ [((n : Int) + 100 + icf - IC_INIT_VALUE, handle_data_value (to_int32 v))])
    | _, _ => none

/-- The two numbers of the header line of `write_ob_file`, and the address
and the binary value of every line it prints after the header. -/
def ob_values (code_img : Int → Option MachineWordsArray) (data_img : Int → Option Int)
    (icf dcf : Int) : Option ((Int × Int) × List (Int × Nat)) :=
  match ob_code_values code_img (icf - IC_INIT_VALUE).toNat,
      ob_data_values data_img icf dcf.toNat with
  | some c, some d => some ((icf - IC_INIT_VALUE, dcf), c ++ d)
  | _, _ => none

/-- Embedding of `write_ob_file`: the two numbers of the header line, and
the address and octal value of every following line. -/
def write_ob_file (code_img : Int → Option MachineWordsArray) (data_img : Int → Option Int)
    (icf dcf : Int) : Option ((Int × Int) × List (Int × Nat)) :=
  (ob_values code_img data_img icf dcf).map
    (fun r => (r.1, r.2.map (fun p => (p.1, convert_binary_to_octal p.2))))

/-! ## assemble.c -/

/-- Embedding of `update_entry_lines`: every entry takes the address of the
label of the same name; an entry without such a label ends the program. -/
def update_entry_lines (label_array : List Label) :
    List ExternEntry → Except asm_error (List ExternEntry)
  | [] => .ok []
  | e :: es =>
    match label_array.find? (fun l => decide (e.name = l.label)) with
    | some l =>
      match update_entry_lines label_array es with
      | .error x => .error x
      | .ok r => .ok ({ e with line_number := l.line_number } :: r)
    | none => .error .entry_label_not_found

/-- The passes of `process_file` on the lines of the expanded source: the
first pass, the update of the entries (made when there is a label and an
entry), and the second pass. The result is the extern and entry tables and
the state of the second pass. -/
def process_file_passes (u : uninit_memory) (lines : List (List Char)) :
    Except asm_error (ExternEntryArray × second_pass_state) :=
  match first_pass lines with
  | .error e => .error e
  | .ok fp =>
    let updated : Except asm_error (List ExternEntry) :=
      if fp.label_array.length > 0 ∧ fp.ext_entry_array.entries.length > 0 then
        update_entry_lines fp.label_array fp.ext_entry_array.entries
      else .ok fp.ext_entry_array.entries
    match updated with
    | .error e => .error e
    | .ok entries =>
      match second_pass u fp.label_array { fp.ext_entry_array with entries := entries }
          lines with
      | .error e => .error e
      | .ok sp => .ok ({ fp.ext_entry_array with entries := entries }, sp)

/-! ## Notions used to state the properties -/

/-- Addressing type of the `i`-th operand token, `NONE_ADDR` when there is
no such operand. -/
def operand_type (toks : List (List Char)) (i : Nat) : addressing_type :=
  match toks.get? i with
  | some t => get_addressing_type t
  | none => .NONE_ADDR

/-- A sample content of freshly allocated memory, different from zero. -/
def sample_memory : uninit_memory :=
  { machine_word := { length := 77, word := .data { ARE := 5, data := 999 } },
    data_word := { ARE := 5, data := 999 } }

/-- The extern-use array after a sequence of calls of
`generate_non_register_code_word`, the `k`-th made with instruction counter
`ic_k` on operand `operand_k`; no other statement of the second pass writes
the array. -/
def record_references (u : uninit_memory) (labels : List Label)
    (ext_entry_array : ExternEntryArray) :
    Option (List ExternEntry) → List (Int × List Char) →
    Except asm_error (Option (List ExternEntry))
  | epa, [] => .ok epa
  | epa, (ic, operand) :: refs =>
    match generate_non_register_code_word u
        { code_img := fun _ => none, ic := ic, extern_printing_array := epa }
        (some operand) labels ext_entry_array with
    | .error e => .error e
    | .ok st => record_references u labels ext_entry_array st.extern_printing_array refs

/-- Whether `name` is one of the declared externs. -/
def is_extern_name (ext_entry_array : ExternEntryArray) (name : List Char) : Bool :=
  ext_entry_array.externs.any (fun e => decide (e.name = name))

/-- The text of a line as `first_pass` scans it: cut at the first carriage
return or newline. -/
def line_text (raw : List Char) : List Char :=
  raw.takeWhile (fun c => !(c == '\r' || c == '\n'))

/-- Whether a line is empty or holds only blanks and tabs. -/
def is_blank_line (raw : List Char) : Bool :=
  decide ((line_text raw).length = 0 ∨
    ((line_text raw).takeWhile (fun c => c == ' ' || c == '\t')).length = (line_text raw).length)

/-- The label a line defines: the part before the colon of its first token,
when that token holds a colon. -/
def line_label (raw : List Char) : Option (List Char) :=
  if is_blank_line raw then none
  else
    match strtok " \t".toList (line_text raw) with
    | some (token, _) =>
      if token.contains ':' then some (token.takeWhile (fun c => !(c == ':'))) else none
    | none => none

/-- The statement of a line: its first token after the optional label (a
mnemonic or a directive) and the text after that token. -/
def line_statement (raw : List Char) : Option (List Char × List Char) :=
  if is_blank_line raw then none
  else
    match strtok " \t".toList (line_text raw) with
    | some (token, rest) =>
      if token.contains ':' then strtok " \t".toList rest else some (token, rest)
    | none => none

/-- Whether a line holds a label and nothing else. -/
def is_label_only_line (raw : List Char) : Bool :=
  !is_blank_line raw && (line_statement raw).isNone

/-- Number of code words of the statement `token rest`: the count of
`calculate_instruction_lines` for an instruction, 0 otherwise. -/
def statement_code_words (token rest : List Char) : Int :=
  if is_operation token then
    match calculate_instruction_lines token
        (((strtok "\n".toList rest).map (fun p => p.1)).getD []) with
    | .ok n => n
    | .error _ => 0
  else 0

/-- Number of data words of the statement `token rest`: the values of a
`.data` directive, the characters of a `.string` directive and its
terminator, 0 otherwise. -/
def statement_data_words (token rest : List Char) : Int :=
  if token = ".data".toList then
    match strtok "\n".toList rest with
    | some (data_part, _) =>
      match handle_data_directive data_part 0 with
      | .ok n => n
      | .error _ => 0
    | none => 0
  else if token = ".string".toList then
    match strtok "\n".toList rest with
    | some (string_directive, _) =>
      match handle_string_directive
          (string_directive.dropWhile (fun c => c == ' ' || c == '\t')) 0 with
      | .ok n => n
      | .error _ => 0
    | none => 0
  else 0

/-- Number of code words of a line. -/
def code_words (raw : List Char) : Int :=
  match line_statement raw with
  | some (token, rest) => statement_code_words token rest
  | none => 0

/-- Number of data words of a line. -/
def data_words (raw : List Char) : Int :=
  match line_statement raw with
  | some (token, rest) => statement_data_words token rest
  | none => 0

/-- Number of words pass one counts for a line: its code words, its data
words, and one word for a line that holds only a label. -/
def line_words (raw : List Char) : Int :=
  code_words raw + data_words raw + (if is_label_only_line raw then 1 else 0)

/-- Number of words pass one counts for a list of lines. -/
def total_words (lines : List (List Char)) : Int :=
  (lines.map line_words).sum

/-- The label table that results from giving every label the address
`start` plus the number of words counted for the lines before it. -/
def label_addresses : Int → List (List Char) → List Label
  | _, [] => []
  | start, raw :: lines =>
    (match line_label raw with
      | some name => [{ label := name.take MAX_LABEL_LENGTH, line_number := start }]
      | none => []) ++ label_addresses (start + line_words raw) lines

/-- The two-line program of the scenario "immediate + label". -/
def list_program : List (List Char) :=
  ["LIST: .data 7, -1".toList, "add #5, LIST".toList]

/-- A program of `n` lines `stop`. -/
def stop_program (n : Nat) : List (List Char) := List.replicate n "stop".toList

/-- Whether a direct operand can be resolved by the second pass: it is a
declared extern or a label of the label table. -/
def is_resolvable (labels : List Label) (ext_entry_array : ExternEntryArray)
    (operand : List Char) : Bool :=
  is_extern_name ext_entry_array operand ||
    (labels.find? (fun l => decide (l.label = operand))).isSome

/-- The state `b` results from `a` by writing `k` consecutive slots of the
code image from the slot of `a.ic` on, and advancing the counter by `k`. -/
def writes_slots (k : Int) (a b : code_state) : Prop :=
  b.ic = a.ic + k ∧
  (∀ i, (i < a.ic - IC_INIT_VALUE ∨ a.ic - IC_INIT_VALUE + k ≤ i) → b.code_img i = a.code_img i) ∧
  (∀ i, a.ic - IC_INIT_VALUE ≤ i → i < a.ic - IC_INIT_VALUE + k → (b.code_img i).isSome = true)

/-- The header and the address and binary value of every word of the `.ob`
listing of a program: the passes, then the values `write_ob_file` converts
to octal. -/
def assemble_values (u : uninit_memory) (lines : List (List Char)) :
    Option ((Int × Int) × List (Int × Nat)) :=
  match process_file_passes u lines with
  | .error _ => none
  | .ok (_, sp) => ob_values sp.code.code_img sp.data_img sp.code.ic sp.dc

/-- The `.ob` listing of a program: the passes, then `write_ob_file`. -/
def assemble_ob (u : uninit_memory) (lines : List (List Char)) :
    Option ((Int × Int) × List (Int × Nat)) :=
  match process_file_passes u lines with
  | .error _ => none
  | .ok (_, sp) => write_ob_file sp.code.code_img sp.data_img sp.code.ic sp.dc

/-! ## file_writer.c and assemble.c: the entry and extern listings -/

/-- Embedding of `write_entries_to_file`: `none` when no file is created,
otherwise the name and the number of every line, the entries being printed
from the last one to the first. -/
def write_entries_to_file (ext_entry_array : ExternEntryArray) : Option (List (List Char × Int)) :=
  if ext_entry_array.entries.length = 0 then none
  else some (ext_entry_array.entries.reverse.map (fun e => (e.name, e.line_number)))

/-- Embedding of `write_externs_to_file`: `none` when no file is created,
otherwise the name and the number of every line, one for each record before
the first record with an empty name. -/
def write_externs_to_file (extern_printing_array : List ExternEntry) :
    Option (List (List Char × Int)) :=
  match extern_printing_array.takeWhile (fun e => !e.name.isEmpty) with
  | [] => none
  | l => some (l.map (fun e => (e.name, e.line_number)))

/-- The files `process_file` writes after a successful second pass: the
object listing, and the entry and extern listings when they are created. -/
structure output_files where
  ob : Option ((Int × Int) × List (Int × Nat))
  ent : Option (List (List Char × Int))
  ext : Option (List (List Char × Int))
  deriving DecidableEq, Repr

/-- Embedding of `process_file` on the lines of the expanded source: the
passes, then the output files. An error of a pass ends it before any output
file is written. -/
def process_file (u : uninit_memory) (lines : List (List Char)) : Except asm_error output_files :=
  match process_file_passes u lines with
  | .error e => .error e
  | .ok (ext_entry_array, sp) =>
    .ok
      { ob := write_ob_file sp.code.code_img sp.data_img sp.code.ic sp.dc
        ent :=
          if ext_entry_array.entries.length > 0 then write_entries_to_file ext_entry_array
          else none
        ext :=
          match sp.code.extern_printing_array with
          | some l => write_externs_to_file l
          | none => none }

/-! ## Further notions used to state the properties -/

/-- The addressing types a list of an `operation_info` allows: its cells
before the first `-1`. -/
def allowed_types (l : List Int) : List Int := l.takeWhile (fun v => !(v == -1))

/-- The register names `r0` .. `r7`. -/
def register_names : List (List Char) :=
  ["r0".toList, "r1".toList, "r2".toList, "r3".toList, "r4".toList, "r5".toList,
   "r6".toList, "r7".toList]

/-- The label table after `add_label` is called with each name and address
of `calls` in turn, from the table `array` on; the first call that fails
ends the program. -/
def add_labels : List Label → List (List Char × Int) → Except asm_error (List Label)
  | array, [] => .ok array
  | array, (label, line_number) :: calls =>
    match add_label array label line_number with
    | .error e => .error e
    | .ok array1 => add_labels array1 calls

/-- The sixteen mnemonics and the eight register names. -/
def reserved_names : List (List Char) := operations ++ register_names

/-- The address the label table records for `name`: that of the first label
of this name. -/
def label_address (label_array : List Label) (name : List Char) : Option Int :=
  (label_array.find? (fun l => decide (name = l.label))).map (fun l => l.line_number)

/-- The state `b` results from `a` by writing `k` consecutive extension
words (slots of length 0 that hold a data word) from the slot of `a.ic` on,
and advancing the counter by `k`. -/
def writes_extension_words (k : Int) (a b : code_state) : Prop :=
  b.ic = a.ic + k ∧
  (∀ i, (i < a.ic - IC_INIT_VALUE ∨ a.ic - IC_INIT_VALUE + k ≤ i) → b.code_img i = a.code_img i) ∧
  (∀ i, a.ic - IC_INIT_VALUE ≤ i → i < a.ic - IC_INIT_VALUE + k →
    ∃ d, b.code_img i = some { length := 0, word := .data d })

/-- The slots of an instruction of `n` words whose first word is in slot
`start`: that slot has length `n` and holds a code word, and the `n - 1`
slots after it have length 0 and hold a data word. -/
def instruction_block (code_img : Int → Option MachineWordsArray) (start n : Int) : Prop :=
  (∃ c, code_img start = some { length := n, word := .code c }) ∧
  ∀ i, start < i → i < start + n → ∃ d, code_img i = some { length := 0, word := .data d }

/-- The code image holds, from slot `start` on, the instructions whose word
counts are listed, one after the other. -/
def image_blocks (code_img : Int → Option MachineWordsArray) : Int → List Int → Prop
  | _, [] => True
  | start, n :: ns =>
    1 ≤ n ∧ instruction_block code_img start n ∧ image_blocks code_img (start + n) ns

/-- Whether the second pass encodes the line as an instruction: its first
token after the optional label is a mnemonic. -/
def is_instruction_line (raw : List Char) : Bool :=
  let line := raw.takeWhile (fun c => !(c == '\r' || c == '\n'))
  let first := strtok " \t".toList line
  let statement : Option (List Char × List Char) :=
    match first with
    | some (token, rest) => if token.contains ':' then strtok " \t".toList rest else first
    | none => none
  match statement with
  | some (operation, _) => is_operation operation
  | none => false

/-- The code image holds exactly the instructions whose word counts are
listed: they fill the slots from 0 up to the slot of the instruction
counter, and no other slot was written. -/
def code_image_filled (c : code_state) (ns : List Int) : Prop :=
  c.ic = IC_INIT_VALUE + ns.sum ∧ image_blocks c.code_img 0 ns ∧
  ∀ i, (i < 0 ∨ c.ic - IC_INIT_VALUE ≤ i) → c.code_img i = none

/-- The data image holds a value in each of the slots 0 .. `dc - 1`, and no
other slot was written. -/
def data_image_filled (st : second_pass_state) : Prop :=
  0 ≤ st.dc ∧ (∀ i, 0 ≤ i → i < st.dc → (st.data_img i).isSome = true) ∧
  ∀ i, (i < 0 ∨ st.dc ≤ i) → st.data_img i = none

/-- The addressing type `create_code_word` computes for an operand:
`NONE_ADDR` for a `NULL` operand. -/
def operand_mode (operand : Option (List Char)) : addressing_type :=
  match operand with
  | some o => get_addressing_type o
  | none => .NONE_ADDR

/-- The text of the register `rn` for a one-digit number `n`. -/
def register_text (n : Nat) : List Char := ['r', Char.ofNat (48 + n)]

/-! ## preprocessor.c -/

/-- The array `invalid_names`. -/
def invalid_names : List (List Char) :=
  ["mov".toList, "cmp".toList, "add".toList, "sub".toList, "lea".toList, "clr".toList,
   "not".toList, "inc".toList, "dec".toList, "jmp".toList, "bne".toList, "red".toList,
   "prn".toList, "jsr".toList, "rts".toList, "stop".toList,
   "r0".toList, "r1".toList, "r2".toList, "r3".toList, "r4".toList, "r5".toList,
   "r6".toList, "r7".toList]

/-- A macro, `Macro`: its name and the array of its lines, `none` for a
`NULL` pointer. The line count of a macro is the length of the array: the
two are reset together by a `macr` line and grow together. -/
structure Macro where
  name : List Char
  content : Option (List (List Char))
  deriving DecidableEq, Repr

/-- Embedding of `get_macro_content`: the content of the first macro of
this name, `none` (`NULL`) when there is none. -/
def get_macro_content (array : List Macro) (name : List Char) : Option (List (List Char)) :=
  match array.find? (fun m => decide (m.name = name)) with
  | some m => m.content
  | none => none

/-- Embedding of `is_valid_macro_name`. -/
def is_valid_macro_name (name : List Char) : Bool :=
  !invalid_names.any (fun n => decide (name = n))

/-- The call `sscanf(s, "%s", buffer)`: the word it stores, after skipping
white space and up to the next white space; `none` when the text ends
before a word, in which case the buffer keeps its content. -/
def sscanf_word (s : List Char) : Option (List Char) :=
  match s.dropWhile isspace with
  | [] => none
  | r => some (r.takeWhile (fun c => !isspace c))

/-- The ways in which the embedding of `preprocess_file` stops. The first
is the diagnostic for a macro name that is not valid, on which the C
function returns `false`. The second is no outcome of the C function: it
marks the point at which `strcat` writes past the end of `output_line`,
where the behaviour of the C program is undefined and the embedding says
nothing about what the program does from there on. -/
inductive preprocess_error where
  | invalid_macro_name
  | output_line_overflow
  deriving DecidableEq, Repr

/-- The calls `strcat(output_line, s)` and `strncat(output_line, s, 1)` on
the buffer of `MAX_LINE_LENGTH` bytes, which holds the text and its
terminator. The source does not test the length: when the text and its
terminator do not fit, the call writes past the end of the buffer, which is
undefined behaviour; the embedding stops there with
`output_line_overflow` and describes the call only when the result fits. -/
def strcat_output_line (output_line s : List Char) : Except preprocess_error (List Char) :=
  if output_line.length + s.length + 1 > MAX_LINE_LENGTH then .error .output_line_overflow
  else .ok (output_line ++ s)

/-- The loop of `preprocess_file` that appends the lines of a macro to
`output_line`. -/
def strcat_macro_lines : List Char → List (List Char) → Except preprocess_error (List Char)
  | output_line, [] => .ok output_line
  | output_line, l :: ls =>
    match strcat_output_line output_line l with
    | .error e => .error e
    | .ok output_line1 => strcat_macro_lines output_line1 ls

/-- The `while(*start)` loop of `preprocess_file`: at every character the
word that `sscanf` reads from there is looked up among the macros; a macro
is appended and ends the loop, otherwise the character is appended. The
result is `output_line` and the content of the buffer `word`. -/
def expand_line (macros : List Macro) :
    List Char → List Char → List Char → Except preprocess_error (List Char × List Char)
  | [], word, output_line => .ok (output_line, word)
  | c :: cs, word, output_line =>
    let word := (sscanf_word (c :: cs)).getD word
    match get_macro_content macros word with
    | some macro_def =>
      match strcat_macro_lines output_line macro_def with
      | .error e => .error e
      | .ok output_line1 => .ok (output_line1, word)
    | none =>
      match strcat_output_line output_line [c] with
      | .error e => .error e
      | .ok output_line1 => expand_line macros cs word output_line1

/-- The statements of `preprocess_file` on the first colon of a line: the
text before it and `": "` start `output_line`, and the scan goes on after
the blanks and tabs that follow the colon. The result is `output_line` and
`start`. -/
def copy_label (start : List Char) : Except preprocess_error (List Char × List Char) :=
  if start.contains ':' then
    match strcat_output_line [] (start.takeWhile (fun c => !(c == ':'))) with
    | .error e => .error e
    | .ok output_line1 =>
      match strcat_output_line output_line1 ": ".toList with
      | .error e => .error e
      | .ok output_line2 =>
        .ok (output_line2,
          ((start.dropWhile (fun c => !(c == ':'))).drop 1).dropWhile
            (fun c => c == ' ' || c == '\t'))
  else .ok ([], start)

/-- The variables of `preprocess_file` that persist from line to line, and
the text written to the output file. -/
structure preprocess_state where
  macros : List Macro
  in_macro : Bool
  macro_name : List Char
  macro_content : Option (List (List Char))
  word : List Char
  output : List Char
  deriving DecidableEq, Repr

/-- The loop body of `preprocess_file` on one line as `fgets` returns it. -/
def preprocess_line (st : preprocess_state) (line : List Char) :
    Except preprocess_error preprocess_state :=
  if char_at line 0 = ';' then .ok st
  else
    let start := line.dropWhile (fun c => c == ' ' || c == '\t')
    if "macr ".toList.isPrefixOf start then
      let macro_def_check := (start.drop 5).dropWhile (fun c => c == ' ')
      let macro_name := (sscanf_word macro_def_check).getD st.macro_name
      if !is_valid_macro_name macro_name then .error .invalid_macro_name
      else .ok { st with in_macro := true, macro_name := macro_name, macro_content := some [] }
    else if "endmacr".toList.isPrefixOf start then
      .ok { st with
        macros := st.macros ++ [{ name := st.macro_name, content := st.macro_content }]
        in_macro := false
        macro_content := none }
    else if st.in_macro then
      .ok { st with macro_content := st.macro_content.map (fun content => content ++ [start]) }
    else
      match copy_label start with
      | .error e => .error e
      | .ok (output_line, start1) =>
        match expand_line st.macros start1 st.word output_line with
        | .error e => .error e
        | .ok (output_line1, word) =>
          .ok { st with word := word, output := st.output ++ output_line1 }

/-- The characters one call of `fgets` with room for `n` characters stores,
and the rest of the stream: the call stops after a newline. -/
def fgets_chars : Nat → List Char → List Char × List Char
  | 0, stream => ([], stream)
  | _ + 1, [] => ([], [])
  | n + 1, c :: cs =>
    if c = '\n' then ([c], cs)
    else ((c :: (fgets_chars n cs).1), (fgets_chars n cs).2)

/-- The call `fgets(line, size, file)` on the rest of a stream: `none` at
the end of the stream, otherwise the line stored (at most `size - 1`
characters) and the rest of the stream. -/
def fgets (size : Nat) (stream : List Char) : Option (List Char × List Char) :=
  match stream with
  | [] => none
  | _ => some (fgets_chars (size - 1) stream)

/-- The lines that successive calls of `fgets` return until the end of the
stream; a call stores at least one character (for `size` 2 or more), so
`fuel` above the length of the stream is never exhausted. -/
def read_lines_aux (size : Nat) : Nat → List Char → List (List Char)
  | 0, _ => []
  | fuel + 1, stream =>
    match fgets size stream with
    | none => []
    | some (line, rest) => line :: read_lines_aux size fuel rest

/-- The lines that successive calls of `fgets` return until the end of the
stream. -/
def read_lines (size : Nat) (stream : List Char) : List (List Char) :=
  read_lines_aux size (stream.length + 1) stream

/-- The `while(fgets(...))` loop of `preprocess_file` over the lines that
remain. -/
def preprocess_lines :
    preprocess_state → List (List Char) → Except preprocess_error preprocess_state
  | st, [] => .ok st
  | st, line :: lines =>
    match preprocess_line st line with
    | .error e => .error e
    | .ok st1 => preprocess_lines st1 lines

/-- Contents of the buffers `macro_name` and `word` of `preprocess_file`
before anything is stored in them. -/
structure preprocess_uninit where
  macro_name : List Char
  word : List Char
  deriving DecidableEq, Repr

/-- The state of `preprocess_file` before the first line. -/
def preprocess_init (u : preprocess_uninit) : preprocess_state :=
  { macros := [], in_macro := false, macro_name := u.macro_name, macro_content := none,
    word := u.word, output := [] }

/-- Embedding of `preprocess_file` on the content of the source file: the
content of the expanded file, or the error that makes it return `false`.
The buffer `line` has `MAX_LINE_LENGTH` bytes. The embedding covers the
text written to the output file and the diagnostic; the calls of
`free_macro_array` before the two returns are not embedded. They release
memory and have no other effect as long as every `endmacr` line closes a
definition opened by a `macr` line; an `endmacr` line that closes none
stores a macro without content together with the line count left by the
last definition, and when that count is not zero the walk of
`free_macro_array` over the missing content is undefined behaviour. -/
def preprocess_file (u : preprocess_uninit) (input : List Char) :
    Except preprocess_error (List Char) :=
  match preprocess_lines (preprocess_init u) (read_lines MAX_LINE_LENGTH input) with
  | .error e => .error e
  | .ok st => .ok st.output

/-- A sample content of the buffers of `preprocess_file`. -/
def sample_buffers : preprocess_uninit := { macro_name := "junk".toList, word := "junk".toList }

/-! ## Notions used to state the properties of the preprocessor -/

/-- What `preprocess_file` writes for the text `start` of a line, from its
first character that is no blank or tab on, when no macro is defined: the
text with its label part rewritten. -/
def copied_start (start : List Char) : Except preprocess_error (List Char) :=
  match copy_label start with
  | .error e => .error e
  | .ok (output_line, start1) => strcat_output_line output_line start1

/-- What `preprocess_file` writes for a line when no macro is defined:
nothing for a comment line. -/
def copied_line (line : List Char) : Except preprocess_error (List Char) :=
  if char_at line 0 = ';' then .ok []
  else copied_start (line.dropWhile (fun c => c == ' ' || c == '\t'))

/-- What `preprocess_file` writes for each of the lines when there is no
macro. -/
def copied_lines : List (List Char) → Except preprocess_error (List (List Char))
  | [] => .ok []
  | line :: lines =>
    match copied_line line with
    | .error e => .error e
    | .ok o =>
      match copied_lines lines with
      | .error e => .error e
      | .ok os => .ok (o :: os)

/-- Whether `preprocess_file` takes the line for the start or the end of a
macro definition. -/
def is_definition_line (line : List Char) : Bool :=
  "macr ".toList.isPrefixOf (line.dropWhile (fun c => c == ' ' || c == '\t')) ||
    "endmacr".toList.isPrefixOf (line.dropWhile (fun c => c == ' ' || c == '\t'))

/-- The words `sscanf` reads at the positions of a text: for every position
the first word of the text from there on. These are the tokens of the text
and the ends of its tokens. -/
def suffix_words (s : List Char) : List (List Char) := s.tails.filterMap sscanf_word

/-- Embedding of `first_pass` on the content of the expanded file: the lines
are read by `fgets` into the buffer `line` of `MAX_LINE_LENGTH + 1` bytes. -/
def first_pass_file (input : List Char) : Except asm_error first_pass_state :=
  first_pass (read_lines (MAX_LINE_LENGTH + 1) input)

/-- A literal decimal integer: an optional single leading sign followed by
at least one digit. -/
def is_decimal_literal (s : List Char) : Bool :=
  let digits := if s.head? = some '-' ∨ s.head? = some '+' then s.drop 1 else s
  !digits.isEmpty && digits.all is_digit

/-- A `.data` line with `n + 1` values 1, separated by commas. -/
def data_ones_line (n : Nat) : List Char :=
  ".data ".toList ++ (List.replicate n "1,".toList).flatten ++ "1".toList

theorem shiftLeft_or_eq_add (a b k : Nat) (hb : b < 2 ^ k) : (a <<< k) ||| b = a * 2 ^ k + b := by
  rw [Nat.shiftLeft_eq, Nat.mul_comm, Nat.mul_add_lt_is_or hb]

theorem and_mask_eq_mod (x k : Nat) : x &&& (2 ^ k - 1) = x % 2 ^ k :=
  Nat.and_pow_two_sub_one_eq_mod x k

theorem code_word_binary_eq (op src dest are : Nat) (h1 : op < 16) (h2 : src < 16)
    (h3 : dest < 16) (h4 : are < 8) :
    convert_code_word_to_binary ⟨are, dest, src, op⟩
      = op * 2 ^ 11 + src * 2 ^ 7 + dest * 2 ^ 3 + are := by
  unfold convert_code_word_to_binary to_uint
  simp only [Nat.zero_or, Nat.or_assoc]
  have e1 : dest <<< 3 ||| are = dest * 2 ^ 3 + are := shiftLeft_or_eq_add _ _ _ (by omega)
  have e2 : src <<< 7 ||| (dest * 2 ^ 3 + are) = src * 2 ^ 7 + (dest * 2 ^ 3 + are) :=
    shiftLeft_or_eq_add _ _ _ (by omega)
  have e3 : op <<< 11 ||| (src * 2 ^ 7 + (dest * 2 ^ 3 + are))
      = op * 2 ^ 11 + (src * 2 ^ 7 + (dest * 2 ^ 3 + are)) :=
    shiftLeft_or_eq_add _ _ _ (by omega)
  rw [e1, e2, e3]
  omega

theorem code_word_fields_recovered (op src dest are : Nat) (h1 : op < 16) (h2 : src < 16)
    (h3 : dest < 16) (h4 : are < 8) :
    convert_code_word_to_binary ⟨are, dest, src, op⟩ < 2 ^ 15 ∧
    convert_code_word_to_binary ⟨are, dest, src, op⟩ >>> 11 = op ∧
    (convert_code_word_to_binary ⟨are, dest, src, op⟩ >>> 7) &&& 15 = src ∧
    (convert_code_word_to_binary ⟨are, dest, src, op⟩ >>> 3) &&& 15 = dest ∧
    convert_code_word_to_binary ⟨are, dest, src, op⟩ &&& 7 = are := by
  have hw := code_word_binary_eq op src dest are h1 h2 h3 h4
  have m15 : ∀ x : Nat, x &&& 15 = x % 16 := fun x => and_mask_eq_mod x 4
  have m7 : ∀ x : Nat, x &&& 7 = x % 8 := fun x => and_mask_eq_mod x 3
  generalize convert_code_word_to_binary ⟨are, dest, src, op⟩ = w at hw
  refine ⟨by omega, ?_, ?_, ?_, ?_⟩
  · rw [Nat.shiftRight_eq_div_pow]; omega
  · rw [m15, Nat.shiftRight_eq_div_pow]; omega
  · rw [m15, Nat.shiftRight_eq_div_pow]; omega
  · rw [m7]; omega

/-! ## Octal conversion helper lemmas -/

theorem octal_loop_eq (b : Nat) : ∀ (o p : Nat), o < p →
    p * 10 ^ (Nat.digits 8 b).length < 2 ^ 32 →
    convert_binary_to_octal_loop b o p = o + p * Nat.ofDigits 10 (Nat.digits 8 b) := by
  induction b using Nat.strong_induction_on with
  | _ b ih =>
    intro o p hop hp
    rw [convert_binary_to_octal_loop]
    by_cases hb : b = 0
    · subst hb
      simp
    · have hpos : 0 < b := Nat.pos_of_ne_zero hb
      have hd : Nat.digits 8 b = (b % 8) :: Nat.digits 8 (b / 8) :=
        Nat.digits_def' (by decide) hpos
      rw [hd] at hp ⊢
      simp only [List.length_cons, pow_succ] at hp
      have hm : b % 8 < 8 := Nat.mod_lt _ (by decide)
      have h10 : 1 ≤ 10 ^ (Nat.digits 8 (b / 8)).length := Nat.one_le_pow _ _ (by decide)
      have hp10 : p * 10 < 2 ^ 32 := by nlinarith
      have hmul : b % 8 * p ≤ 7 * p := Nat.mul_le_mul_right p (by omega)
      have e1 : to_uint (b % 8 * p) = b % 8 * p := by
        unfold to_uint; apply Nat.mod_eq_of_lt; omega
      have e2 : to_uint (o + b % 8 * p) = o + b % 8 * p := by
        unfold to_uint; apply Nat.mod_eq_of_lt; omega
      have e3 : to_uint (p * 10) = p * 10 := by
        unfold to_uint; apply Nat.mod_eq_of_lt; omega
      simp only [hb, ne_eq, not_false_eq_true, dite_true, e1, e2, e3]
      rw [ih (b / 8) (Nat.div_lt_self hpos (by decide)) _ _ (by omega) (by nlinarith)]
      rw [Nat.ofDigits_cons]
      ring

theorem digits8_length_le (w : Nat) (hw : w < 2 ^ 15) : (Nat.digits 8 w).length ≤ 5 := by
  by_cases h0 : w = 0
  · subst h0; simp
  · have h := Nat.base_pow_length_digits_le 8 w (by decide) h0
    by_contra hc
    have h6 : 8 ^ 6 ≤ 8 ^ (Nat.digits 8 w).length := Nat.pow_le_pow_right (by decide) (by omega)
    norm_num at hw h6
    omega

theorem octal_eq_ofDigits (w : Nat) (hw : w < 2 ^ 15) :
    convert_binary_to_octal w = Nat.ofDigits 10 (Nat.digits 8 w) := by
  have hlen : (Nat.digits 8 w).length ≤ 5 := digits8_length_le w hw
  have h := octal_loop_eq w 0 1 (by decide) (by
    calc 1 * 10 ^ (Nat.digits 8 w).length ≤ 1 * 10 ^ 5 :=
          Nat.mul_le_mul_left 1 (Nat.pow_le_pow_right (by decide) hlen)
      _ < 2 ^ 32 := by norm_num)
  simpa [convert_binary_to_octal] using h

theorem octal_digits (w : Nat) (hw : w < 2 ^ 15) :
    Nat.digits 10 (convert_binary_to_octal w) = Nat.digits 8 w := by
  rw [octal_eq_ofDigits w hw]
  apply Nat.digits_ofDigits 10 (by decide)
  · intro l hl
    have := Nat.digits_lt_base (b := 8) (by decide) hl
    omega
  · intro hne
    exact Nat.getLast_digit_ne_zero 8 (by
      intro h0; subst h0; simp at hne)

theorem ofDigits_le (L : List Nat) (hL : ∀ d ∈ L, d ≤ 7) (hlen : L.length ≤ 5) :
    Nat.ofDigits 10 L ≤ 77777 := by
  match L, hL, hlen with
  | [], _, _ => simp
  | [a], h, _ => simp at h; simp [Nat.ofDigits]; omega
  | [a, b], h, _ => simp at h; simp [Nat.ofDigits]; omega
  | [a, b, c], h, _ => simp at h; simp [Nat.ofDigits]; omega
  | [a, b, c, d], h, _ => simp at h; simp [Nat.ofDigits]; omega
  | [a, b, c, d, e], h, _ => simp at h; simp [Nat.ofDigits]; omega
  | _ :: _ :: _ :: _ :: _ :: _ :: _, _, h => simp at h

/-! ## Tokenizer and operand helper lemmas -/

theorem dropWhile_head_not (p : Char → Bool) (s : List Char) (c : Char) (cs : List Char)
    (h : s.dropWhile p = c :: cs) : p c = false := by
  induction s with
  | nil => simp at h
  | cons a as ih =>
    rw [List.dropWhile_cons] at h
    split at h
    · exact ih h
    · rename_i hp
      simp only [List.cons.injEq] at h
      rw [← h.1]; simpa using hp

theorem strtok_rest_length (d s t r : List Char) (h : strtok d s = some (t, r)) :
    r.length < s.length := by
  unfold strtok at h
  split at h
  · simp at h
  · rename_i r0 hne
    simp only [Option.some.injEq, Prod.mk.injEq] at h
    obtain ⟨-, rfl⟩ := h
    have h1 : (List.dropWhile (fun c => d.contains c) s).length ≤ s.length :=
      (List.dropWhile_sublist _).length_le
    cases hr : List.dropWhile (fun c => d.contains c) s with
    | nil => exact absurd hr hne
    | cons c cs =>
      have hc := dropWhile_head_not _ s c cs hr
      rw [hr] at h1
      have h2 : List.dropWhile (fun c => !d.contains c) (c :: cs)
          = List.dropWhile (fun c => !d.contains c) cs := by
        rw [List.dropWhile_cons]; simp at hc; simp [hc]
      rw [h2]
      have h3 : (List.dropWhile (fun c => !d.contains c) cs).length ≤ cs.length :=
        (List.dropWhile_sublist _).length_le
      simp only [List.length_drop, List.length_cons] at h1 ⊢
      omega

theorem strtok_all_aux_stable (d : List Char) : ∀ (fuel1 fuel2 : Nat) (s : List Char),
    s.length < fuel1 → s.length < fuel2 →
    strtok_all_aux d fuel1 s = strtok_all_aux d fuel2 s := by
  intro fuel1
  induction fuel1 with
  | zero => intro fuel2 s h; omega
  | succ n ih =>
    intro fuel2 s _ h2
    cases fuel2 with
    | zero => omega
    | succ m =>
      simp only [strtok_all_aux]
      cases hs : strtok d s with
      | none => rfl
      | some p =>
        obtain ⟨t, r⟩ := p
        have hr := strtok_rest_length d s t r hs
        simp only
        rw [ih m r (by omega) (by omega)]

theorem strtok_all_eq (d s : List Char) :
    strtok_all d s =
      match strtok d s with
      | none => []
      | some (t, r) => t :: strtok_all d r := by
  cases hs : strtok d s with
  | none => simp [strtok_all, strtok_all_aux, hs]
  | some p =>
    obtain ⟨t, r⟩ := p
    have hr := strtok_rest_length d s t r hs
    simp only [strtok_all, strtok_all_aux, hs]
    rw [strtok_all_aux_stable d s.length (r.length + 1) r hr (by omega)]
    simp only [strtok_all_aux]

theorem valid_operand_type_ne_none (t : List Char) (h : is_valid_operand t = true) :
    get_addressing_type t ≠ .NONE_ADDR := by
  unfold is_valid_operand at h
  unfold get_addressing_type
  by_cases h0 : char_at t 0 = '#'
  · simp [h0]
  · simp only [h0, if_false] at h ⊢
    by_cases h1 : char_at t 0 = 'r'
    · have ha : is_alpha 'r' = true := by decide
      simp only [h1, if_true, ha] at h ⊢
      split at h
      · rename_i hc
        simp only [Bool.and_eq_true, beq_iff_eq] at hc
        simp only [beq_self_eq_true, hc.1, hc.2, Bool.and_self, if_true]
        simp only [Bool.not_eq_true', Bool.or_eq_false_iff, decide_eq_false_iff_not] at h
        have : (decide (digit_value (char_at t 1) ≥ 0) && decide (digit_value (char_at t 1) ≤ 7)) = true := by
          simp only [Bool.and_eq_true, decide_eq_true_eq]; omega
        simp [this]
      · simp at h
    · simp only [h1, if_false] at h ⊢
      by_cases h2 : char_at t 0 = '*'
      · have ha : is_alpha '*' = false := by decide
        simp [h2, ha]
      · simp only [h2, if_false] at h ⊢
        split at h
        · rename_i ha
          have hr : (char_at t 0 == 'r') = false := by simpa using h1
          simp [ha, hr]
        · simp at h


theorem scan_operands_ok (operands : List Char) (k : Int) (src dest : addressing_type)
    (h : scan_operands operands = .ok (k, src, dest)) :
    k = ((strtok_all " ,\t".toList operands).length : Int) ∧
    (strtok_all " ,\t".toList operands).length ≤ 2 ∧
    (∀ t ∈ strtok_all " ,\t".toList operands, is_valid_operand t = true) ∧
    src = operand_type (strtok_all " ,\t".toList operands) 0 ∧
    dest = operand_type (strtok_all " ,\t".toList operands) 1 := by
  unfold scan_operands at h
  rw [strtok_all_eq]
  cases h1 : strtok " ,\t".toList operands with
  | none =>
    simp only [h1, Except.ok.injEq, Prod.mk.injEq] at h
    obtain ⟨rfl, rfl, rfl⟩ := h
    simp [operand_type]
  | some p1 =>
    obtain ⟨t1, r1⟩ := p1
    simp only [h1] at h ⊢
    by_cases v1 : is_valid_operand t1 = true
    · simp only [v1, Bool.not_true, Bool.false_eq_true, if_false] at h
      rw [strtok_all_eq]
      cases h2 : strtok " ,\t".toList r1 with
      | none =>
        simp only [h2, Except.ok.injEq, Prod.mk.injEq] at h
        obtain ⟨rfl, rfl, rfl⟩ := h
        simp [operand_type, v1]
      | some p2 =>
        obtain ⟨t2, r2⟩ := p2
        simp only [h2] at h ⊢
        by_cases v2 : is_valid_operand t2 = true
        · simp only [v2, Bool.not_true, Bool.false_eq_true, if_false] at h
          rw [strtok_all_eq]
          cases h3 : strtok " ,\t".toList r2 with
          | none =>
            simp only [h3, Except.ok.injEq, Prod.mk.injEq] at h
            obtain ⟨rfl, rfl, rfl⟩ := h
            simp [operand_type, v1, v2]
          | some p3 =>
            have h3x : strtok [' ', ',', '\t'] r2 = some p3 := h3
            simp [h3x] at h
        · simp [v2] at h
    · simp [v1] at h


theorem count_lines_eq (src dest : addressing_type) :
    count_lines src dest =
      1 + (if src ≠ .NONE_ADDR then 1 else 0) + (if dest ≠ .NONE_ADDR then 1 else 0) -
        (if is_reg_or_rel src && is_reg_or_rel dest then 1 else 0) := by
  unfold count_lines
  simp only
  split_ifs <;> omega

theorem operand_type_error_not_ram (op_info : operation_info) (k : Int)
    (src dest : addressing_type) :
    operand_type_error op_info k src dest ≠ some .ram_overflow := by
  unfold operand_type_error
  split_ifs <;> simp

theorem instruction_lines_eq (operation operands : List Char) (n : Int)
    (h : calculate_instruction_lines operation operands = .ok n) :
    (((strtok_all " ,\t".toList operands).length : Int) = get_operand_count operation) ∧
    n = 1 + ((strtok_all " ,\t".toList operands).length : Int) -
      (if is_reg_or_rel (operand_type (strtok_all " ,\t".toList operands) 0) &&
          is_reg_or_rel (operand_type (strtok_all " ,\t".toList operands) 1) then 1 else 0) := by
  unfold calculate_instruction_lines at h
  cases hi : get_operation_info operation with
  | none => simp [hi] at h
  | some op_info =>
    simp only [hi] at h
    cases hs : scan_operands operands with
    | error e => simp [hs] at h
    | ok r =>
      obtain ⟨k, src, dest⟩ := r
      obtain ⟨hk, hlen, hvalid, hsrc, hdest⟩ := scan_operands_ok operands k src dest hs
      simp only [hs] at h
      generalize strtok_all " ,\t".toList operands = toks at *
      by_cases he : get_operand_count operation = k
      · simp only [he, ne_eq, not_true_eq_false, if_false] at h
        cases hte : operand_type_error op_info k src dest with
        | some e => simp [hte] at h
        | none =>
          simp only [hte, Except.ok.injEq] at h
          refine ⟨by rw [he, hk], ?_⟩
          rw [← h, count_lines_eq, hsrc, hdest]
          have hnone : is_reg_or_rel .NONE_ADDR = false := by decide
          rcases toks with _ | ⟨t1, _ | ⟨t2, _ | ⟨t3, rest⟩⟩⟩
          · simp [operand_type, hnone]
          · have n1 := valid_operand_type_ne_none t1 (hvalid t1 (by simp))
            simp [operand_type, hnone, n1]
          · have n1 := valid_operand_type_ne_none t1 (hvalid t1 (by simp))
            have n2 := valid_operand_type_ne_none t2 (hvalid t2 (by simp))
            simp only [operand_type, List.get?_cons_zero, List.get?_cons_succ, n1, n2, ne_eq,
              not_false_eq_true, if_true, List.length_cons, List.length_nil]
            push_cast
            ring
          · simp at hlen
      · simp only [ne_eq, he, not_false_eq_true, if_true] at h
        split at h <;> simp at h

/-! ## Claims on instruction sizing and on the word layout -/

/-- C2: for every instruction that `calculate_instruction_lines` accepts,
the operand text holds as many operands as the opcode takes, and the word
count is 1 plus the number of operands, minus 1 when both operands are
register or relative: 1 without operand, 2 with one operand, 2 with two
register/relative operands, 3 with any other two operands, and so always 1,
2 or 3. -/
theorem calculate_instruction_lines_word_count (operation operands : List Char) (n : Int)
    (h : calculate_instruction_lines operation operands = .ok n) :
    ((strtok_all " ,\t".toList operands).length : Int) = get_operand_count operation ∧
    n = 1 + ((strtok_all " ,\t".toList operands).length : Int) -
      (if is_reg_or_rel (operand_type (strtok_all " ,\t".toList operands) 0) &&
          is_reg_or_rel (operand_type (strtok_all " ,\t".toList operands) 1) then 1 else 0) ∧
    ((strtok_all " ,\t".toList operands).length = 0 → n = 1) ∧
    ((strtok_all " ,\t".toList operands).length = 1 → n = 2) ∧
    ((strtok_all " ,\t".toList operands).length = 2 →
      (is_reg_or_rel (operand_type (strtok_all " ,\t".toList operands) 0) &&
        is_reg_or_rel (operand_type (strtok_all " ,\t".toList operands) 1)) = true → n = 2) ∧
    ((strtok_all " ,\t".toList operands).length = 2 →
      (is_reg_or_rel (operand_type (strtok_all " ,\t".toList operands) 0) &&
        is_reg_or_rel (operand_type (strtok_all " ,\t".toList operands) 1)) = false → n = 3) ∧
    (n = 1 ∨ n = 2 ∨ n = 3) := by
  obtain ⟨hcount, hn⟩ := instruction_lines_eq operation operands n h
  have hle : (strtok_all " ,\t".toList operands).length ≤ 2 := by
    have : get_operand_count operation ≤ 2 := by
      unfold get_operand_count; split_ifs <;> omega
    omega
  generalize strtok_all " ,\t".toList operands = toks at *
  have hone : toks.length = 1 → operand_type toks 1 = .NONE_ADDR := by
    intro h1
    rcases toks with _ | ⟨t1, _ | ⟨t2, rest⟩⟩
    · simp at h1
    · simp [operand_type]
    · simp at h1
  have hzero : toks.length = 0 → operand_type toks 1 = .NONE_ADDR := by
    intro h0
    rcases toks with _ | ⟨t1, rest⟩
    · simp [operand_type]
    · simp at h0
  have hnone : is_reg_or_rel .NONE_ADDR = false := by decide
  have c0 : toks.length = 0 → n = 1 := by
    intro h0
    rw [hzero h0, hnone] at hn
    simp at hn; omega
  have c1 : toks.length = 1 → n = 2 := by
    intro h1
    rw [hone h1, hnone] at hn
    simp at hn; omega
  have c2 : toks.length = 2 →
      (is_reg_or_rel (operand_type toks 0) && is_reg_or_rel (operand_type toks 1)) = true →
      n = 2 := by
    intro h2 hb
    rw [if_pos hb] at hn; omega
  have c3 : toks.length = 2 →
      (is_reg_or_rel (operand_type toks 0) && is_reg_or_rel (operand_type toks 1)) = false →
      n = 3 := by
    intro h2 hb
    rw [if_neg (by simp [hb])] at hn; omega
  refine ⟨hcount, hn, c0, c1, c2, c3, ?_⟩
  have hcases : toks.length = 0 ∨ toks.length = 1 ∨ toks.length = 2 := by omega
  rcases hcases with h0 | h1 | h2
  · exact Or.inl (c0 h0)
  · exact Or.inr (Or.inl (c1 h1))
  · cases hb : (is_reg_or_rel (operand_type toks 0) && is_reg_or_rel (operand_type toks 1))
    · exact Or.inr (Or.inr (c3 h2 hb))
    · exact Or.inr (Or.inl (c2 h2 hb))

/-- Witness of C2: `mov r3, r4` is accepted with two words. -/
theorem calculate_instruction_lines_word_count_witness :
    calculate_instruction_lines "mov".toList " r3, r4".toList = .ok 2 ∧
    (2 : Int) = 1 + ((strtok_all " ,\t".toList " r3, r4".toList).length : Int) -
      (if is_reg_or_rel (operand_type (strtok_all " ,\t".toList " r3, r4".toList) 0) &&
          is_reg_or_rel (operand_type (strtok_all " ,\t".toList " r3, r4".toList) 1)
        then 1 else 0) :=
  ⟨by decide,
    (calculate_instruction_lines_word_count "mov".toList " r3, r4".toList 2 (by decide)).2.1⟩

/-- C3: for fields in range (opcode, source and destination mode below 16,
ARE below 8) `convert_code_word_to_binary` returns
`opcode*2^11 + src*2^7 + dest*2^3 + ARE`, a value below `2^15` from which
the inverse layout recovers the four fields; two code words in range with
the same value are equal. -/
theorem convert_code_word_to_binary_layout (c : codeWord)
    (h1 : c.opcode < 16) (h2 : c.src_address < 16) (h3 : c.dest_address < 16)
    (h4 : c.ARE < 8) :
    convert_code_word_to_binary c
      = c.opcode * 2 ^ 11 + c.src_address * 2 ^ 7 + c.dest_address * 2 ^ 3 + c.ARE ∧
    convert_code_word_to_binary c < 2 ^ 15 ∧
    convert_code_word_to_binary c >>> 11 = c.opcode ∧
    (convert_code_word_to_binary c >>> 7) &&& 15 = c.src_address ∧
    (convert_code_word_to_binary c >>> 3) &&& 15 = c.dest_address ∧
    convert_code_word_to_binary c &&& 7 = c.ARE ∧
    (∀ c2 : codeWord, c2.opcode < 16 → c2.src_address < 16 → c2.dest_address < 16 →
      c2.ARE < 8 → convert_code_word_to_binary c2 = convert_code_word_to_binary c → c2 = c) := by
  obtain ⟨are, dest, src, op⟩ := c
  simp only at h1 h2 h3 h4 ⊢
  obtain ⟨r0, r1, r2, r3, r4⟩ := code_word_fields_recovered op src dest are h1 h2 h3 h4
  refine ⟨code_word_binary_eq op src dest are h1 h2 h3 h4, r0, r1, r2, r3, r4, ?_⟩
  intro c2 g1 g2 g3 g4 heq
  obtain ⟨are2, dest2, src2, op2⟩ := c2
  simp only at g1 g2 g3 g4
  obtain ⟨-, q1, q2, q3, q4⟩ := code_word_fields_recovered op2 src2 dest2 are2 g1 g2 g3 g4
  rw [heq] at q1 q2 q3 q4
  rw [r1] at q1; rw [r2] at q2; rw [r3] at q3; rw [r4] at q4
  subst q1 q2 q3 q4
  rfl

/-- Witness of C3: the code word of `mov r3, r4` (opcode 0, both modes 8,
ARE 4) has the value 1092. -/
theorem convert_code_word_to_binary_layout_witness :
    convert_code_word_to_binary ⟨4, 8, 8, 0⟩ = 0 * 2 ^ 11 + 8 * 2 ^ 7 + 8 * 2 ^ 3 + 4 ∧
    convert_code_word_to_binary ⟨4, 8, 8, 0⟩ < 2 ^ 15 :=
  ⟨(convert_code_word_to_binary_layout ⟨4, 8, 8, 0⟩ (by decide) (by decide) (by decide)
      (by decide)).1,
    (convert_code_word_to_binary_layout ⟨4, 8, 8, 0⟩ (by decide) (by decide) (by decide)
      (by decide)).2.1⟩

/-- C4: for every word `w` below `2^15`, the decimal digits of
`convert_binary_to_octal w` are exactly the base-8 digits of `w`: each is at
most 7, the result is at most 77777, and read as a base-8 numeral the
digits give back `w`. -/
theorem convert_binary_to_octal_digits (w : Nat) (hw : w < 2 ^ 15) :
    Nat.digits 10 (convert_binary_to_octal w) = Nat.digits 8 w ∧
    (∀ d ∈ Nat.digits 10 (convert_binary_to_octal w), d ≤ 7) ∧
    convert_binary_to_octal w ≤ 77777 ∧
    Nat.ofDigits 8 (Nat.digits 10 (convert_binary_to_octal w)) = w := by
  have hd := octal_digits w hw
  have h7 : ∀ d ∈ Nat.digits 8 w, d ≤ 7 := fun d hdm => by
    have := Nat.digits_lt_base (b := 8) (by decide) hdm
    omega
  have hlen : (Nat.digits 8 w).length ≤ 5 := digits8_length_le w hw
  refine ⟨hd, ?_, ?_, ?_⟩
  · rw [hd]; exact h7
  · rw [octal_eq_ofDigits w hw]; exact ofDigits_le _ h7 hlen
  · rw [hd]; exact Nat.ofDigits_digits 8 w

/-- Witness of C4: the largest word, `2^15 - 1`, is printed as 77777. -/
theorem convert_binary_to_octal_digits_witness :
    32767 < 2 ^ 15 ∧ convert_binary_to_octal 32767 ≤ 77777 ∧
    Nat.ofDigits 8 (Nat.digits 10 (convert_binary_to_octal 32767)) = 32767 :=
  ⟨by decide, (convert_binary_to_octal_digits 32767 (by decide)).2.2.1,
    (convert_binary_to_octal_digits 32767 (by decide)).2.2.2⟩

/-- C5: for every 32-bit signed integer `v`, `handle_data_value v` is the
non-negative residue of `v` modulo `2^15`: below `2^15`, equal to `v` for
`0 ≤ v < 2^15` and to `2^15 + v` for `-2^15 ≤ v < 0`; `-1` gives 32767 and
`7` gives 7. -/
theorem handle_data_value_residue (v : Int) (_hlo : -2 ^ 31 ≤ v) (_hhi : v < 2 ^ 31) :
    (handle_data_value v : Int) = v % 2 ^ 15 ∧
    handle_data_value v < 2 ^ 15 ∧
    (0 ≤ v → v < 2 ^ 15 → (handle_data_value v : Int) = v) ∧
    (-2 ^ 15 ≤ v → v < 0 → (handle_data_value v : Int) = 2 ^ 15 + v) ∧
    handle_data_value (-1) = 32767 ∧ handle_data_value 7 = 7 := by
  have key : ∀ x : Int, (handle_data_value x : Int) = x % 2 ^ 15 := by
    intro x
    unfold handle_data_value to_int32
    have m : ∀ y : Nat, y &&& 0x7FFF = y % 2 ^ 15 := fun y => and_mask_eq_mod y 15
    simp only [m]
    have hs : ((1 <<< 15 : Nat) : Int) = 32768 := by decide
    rw [hs]
    split <;> omega
  have k := key v
  refine ⟨k, by omega, fun _ _ => by omega, fun _ _ => by omega, ?_, ?_⟩
  · have := key (-1); omega
  · have := key 7; omega

/-- Witness of C5: the value `-1` of a `.data` directive. -/
theorem handle_data_value_residue_witness :
    (handle_data_value (-1) : Int) = (-1) % 2 ^ 15 ∧ handle_data_value (-1) < 2 ^ 15 :=
  ⟨(handle_data_value_residue (-1) (by decide) (by decide)).1,
    (handle_data_value_residue (-1) (by decide) (by decide)).2.1⟩

/-! ## Extension-word helper lemmas -/

theorem to_ulong_of_nonneg (v : Int) (h0 : 0 ≤ v) (h1 : v < 2 ^ 64) : (to_ulong v : Int) = v := by
  unfold to_ulong
  omega

theorem take_takeWhile_length {α : Type} (p : α → Bool) (l : List α) :
    l.take (l.takeWhile p).length = l.takeWhile p := by
  induction l with
  | nil => rfl
  | cons a as ih =>
    by_cases h : p a = true
    · simp [List.takeWhile_cons, h, ih]
    · simp [List.takeWhile_cons, h]

theorem takeWhile_takeWhile_append {α : Type} (p : α → Bool) (l : List α) (x : α)
    (hx : p x = true) :
    (l.takeWhile p ++ [x]).takeWhile p = l.takeWhile p ++ [x] := by
  induction l with
  | nil => simp [List.takeWhile_cons, hx]
  | cons a as ih =>
    by_cases h : p a = true
    · simp [List.takeWhile_cons, h, ih]
    · simp [List.takeWhile_cons, h, hx]

theorem extern_uses_record (epa : Option (List ExternEntry)) (e : ExternEntry) (ic : Int)
    (hne : e.name.take (MAX_LABEL_LENGTH - 1) ≠ []) :
    extern_uses (record_extern_use epa e ic)
      = extern_uses epa ++ [{ name := e.name.take (MAX_LABEL_LENGTH - 1), line_number := ic }] := by
  have hp : (fun x : ExternEntry => !x.name.isEmpty)
      { name := e.name.take (MAX_LABEL_LENGTH - 1), line_number := ic } = true := by
    cases hn : e.name.take (MAX_LABEL_LENGTH - 1) with
    | nil => exact absurd hn hne
    | cons a as => simp [hn]
  cases epa with
  | none =>
    simp only [record_extern_use, extern_count_scan, extern_uses, Option.getD_none,
      List.take_nil, List.nil_append]
    rw [List.takeWhile_cons]
    simp only [hp, if_true, List.takeWhile_nil]
  | some l =>
    simp only [record_extern_use, extern_count_scan, extern_uses, Option.getD_some]
    rw [take_takeWhile_length]
    exact takeWhile_takeWhile_append _ l _ hp

theorem direct_operand_ne_nil (operand : List Char)
    (hd : get_addressing_type operand = .DIRECT_ADDR) : operand ≠ [] := by
  intro h
  subst h
  revert hd
  decide

theorem find_some_of_declared (externs : List ExternEntry) (name : List Char)
    (h : externs.any (fun e => decide (e.name = name)) = true) :
    ∃ e, externs.find? (fun e => decide (e.name = name)) = some e ∧ e.name = name := by
  induction externs with
  | nil => simp at h
  | cons a as ih =>
    by_cases ha : a.name = name
    · exact ⟨a, by simp [List.find?_cons, ha], ha⟩
    · simp only [List.any_cons, ha, decide_False, Bool.false_or] at h
      obtain ⟨e, he, hn⟩ := ih h
      exact ⟨e, by simp [List.find?_cons, ha, he], hn⟩

theorem find_none_of_not_declared (externs : List ExternEntry) (name : List Char)
    (h : externs.any (fun e => decide (e.name = name)) = false) :
    externs.find? (fun e => decide (e.name = name)) = none := by
  induction externs with
  | nil => rfl
  | cons a as ih =>
    simp only [List.any_cons, Bool.or_eq_false_iff, decide_eq_false_iff_not] at h
    simp [List.find?_cons, h.1, ih h.2]

/-- The three cases of `generate_non_register_code_word` on a direct operand. -/
theorem direct_operand_cases (u : uninit_memory) (st : code_state) (operand : List Char)
    (labels : List Label) (ext_entry_array : ExternEntryArray)
    (hd : get_addressing_type operand = .DIRECT_ADDR)
    (hlen : operand.length ≤ MAX_OPERAND_LENGTH - 1) :
    (is_extern_name ext_entry_array operand = true →
      ∃ st1, generate_non_register_code_word u st (some operand) labels ext_entry_array = .ok st1 ∧
        st1.ic = st.ic + 1 ∧
        st1.code_img (st.ic - IC_INIT_VALUE)
          = some { length := 0, word := .data { ARE := 1, data := 0 } } ∧
        (∀ i, i ≠ st.ic - IC_INIT_VALUE → st1.code_img i = st.code_img i) ∧
        extern_uses st1.extern_printing_array
          = extern_uses st.extern_printing_array ++ [{ name := operand, line_number := st.ic }]) ∧
    (is_extern_name ext_entry_array operand = false →
      ∀ l, labels.find? (fun l => decide (l.label = operand)) = some l →
        generate_non_register_code_word u st (some operand) labels ext_entry_array
          = .ok (store_word st
              { length := 0, word := .data { ARE := 2, data := to_ulong l.line_number } })) ∧
    (is_extern_name ext_entry_array operand = false →
      labels.find? (fun l => decide (l.label = operand)) = none →
        generate_non_register_code_word u st (some operand) labels ext_entry_array
          = .error .label_not_initialized) := by
  refine ⟨?_, ?_, ?_⟩
  · intro hx
    obtain ⟨e, he, hn⟩ := find_some_of_declared _ _ hx
    have hne : e.name.take (MAX_LABEL_LENGTH - 1) ≠ [] := by
      rw [hn, List.take_of_length_le (by simpa [MAX_LABEL_LENGTH, MAX_OPERAND_LENGTH] using hlen)]
      exact direct_operand_ne_nil operand hd
    refine ⟨store_word
        { st with extern_printing_array := record_extern_use st.extern_printing_array e st.ic }
        { length := 0
          word := .data (handle_non_register_address_word u.data_word .DIRECT_ADDR 0 true) },
      ?_, ?_, ?_, ?_, ?_⟩
    · simp only [generate_non_register_code_word, hd, ne_eq, reduceCtorEq, not_false_eq_true,
        if_true, if_false, he]
    · simp [store_word]
    · simp [store_word, handle_non_register_address_word, bitfield, to_ulong]
    · intro i hi
      simp [store_word, hi]
    · simp only [store_word]
      rw [extern_uses_record _ _ _ hne, hn,
        List.take_of_length_le (by simpa [MAX_LABEL_LENGTH, MAX_OPERAND_LENGTH] using hlen)]
  · intro hx l hl
    have he := find_none_of_not_declared _ _ hx
    simp only [generate_non_register_code_word, hd, ne_eq, reduceCtorEq, not_false_eq_true,
      if_true, if_false, he, hl, handle_non_register_address_word, bitfield]
    rfl
  · intro hx hl
    have he := find_none_of_not_declared _ _ hx
    simp only [generate_non_register_code_word, hd, ne_eq, reduceCtorEq, not_false_eq_true,
      if_true, if_false, he, hl]

theorem record_references_uses (u : uninit_memory) (labels : List Label)
    (ext_entry_array : ExternEntryArray) :
    ∀ (refs : List (Int × List Char)) (epa epa1 : Option (List ExternEntry)),
      (∀ r ∈ refs, get_addressing_type r.2 = .DIRECT_ADDR ∧
        r.2.length ≤ MAX_OPERAND_LENGTH - 1) →
      record_references u labels ext_entry_array epa refs = .ok epa1 →
      extern_uses epa1 = extern_uses epa ++
        (refs.filter (fun r => is_extern_name ext_entry_array r.2)).map
          (fun r => { name := r.2, line_number := r.1 }) := by
  intro refs
  induction refs with
  | nil =>
    intro epa epa1 _ h
    simp only [record_references, Except.ok.injEq] at h
    simp [h]
  | cons r refs ih =>
    intro epa epa1 hall h
    obtain ⟨ic, operand⟩ := r
    have hr := hall (ic, operand) (by simp)
    obtain ⟨c1, c2, c3⟩ := direct_operand_cases u
      { code_img := fun _ => none, ic := ic, extern_printing_array := epa } operand labels
      ext_entry_array hr.1 hr.2
    have hrest : ∀ r ∈ refs, get_addressing_type r.2 = .DIRECT_ADDR ∧
        r.2.length ≤ MAX_OPERAND_LENGTH - 1 := fun r hm => hall r (by simp [hm])
    simp only [record_references] at h
    cases hx : is_extern_name ext_entry_array operand with
    | true =>
      obtain ⟨st1, hgen, -, -, -, huses⟩ := c1 hx
      simp only [hgen] at h
      rw [ih _ _ hrest h, huses]
      simp [List.filter_cons, hx]
    | false =>
      cases hl : labels.find? (fun l => decide (l.label = operand)) with
      | none =>
        rw [c3 hx hl] at h
        simp at h
      | some l =>
        rw [c2 hx l hl] at h
        simp only [store_word] at h
        rw [ih _ _ hrest h]
        simp [List.filter_cons, hx]

/-- C7: on a direct operand as `process_code` passes it (a buffer of
`MAX_OPERAND_LENGTH` bytes), `generate_non_register_code_word` (i) for a
declared extern stores a word with ARE 1 and payload 0 and appends the one
record (name, address of that word) at the end of the extern uses, leaving
the earlier records as they are; (ii) for a name that is a label and not a
declared extern stores a word with ARE 2 and the label's address as payload
and leaves the extern uses unchanged; (iii) for a name that is neither,
fails. Hence after any sequence of direct references the extern uses are the
initial ones followed by one record per reference to an extern, in the order
of the references. -/
theorem direct_operand_extension_word (u : uninit_memory) (st : code_state)
    (operand : List Char) (labels : List Label) (ext_entry_array : ExternEntryArray)
    (hd : get_addressing_type operand = .DIRECT_ADDR)
    (hlen : operand.length ≤ MAX_OPERAND_LENGTH - 1) :
    (is_extern_name ext_entry_array operand = true →
      ∃ st1, generate_non_register_code_word u st (some operand) labels ext_entry_array = .ok st1 ∧
        st1.ic = st.ic + 1 ∧
        st1.code_img (st.ic - IC_INIT_VALUE)
          = some { length := 0, word := .data { ARE := 1, data := 0 } } ∧
        extern_uses st1.extern_printing_array
          = extern_uses st.extern_printing_array ++ [{ name := operand, line_number := st.ic }]) ∧
    (is_extern_name ext_entry_array operand = false →
      ∀ l, labels.find? (fun l => decide (l.label = operand)) = some l →
        ∃ st1, generate_non_register_code_word u st (some operand) labels ext_entry_array
            = .ok st1 ∧
          st1.ic = st.ic + 1 ∧
          st1.code_img (st.ic - IC_INIT_VALUE)
            = some { length := 0, word := .data { ARE := 2, data := to_ulong l.line_number } } ∧
          (0 ≤ l.line_number → l.line_number < 2 ^ 64 →
            (to_ulong l.line_number : Int) = l.line_number) ∧
          st1.extern_printing_array = st.extern_printing_array) ∧
    (is_extern_name ext_entry_array operand = false →
      labels.find? (fun l => decide (l.label = operand)) = none →
        generate_non_register_code_word u st (some operand) labels ext_entry_array
          = .error .label_not_initialized) ∧
    (∀ (refs : List (Int × List Char)) (epa epa1 : Option (List ExternEntry)),
      (∀ r ∈ refs, get_addressing_type r.2 = .DIRECT_ADDR ∧
        r.2.length ≤ MAX_OPERAND_LENGTH - 1) →
      record_references u labels ext_entry_array epa refs = .ok epa1 →
      extern_uses epa1 = extern_uses epa ++
          (refs.filter (fun r => is_extern_name ext_entry_array r.2)).map
            (fun r => { name := r.2, line_number := r.1 }) ∧
        (extern_uses epa1).length = (extern_uses epa).length +
          (refs.filter (fun r => is_extern_name ext_entry_array r.2)).length) := by
  obtain ⟨c1, c2, c3⟩ := direct_operand_cases u st operand labels ext_entry_array hd hlen
  refine ⟨?_, ?_, c3, ?_⟩
  · intro hx
    obtain ⟨st1, h1, h2, h3, -, h5⟩ := c1 hx
    exact ⟨st1, h1, h2, h3, h5⟩
  · intro hx l hl
    refine ⟨_, c2 hx l hl, ?_, ?_, to_ulong_of_nonneg l.line_number, ?_⟩
    · simp [store_word]
    · simp [store_word]
    · simp [store_word]
  · intro refs epa epa1 hall hrun
    have h := record_references_uses u labels ext_entry_array refs epa epa1 hall hrun
    refine ⟨h, ?_⟩
    rw [h]
    simp

/-- Witness of C7: in `.extern EXT` followed by `jmp EXT` the operand `EXT`
is a declared extern, and the reference at address 101 is recorded. -/
theorem direct_operand_extension_word_witness :
    get_addressing_type "EXT".toList = .DIRECT_ADDR ∧
    "EXT".toList.length ≤ MAX_OPERAND_LENGTH - 1 ∧
    is_extern_name ⟨[⟨"EXT".toList, 100⟩], []⟩ "EXT".toList = true ∧
    ∃ st1, generate_non_register_code_word sample_memory
        { code_img := fun _ => none, ic := 101, extern_printing_array := none }
        (some "EXT".toList) [] ⟨[⟨"EXT".toList, 100⟩], []⟩ = .ok st1 ∧
      st1.ic = 101 + 1 ∧
      st1.code_img (101 - IC_INIT_VALUE)
        = some { length := 0, word := .data { ARE := 1, data := 0 } } ∧
      extern_uses st1.extern_printing_array
        = extern_uses none ++ [{ name := "EXT".toList, line_number := 101 }] :=
  ⟨by decide, by decide, by decide,
    (direct_operand_extension_word sample_memory
      { code_img := fun _ => none, ic := 101, extern_printing_array := none }
      "EXT".toList [] ⟨[⟨"EXT".toList, 100⟩], []⟩ (by decide) (by decide)).1 (by decide)⟩

/-- Counterexample to C8 as stated: for `mov r3, r4` the payload of the
shared extension word is `(3 << 3) | 4 = 28`, not 27. -/
theorem shared_word_mov_r3_r4_not_27 :
    (handle_register_address_word sample_memory.data_word 3 4).data = 28 ∧
    (handle_register_address_word sample_memory.data_word 3 4).data ≠ 27 ∧
    (process_code sample_memory "mov".toList " r3, r4".toList second_pass_init [] ⟨[], []⟩).map
        (fun st => st.code_img 1)
      = .ok (some { length := 0, word := .data { ARE := 4, data := 28 } }) := by
  decide

/-- C8, amended: for register numbers `s` and `d` in 0..7 that are not both
0, the shared extension word built by `handle_register_address_word` has ARE
4 and payload `(s << 3) | d`, whatever the allocated memory held; for
`mov r3, r4` the payload is 28 and the instruction occupies exactly two
words, the code word (opcode 0, both modes 8, ARE 4) and the shared word. -/
theorem handle_register_address_word_payload (uninit : dataWord) (s d : Int)
    (hs0 : 0 ≤ s) (hs7 : s ≤ 7) (hd0 : 0 ≤ d) (hd7 : d ≤ 7) (hne : s ≠ 0 ∨ d ≠ 0) :
    (handle_register_address_word uninit s d).ARE = 4 ∧
    (handle_register_address_word uninit s d).data = (s.toNat <<< 3) ||| d.toNat ∧
    (process_code sample_memory "mov".toList " r3, r4".toList second_pass_init [] ⟨[], []⟩).map
        (fun st => (st.ic, st.code_img 0, st.code_img 1, st.code_img 2))
      = .ok (102,
          some { length := 2,
                 word := .code { ARE := 4, dest_address := 8, src_address := 8, opcode := 0 } },
          some { length := 0, word := .data { ARE := 4, data := 28 } },
          none) := by
  refine ⟨?_, ?_, by decide⟩
  · unfold handle_register_address_word
    split_ifs <;> rfl
  · interval_cases s <;> interval_cases d <;>
      first
      | (exfalso; revert hne; decide)
      | (simp [handle_register_address_word, to_ulong])

/-- Witness of C8 (amended): source register 3 and destination register 4. -/
theorem handle_register_address_word_payload_witness :
    (handle_register_address_word sample_memory.data_word 3 4).ARE = 4 ∧
    (handle_register_address_word sample_memory.data_word 3 4).data
      = ((3 : Int).toNat <<< 3) ||| (4 : Int).toNat :=
  ⟨(handle_register_address_word_payload sample_memory.data_word 3 4 (by decide) (by decide)
      (by decide) (by decide) (by decide)).1,
    (handle_register_address_word_payload sample_memory.data_word 3 4 (by decide) (by decide)
      (by decide) (by decide) (by decide)).2.1⟩

/-- The case C8 leaves out: with both register numbers 0 the function
assigns no payload, so the word keeps what the allocated memory held. -/
theorem handle_register_address_word_zero_zero (uninit : dataWord) :
    (handle_register_address_word uninit 0 0).data = uninit.data := by
  simp [handle_register_address_word]

/-! ## Pass-one helper lemmas -/

theorem count_data_tokens_shift (tokens : List (List Char)) :
    ∀ c : Int, count_data_tokens tokens c = (count_data_tokens tokens 0).map (fun n => c + n) := by
  induction tokens with
  | nil => intro c; simp [count_data_tokens, Except.map]
  | cons t ts ih =>
    intro c
    simp only [count_data_tokens]
    split
    · rfl
    · rw [ih (c + 1), ih (0 + 1)]
      cases count_data_tokens ts 0 with
      | error e => rfl
      | ok n => simp [Except.map]; omega

theorem count_data_tokens_nonneg (tokens : List (List Char)) :
    ∀ (c n : Int), 0 ≤ c → count_data_tokens tokens c = .ok n → 0 ≤ n := by
  induction tokens with
  | nil => intro c n hc h; simp [count_data_tokens] at h; omega
  | cons t ts ih =>
    intro c n hc h
    simp only [count_data_tokens] at h
    split at h
    · simp at h
    · exact ih (c + 1) n (by omega) h

theorem handle_data_directive_shift (line : List Char) (c : Int) :
    handle_data_directive line c = (handle_data_directive line 0).map (fun n => c + n) := by
  unfold handle_data_directive
  split
  · rfl
  · exact count_data_tokens_shift _ c

theorem handle_string_directive_shift (line : List Char) (c : Int) :
    handle_string_directive line c = (handle_string_directive line 0).map (fun n => c + n) := by
  unfold handle_string_directive
  simp only
  split
  · rfl
  · split
    · rfl
    · simp [Except.map]; omega

theorem scan_operands_not_ram (operands : List Char) :
    scan_operands operands ≠ .error .ram_overflow := by
  unfold scan_operands
  intro h
  repeat' split at h
  all_goals simp at h

theorem calculate_instruction_lines_not_ram (operation operands : List Char) :
    calculate_instruction_lines operation operands ≠ .error .ram_overflow := by
  unfold calculate_instruction_lines
  intro h
  cases hi : get_operation_info operation with
  | none => simp [hi] at h
  | some op_info =>
    cases hs : scan_operands operands with
    | error e =>
      simp only [hi, hs, Except.error.injEq] at h
      subst h
      exact scan_operands_not_ram operands hs
    | ok r =>
      obtain ⟨k, src, dest⟩ := r
      simp only [hi, hs] at h
      split at h
      · split at h <;> simp at h
      · cases hte : operand_type_error op_info k src dest with
        | none => simp [hte] at h
        | some e =>
          simp only [hte, Except.error.injEq] at h
          subst h
          exact operand_type_error_not_ram _ _ _ _ hte

theorem calculate_instruction_lines_nonneg (operation operands : List Char) (n : Int)
    (h : calculate_instruction_lines operation operands = .ok n) : 0 ≤ n := by
  have := (instruction_lines_eq operation operands n h).2
  split at this <;> omega

theorem count_data_tokens_not_ram (tokens : List (List Char)) :
    ∀ c : Int, count_data_tokens tokens c ≠ .error .ram_overflow := by
  induction tokens with
  | nil => intro c; simp [count_data_tokens]
  | cons t ts ih =>
    intro c
    simp only [count_data_tokens]
    split
    · simp
    · exact ih _

theorem handle_data_directive_not_ram (line : List Char) (c : Int) :
    handle_data_directive line c ≠ .error .ram_overflow := by
  unfold handle_data_directive
  split
  · simp
  · exact count_data_tokens_not_ram _ _

theorem handle_string_directive_not_ram (line : List Char) (c : Int) :
    handle_string_directive line c ≠ .error .ram_overflow := by
  unfold handle_string_directive
  simp only
  repeat' split
  all_goals simp

theorem add_extern_entry_tokens_not_ram (directive : List Char) (n : Int)
    (tokens : List (List Char)) :
    ∀ a : ExternEntryArray, add_extern_entry_tokens directive n tokens a ≠ .error .ram_overflow := by
  induction tokens with
  | nil => intro a; simp [add_extern_entry_tokens]
  | cons t ts ih =>
    intro a
    simp only [add_extern_entry_tokens]
    split
    · split
      · rename_i e he
        unfold add_extern at he
        split at he
        · simp only [Except.error.injEq] at he
          subst he
          simp
        · simp at he
      · exact ih _
    · split
      · split
        · rename_i e he
          unfold add_entry at he
          split at he
          · simp only [Except.error.injEq] at he
            subst he
            simp
          · simp at he
        · exact ih _
      · exact ih _

theorem not_operation_of_directive (token : List Char)
    (h : token = ".data".toList ∨ token = ".string".toList ∨ token = ".extern".toList ∨
      token = ".entry".toList) : is_operation token = false := by
  rcases h with h | h | h | h <;> subst h <;> decide

theorem statement_code_words_nonneg (token rest : List Char) :
    0 ≤ statement_code_words token rest := by
  unfold statement_code_words
  split
  · split
    · rename_i n hn
      exact calculate_instruction_lines_nonneg _ _ n hn
    · omega
  · omega

theorem statement_data_words_nonneg (token rest : List Char) :
    0 ≤ statement_data_words token rest := by
  unfold statement_data_words
  split
  · split
    · split
      · rename_i n hn
        unfold handle_data_directive at hn
        split at hn
        · simp at hn
        · exact count_data_tokens_nonneg _ 0 n (by omega) hn
      · omega
    · omega
  · split
    · split
      · split
        · rename_i n hn
          unfold handle_string_directive at hn
          simp only at hn
          split at hn
          · simp at hn
          · split at hn
            · simp at hn
            · simp only [Except.ok.injEq] at hn
              omega
        · omega
      · omega
    · omega

theorem first_pass_dispatch_effect (st : first_pass_state) (token rest : List Char) :
    first_pass_dispatch st token rest ≠ .error .ram_overflow ∧
    (∀ st1, first_pass_dispatch st token rest = .ok st1 →
      st1.line_counter
        = st.line_counter + statement_code_words token rest + statement_data_words token rest ∧
      st1.label_array = st.label_array) := by
  unfold first_pass_dispatch
  by_cases hop : is_operation token = true
  · have hd : statement_data_words token rest = 0 := by
      unfold statement_data_words
      split
      · rename_i h
        rw [not_operation_of_directive token (Or.inl h)] at hop
        simp at hop
      · split
        · rename_i h
          rw [not_operation_of_directive token (Or.inr (Or.inl h))] at hop
          simp at hop
        · rfl
    simp only [hop, if_true, hd, add_zero, statement_code_words]
    cases hc : calculate_instruction_lines token
        (((strtok "\n".toList rest).map (fun p => p.1)).getD []) with
    | error e =>
      refine ⟨fun h => ?_, fun st1 h => by simp at h⟩
      simp only [Except.error.injEq] at h
      subst h
      exact absurd hc (calculate_instruction_lines_not_ram _ _)
    | ok n =>
      refine ⟨by simp, fun st1 h => ?_⟩
      simp only [Except.ok.injEq] at h
      subst h
      exact ⟨rfl, rfl⟩
  · have hc : statement_code_words token rest = 0 := by
      unfold statement_code_words
      simp [hop]
    simp only [hop, Bool.false_eq_true, if_false, hc, add_zero, statement_data_words]
    by_cases hdata : token = ".data".toList
    · simp only [hdata, if_true]
      cases hs : strtok "\n".toList rest with
      | none => exact ⟨by simp, fun st1 h => by simp at h⟩
      | some p =>
        obtain ⟨data_part, r⟩ := p
        simp only
        rw [handle_data_directive_shift]
        cases hh : handle_data_directive data_part 0 with
        | error e =>
          refine ⟨fun h => ?_, fun st1 h => by simp [Except.map] at h⟩
          simp only [Except.map, Except.error.injEq] at h
          subst h
          exact absurd hh (handle_data_directive_not_ram _ _)
        | ok n =>
          refine ⟨by simp [Except.map], fun st1 h => ?_⟩
          simp only [Except.map, Except.ok.injEq] at h
          subst h
          exact ⟨rfl, rfl⟩
    · simp only [hdata, if_false]
      by_cases hstr : token = ".string".toList
      · simp only [hstr, if_true]
        cases hs : strtok "\n".toList rest with
        | none => exact ⟨by simp, fun st1 h => by simp at h⟩
        | some p =>
          obtain ⟨string_directive, r⟩ := p
          simp only
          rw [handle_string_directive_shift]
          cases hh : handle_string_directive
              (string_directive.dropWhile (fun c => c == ' ' || c == '\t')) 0 with
          | error e =>
            refine ⟨fun h => ?_, fun st1 h => by simp [Except.map] at h⟩
            simp only [Except.map, Except.error.injEq] at h
            subst h
            exact absurd hh (handle_string_directive_not_ram _ _)
          | ok n =>
            refine ⟨by simp [Except.map], fun st1 h => ?_⟩
            simp only [Except.map, Except.ok.injEq] at h
            subst h
            exact ⟨rfl, rfl⟩
      · simp only [hstr, if_false]
        split
        · cases hh : handle_extern_entry_directive token rest st.ext_entry_array
              st.line_counter with
          | error e =>
            refine ⟨fun h => ?_, fun st1 h => by simp at h⟩
            simp only [Except.error.injEq] at h
            subst h
            exact absurd hh (add_extern_entry_tokens_not_ram _ _ _ _)
          | ok a =>
            refine ⟨by simp, fun st1 h => ?_⟩
            simp only [Except.ok.injEq] at h
            subst h
            simp
        · exact ⟨by simp, fun st1 h => by simp at h⟩

/-- Effect of the statement part of a line on the state of pass one. -/
theorem first_pass_statement_effect (st : first_pass_state) (token rest : List Char) :
    (∀ st1, first_pass_statement st (some (token, rest)) = .ok st1 →
      st1.line_counter
        = st.line_counter + statement_code_words token rest + statement_data_words token rest ∧
      st1.label_array = st.label_array ∧ st1.line_counter ≤ CODE_ARR_IMG_LENGTH) ∧
    (first_pass_statement st (some (token, rest)) = .error .ram_overflow →
      CODE_ARR_IMG_LENGTH
        < st.line_counter + statement_code_words token rest + statement_data_words token rest) := by
  obtain ⟨hnr, hok⟩ := first_pass_dispatch_effect st token rest
  unfold first_pass_statement
  simp only
  cases hd : first_pass_dispatch st token rest with
  | error e =>
    refine ⟨fun st1 h => by simp at h, fun h => ?_⟩
    simp only [Except.error.injEq] at h
    subst h
    exact absurd hd hnr
  | ok s =>
    obtain ⟨h1, h2⟩ := hok s hd
    simp only
    split
    · rename_i hgt
      refine ⟨fun st1 h => by simp at h, fun _ => by rw [← h1]; exact hgt⟩
    · rename_i hle
      refine ⟨fun st1 h => ?_, fun h => by simp at h⟩
      simp only [Except.ok.injEq] at h
      subst h
      exact ⟨h1, h2, by simpa using hle⟩

/-- Effect of one line on the state of pass one: the line counter advances
by the words of the line, the label of the line is appended with the value
the counter had before, and a line with a statement passes the RAM test. -/
theorem first_pass_line_effect (st : first_pass_state) (raw : List Char) :
    (∀ st1, first_pass_line st raw = .ok st1 →
      st1.line_counter = st.line_counter + line_words raw ∧
      st1.label_array = st.label_array ++
        (match line_label raw with
          | some name => [{ label := name.take MAX_LABEL_LENGTH, line_number := st.line_counter }]
          | none => []) ∧
      ((line_statement raw).isSome = true → st1.line_counter ≤ CODE_ARR_IMG_LENGTH)) ∧
    (first_pass_line st raw = .error .ram_overflow →
      (line_statement raw).isSome = true ∧
      CODE_ARR_IMG_LENGTH < st.line_counter + line_words raw) := by
  unfold first_pass_line
  by_cases hlong : raw.length > MAX_LINE_LENGTH
  · simp [hlong]
  simp only [hlong, if_false]
  have htext : raw.takeWhile (fun c => !(c == '\r' || c == '\n')) = line_text raw := rfl
  rw [htext]
  by_cases hblank : is_blank_line raw = true
  · have hb := hblank
    unfold is_blank_line at hb
    simp only [decide_eq_true_eq] at hb
    simp only [hb, if_true]
    refine ⟨fun st1 h => ?_, fun h => by simp at h⟩
    simp only [Except.ok.injEq] at h
    subst h
    simp [line_words, code_words, data_words, line_statement, line_label, is_label_only_line,
      hblank]
  · have hb := hblank
    unfold is_blank_line at hb
    simp only [decide_eq_true_eq] at hb
    simp only [hb, if_false]
    have hbf : is_blank_line raw = false := by simpa using hblank
    split
    · simp
    · cases hs : strtok " \t".toList (line_text raw) with
      | none =>
        have hs1 : strtok [' ', '\t'] (line_text raw) = none := hs
        simp only [first_pass_statement]
        refine ⟨fun st1 h => ?_, fun h => by simp at h⟩
        simp only [Except.ok.injEq] at h
        subst h
        simp [line_words, code_words, data_words, line_statement, line_label,
          is_label_only_line, hbf, hs1]
      | some p =>
        obtain ⟨token, rest⟩ := p
        have hs1 : strtok [' ', '\t'] (line_text raw) = some (token, rest) := hs
        simp only
        by_cases hcolon : token.contains ':' = true
        · have hcolon1 : ':' ∈ token := by simpa using hcolon
          simp only [hcolon, if_true]
          split
          · by_cases hu : is_unique_label st.label_array
                (token.takeWhile (fun c => !(c == ':'))) = true
            · simp only [add_label, hu, Bool.not_true, Bool.false_eq_true, if_false]
              cases hs2 : strtok " \t".toList rest with
              | none =>
                have hs3 : strtok [' ', '\t'] rest = none := hs2
                simp only [first_pass_statement]
                refine ⟨fun st1 h => ?_, fun h => by simp at h⟩
                simp only [Except.ok.injEq] at h
                subst h
                simp [line_words, code_words, data_words, line_statement, line_label,
                  is_label_only_line, hbf, hs1, hs3, hcolon1]
              | some p2 =>
                obtain ⟨token2, rest2⟩ := p2
                have hs3 : strtok [' ', '\t'] rest = some (token2, rest2) := hs2
                obtain ⟨e1, e2⟩ := first_pass_statement_effect
                  { st with label_array := st.label_array ++
                      [{ label := (token.takeWhile (fun c => !(c == ':'))).take MAX_LABEL_LENGTH,
                         line_number := st.line_counter }] } token2 rest2
                refine ⟨fun st1 h => ?_, fun h => ?_⟩
                · obtain ⟨a1, a2, a3⟩ := e1 st1 h
                  simp only at a1 a2
                  simp [line_words, code_words, data_words, line_statement, line_label,
                    is_label_only_line, hbf, hs1, hs3, hcolon1, a2]
                  exact ⟨by omega, a3⟩
                · have a := e2 h
                  simp only at a
                  simp [line_words, code_words, data_words, line_statement, line_label,
                    is_label_only_line, hbf, hs1, hs3, hcolon1]
                  omega
            · simp [add_label, hu]
          · simp
        · have hcolon1 : ¬ ':' ∈ token := by simpa using hcolon
          simp only [hcolon, Bool.false_eq_true, if_false]
          obtain ⟨e1, e2⟩ := first_pass_statement_effect st token rest
          refine ⟨fun st1 h => ?_, fun h => ?_⟩
          · obtain ⟨a1, a2, a3⟩ := e1 st1 h
            simp [line_words, code_words, data_words, line_statement, line_label,
              is_label_only_line, hbf, hs1, hcolon1, a2]
            exact ⟨by omega, a3⟩
          · have a := e2 h
            simp [line_words, code_words, data_words, line_statement, line_label,
              is_label_only_line, hbf, hs1, hcolon1]
            omega

theorem line_words_nonneg (raw : List Char) : 0 ≤ line_words raw := by
  unfold line_words code_words data_words
  have h1 : ∀ t r, 0 ≤ statement_code_words t r := statement_code_words_nonneg
  have h2 : ∀ t r, 0 ≤ statement_data_words t r := statement_data_words_nonneg
  cases line_statement raw with
  | none => simp only; split <;> omega
  | some p =>
    obtain ⟨t, r⟩ := p
    have := h1 t r
    have := h2 t r
    simp only
    split <;> omega

theorem total_words_nil : total_words [] = 0 := rfl

theorem total_words_cons (raw : List Char) (lines : List (List Char)) :
    total_words (raw :: lines) = line_words raw + total_words lines := by
  simp [total_words]

theorem total_words_append (xs ys : List (List Char)) :
    total_words (xs ++ ys) = total_words xs + total_words ys := by
  simp [total_words]

theorem total_words_nonneg (lines : List (List Char)) : 0 ≤ total_words lines := by
  induction lines with
  | nil => simp [total_words]
  | cons l ls ih =>
    rw [total_words_cons]
    have := line_words_nonneg l
    omega

theorem total_words_split (lines : List (List Char)) :
    total_words lines = (lines.map code_words).sum + (lines.map data_words).sum +
      ((lines.filter is_label_only_line).length : Int) := by
  induction lines with
  | nil => simp [total_words]
  | cons l ls ih =>
    rw [total_words_cons, ih]
    simp only [List.map_cons, List.sum_cons, List.filter_cons, line_words]
    by_cases h : is_label_only_line l = true
    · simp only [h, if_true, List.length_cons]
      push_cast
      ring
    · simp only [h, Bool.false_eq_true, if_false]
      ring

/-- Effect of pass one on a list of lines. -/
theorem first_pass_lines_effect (lines : List (List Char)) :
    ∀ st st1 : first_pass_state, first_pass_lines st lines = .ok st1 →
      st1.line_counter = st.line_counter + total_words lines ∧
      st1.label_array = st.label_array ++ label_addresses st.line_counter lines := by
  induction lines with
  | nil =>
    intro st st1 h
    simp only [first_pass_lines, Except.ok.injEq] at h
    subst h
    simp [total_words, label_addresses]
  | cons l ls ih =>
    intro st st1 h
    simp only [first_pass_lines] at h
    cases hl : first_pass_line st l with
    | error e => simp [hl] at h
    | ok s =>
      simp only [hl] at h
      obtain ⟨a1, a2, -⟩ := (first_pass_line_effect st l).1 s hl
      obtain ⟨b1, b2⟩ := ih s st1 h
      rw [total_words_cons]
      refine ⟨by omega, ?_⟩
      rw [b2, a2, a1]
      simp [label_addresses]

theorem label_addresses_mem (pre : List (List Char)) :
    ∀ (start : Int) (raw : List Char) (post : List (List Char)) (name : List Char),
      line_label raw = some name →
      ({ label := name.take MAX_LABEL_LENGTH, line_number := start + total_words pre } : Label)
        ∈ label_addresses start (pre ++ raw :: post) := by
  induction pre with
  | nil =>
    intro start raw post name h
    simp [label_addresses, h, total_words]
  | cons l ls ih =>
    intro start raw post name h
    have := ih (start + line_words l) raw post name h
    rw [total_words_cons]
    simp only [List.cons_append, label_addresses, List.mem_append]
    right
    rw [← add_assoc]
    exact this

/-- A RAM overflow is reported only after a statement line that takes the
line counter above the capacity. -/
theorem ram_overflow_split (lines : List (List Char)) :
    ∀ st : first_pass_state, first_pass_lines st lines = .error .ram_overflow →
      ∃ pre raw post, lines = pre ++ raw :: post ∧ (line_statement raw).isSome = true ∧
        CODE_ARR_IMG_LENGTH < st.line_counter + total_words (pre ++ [raw]) := by
  induction lines with
  | nil => intro st h; simp [first_pass_lines] at h
  | cons l ls ih =>
    intro st h
    simp only [first_pass_lines] at h
    cases hl : first_pass_line st l with
    | error e =>
      simp only [hl, Except.error.injEq] at h
      subst h
      obtain ⟨a1, a2⟩ := (first_pass_line_effect st l).2 hl
      exact ⟨[], l, ls, rfl, a1, by simpa [total_words] using a2⟩
    | ok s =>
      simp only [hl] at h
      obtain ⟨a1, -, -⟩ := (first_pass_line_effect st l).1 s hl
      obtain ⟨pre, raw, post, e1, e2, e3⟩ := ih s h
      refine ⟨l :: pre, raw, post, by rw [e1]; rfl, e2, ?_⟩
      rw [List.cons_append, total_words_cons]
      omega

/-- When pass one succeeds, the line counter is within the capacity after
every statement line. -/
theorem first_pass_lines_within (pre : List (List Char)) :
    ∀ (st st1 : first_pass_state) (raw : List Char) (post : List (List Char)),
      first_pass_lines st (pre ++ raw :: post) = .ok st1 →
      (line_statement raw).isSome = true →
      st.line_counter + total_words (pre ++ [raw]) ≤ CODE_ARR_IMG_LENGTH := by
  induction pre with
  | nil =>
    intro st st1 raw post h hs
    simp only [List.nil_append, first_pass_lines] at h
    cases hl : first_pass_line st raw with
    | error e => simp [hl] at h
    | ok s =>
      obtain ⟨a1, -, a3⟩ := (first_pass_line_effect st raw).1 s hl
      have := a3 hs
      simp only [List.nil_append, total_words, List.map_cons, List.map_nil, List.sum_cons,
        List.sum_nil, add_zero]
      omega
  | cons l ls ih =>
    intro st st1 raw post h hs
    simp only [List.cons_append, first_pass_lines] at h
    cases hl : first_pass_line st l with
    | error e => simp [hl] at h
    | ok s =>
      simp only [hl] at h
      obtain ⟨a1, -, -⟩ := (first_pass_line_effect st l).1 s hl
      have := ih s st1 raw post h hs
      rw [List.cons_append, total_words_cons]
      omega

theorem stop_line_effect (st : first_pass_state) :
    first_pass_line st "stop".toList =
      if st.line_counter + 1 > CODE_ARR_IMG_LENGTH then .error .ram_overflow
      else .ok { st with line_counter := st.line_counter + 1,
                         user_line_counter := st.user_line_counter + 1 } := by
  have hd : first_pass_dispatch st "stop".toList []
      = .ok { st with line_counter := st.line_counter + 1 } := by
    unfold first_pass_dispatch
    rw [if_pos (by decide)]
    have hc : calculate_instruction_lines "stop".toList
        (((strtok "\n".toList []).map (fun p => p.1)).getD []) = .ok 1 := by decide
    simp only [hc]
  unfold first_pass_line
  rw [if_neg (by decide)]
  simp only
  rw [if_neg (by decide), if_neg (by decide)]
  have hs : strtok " \t".toList
      ("stop".toList.takeWhile (fun c => !(c == '\r' || c == '\n')))
      = some ("stop".toList, []) := by decide
  simp only [hs]
  rw [if_neg (by decide)]
  simp only [first_pass_statement, hd]

theorem stop_program_effect (n : Nat) :
    ∀ st : first_pass_state, st.line_counter + n ≤ CODE_ARR_IMG_LENGTH →
      first_pass_lines st (stop_program n) =
        .ok { st with line_counter := st.line_counter + n,
                      user_line_counter := st.user_line_counter + n } := by
  induction n with
  | zero => intro st _; simp [stop_program, first_pass_lines]
  | succ k ih =>
    intro st h
    have h1 : ¬ st.line_counter + 1 > CODE_ARR_IMG_LENGTH := by push_cast at h; omega
    have step := ih { st with line_counter := st.line_counter + 1,
                              user_line_counter := st.user_line_counter + 1 }
      (by push_cast at h; simp only; omega)
    simp only [stop_program, List.replicate_succ, first_pass_lines, stop_line_effect, h1,
      if_false] at step ⊢
    rw [step]
    simp only [Except.ok.injEq, first_pass_state.mk.injEq, true_and]
    push_cast
    constructor <;> ring

theorem stop_program_overflow :
    first_pass (stop_program 3997) = .error .ram_overflow := by
  have hsplit : stop_program 3997 = stop_program 3996 ++ ["stop".toList] := by
    simp only [stop_program]
    rw [show (3997 : Nat) = 3996 + 1 from rfl, List.replicate_succ']
  have happ : ∀ (xs ys : List (List Char)) (st st1 : first_pass_state),
      first_pass_lines st xs = .ok st1 →
      first_pass_lines st (xs ++ ys) = first_pass_lines st1 ys := by
    intro xs
    induction xs with
    | nil => intro ys st st1 h; simp only [first_pass_lines, Except.ok.injEq] at h; subst h; rfl
    | cons x xs ih =>
      intro ys st st1 h
      simp only [first_pass_lines, List.cons_append] at h ⊢
      cases hx : first_pass_line st x with
      | error e => simp [hx] at h
      | ok s =>
        simp only [hx] at h ⊢
        exact ih ys s st1 h
  unfold first_pass
  rw [hsplit, happ _ _ _ _ (stop_program_effect 3996 first_pass_init (by decide))]
  simp only [first_pass_lines, stop_line_effect]
  rw [if_pos (by decide)]

theorem stop_program_words (n : Nat) : total_words (stop_program n) = n := by
  have h1 : line_words "stop".toList = 1 := by decide
  induction n with
  | zero => rfl
  | succ k ih =>
    have : stop_program (k + 1) = "stop".toList :: stop_program k := by
      simp [stop_program, List.replicate_succ]
    rw [this, total_words_cons, ih, h1]
    push_cast
    ring

/-! ## The object listing of the sample program -/

theorem assemble_ob_eq (u : uninit_memory) (lines : List (List Char)) :
    assemble_ob u lines = (assemble_values u lines).map
      (fun r => (r.1, r.2.map (fun p => (p.1, convert_binary_to_octal p.2)))) := by
  unfold assemble_ob assemble_values write_ob_file
  cases process_file_passes u lines with
  | error e => rfl
  | ok r => rfl

theorem list_program_values :
    assemble_values sample_memory list_program
      = some ((3, 2), [(100, 4244), (101, 44), (102, 802), (103, 7), (104, 32767)]) := by
  decide

theorem list_program_ob :
    assemble_ob sample_memory list_program
      = some ((3, 2), [(100, 10224), (101, 54), (102, 1442), (103, 7), (104, 77777)]) := by
  have o1 : convert_binary_to_octal 4244 = 10224 := by
    rw [octal_eq_ofDigits _ (by norm_num)]; norm_num [Nat.ofDigits]
  have o2 : convert_binary_to_octal 44 = 54 := by
    rw [octal_eq_ofDigits _ (by norm_num)]; norm_num [Nat.ofDigits]
  have o3 : convert_binary_to_octal 802 = 1442 := by
    rw [octal_eq_ofDigits _ (by norm_num)]; norm_num [Nat.ofDigits]
  have o4 : convert_binary_to_octal 7 = 7 := by
    rw [octal_eq_ofDigits _ (by norm_num)]; norm_num [Nat.ofDigits]
  have o5 : convert_binary_to_octal 32767 = 77777 := by
    rw [octal_eq_ofDigits _ (by norm_num)]; norm_num [Nat.ofDigits]
  rw [assemble_ob_eq, list_program_values]
  simp only [Option.map_some', List.map_cons, List.map_nil, o1, o2, o3, o4, o5]

/-! ## Claims on the addresses of pass one -/

/-- C9, the code at the failing input: in `LIST: .data 7, -1` followed by
`add #5, LIST` pass one records the address 100 for `LIST`, and not 103. The
instruction takes three code words, and the listing that `write_ob_file`
produces has the first word of the labelled line, the value 7, at address
103, behind the code. The operand word of `add #5, LIST`, listed at address
102, is 802 = 100 * 8 + 2 (octal 1442): it holds the address 100 that pass
one recorded, which in the listing is the address of the first word of the
instruction itself. -/
theorem list_label_address_not_103 :
    (first_pass list_program).map (fun st => st.label_array)
      = .ok [{ label := "LIST".toList, line_number := 100 }] ∧
    (list_program.map code_words).sum = 3 ∧
    assemble_values sample_memory list_program
      = some ((3, 2), [(100, 4244), (101, 44), (102, 802), (103, 7), (104, 32767)]) ∧
    assemble_ob sample_memory list_program
      = some ((3, 2), [(100, 10224), (101, 54), (102, 1442), (103, 7), (104, 77777)]) ∧
    (first_pass list_program).map (fun st => st.label_array)
      ≠ .ok [{ label := "LIST".toList, line_number := 100 + 3 }] :=
  ⟨by decide, by decide, list_program_values, list_program_ob, by decide⟩

/-- The one counter of pass one: for every program accepted by pass one,
the label table gives each label 100 plus the number of words pass one
counted for the lines before the labelled line, in source order, code and
data alike (the code words of the instructions, the data words of the
`.data` and `.string` directives, and one word for each line that holds
only a label). The final line counter is 100 plus the words of all lines.
Pass one has no separate data counter and moves no data label behind the
code. -/
theorem first_pass_label_addresses (lines : List (List Char)) (st : first_pass_state)
    (h : first_pass lines = .ok st) :
    st.label_array = label_addresses IC_INIT_VALUE lines ∧
    st.line_counter = IC_INIT_VALUE + total_words lines ∧
    (∀ (pre : List (List Char)) (raw : List Char) (post : List (List Char)) (name : List Char),
      lines = pre ++ raw :: post → line_label raw = some name →
      ({ label := name.take MAX_LABEL_LENGTH,
         line_number := IC_INIT_VALUE + ((pre.map code_words).sum + (pre.map data_words).sum +
           ((pre.filter is_label_only_line).length : Int)) } : Label) ∈ st.label_array) := by
  obtain ⟨h1, h2⟩ := first_pass_lines_effect lines first_pass_init st h
  have hl : st.label_array = label_addresses IC_INIT_VALUE lines := by
    rw [h2]; rfl
  refine ⟨hl, h1, ?_⟩
  intro pre raw post name hsplit hname
  rw [hl, hsplit, ← total_words_split]
  exact label_addresses_mem pre IC_INIT_VALUE raw post name hname

/-- The counter of pass one on the program `LIST: .data 7, -1`,
`add #5, LIST`: the program is accepted, and `LIST`, defined on the first
line, has the address 100. -/
theorem first_pass_label_addresses_witness :
    first_pass list_program
      = .ok { label_array := [{ label := "LIST".toList, line_number := 100 }],
              ext_entry_array := { externs := [], entries := [] },
              line_counter := 105, user_line_counter := 3 } ∧
    [({ label := "LIST".toList, line_number := 100 } : Label)]
      = label_addresses IC_INIT_VALUE list_program ∧
    (105 : Int) = IC_INIT_VALUE + total_words list_program :=
  ⟨by decide,
    (first_pass_label_addresses list_program
      { label_array := [{ label := "LIST".toList, line_number := 100 }],
        ext_entry_array := { externs := [], entries := [] },
        line_counter := 105, user_line_counter := 3 } (by decide)).1,
    (first_pass_label_addresses list_program
      { label_array := [{ label := "LIST".toList, line_number := 100 }],
        ext_entry_array := { externs := [], entries := [] },
        line_counter := 105, user_line_counter := 3 } (by decide)).2.1⟩

/-- Counterexample to C10 as stated: a program of 3997 lines `stop` needs
3997 words, which is at most 4096, and pass one rejects it with the
RAM-overflow error. -/
theorem ram_overflow_below_capacity :
    total_words (stop_program 3997) = 3997 ∧ (3997 : Int) ≤ CODE_ARR_IMG_LENGTH ∧
    first_pass (stop_program 3997) = .error .ram_overflow :=
  ⟨stop_program_words 3997, by decide, stop_program_overflow⟩

/-- C10, amended: for a program on which pass one reports no other error,
pass one fails with the RAM-overflow error if and only if, after some
instruction or directive line, 100 plus the number of words counted so far
(code words, data words, and one per label-only line) exceeds 4096; and no
program with 100 plus its number of words at most 4096 is rejected for RAM
overflow. -/
theorem ram_overflow_iff (lines : List (List Char))
    (hother : ∀ e, first_pass lines = .error e → e = .ram_overflow) :
    (first_pass lines = .error .ram_overflow ↔
      ∃ pre raw post, lines = pre ++ raw :: post ∧ (line_statement raw).isSome = true ∧
        CODE_ARR_IMG_LENGTH < IC_INIT_VALUE + total_words (pre ++ [raw])) ∧
    (IC_INIT_VALUE + total_words lines ≤ CODE_ARR_IMG_LENGTH →
      first_pass lines ≠ .error .ram_overflow) := by
  have hdir : first_pass lines = .error .ram_overflow →
      ∃ pre raw post, lines = pre ++ raw :: post ∧ (line_statement raw).isSome = true ∧
        CODE_ARR_IMG_LENGTH < IC_INIT_VALUE + total_words (pre ++ [raw]) :=
    fun h => ram_overflow_split lines first_pass_init h
  refine ⟨⟨hdir, ?_⟩, ?_⟩
  · rintro ⟨pre, raw, post, hsplit, hstmt, hgt⟩
    cases hres : first_pass lines with
    | error e => rw [hother e hres]
    | ok st =>
      exfalso
      unfold first_pass at hres
      rw [hsplit] at hres
      have := first_pass_lines_within pre first_pass_init st raw post hres hstmt
      have hinit : first_pass_init.line_counter = IC_INIT_VALUE := rfl
      rw [hinit] at this
      omega
  · intro hle h
    obtain ⟨pre, raw, post, hsplit, -, hgt⟩ := hdir h
    have hpost := total_words_nonneg post
    have : total_words lines = total_words (pre ++ [raw]) + total_words post := by
      rw [hsplit, ← total_words_append]
      simp
    omega

/-- Witness of C10 (amended): on the program of 3997 lines `stop` pass one
reports no other error, and it fails with the RAM-overflow error. -/
theorem ram_overflow_iff_witness :
    (∀ e, first_pass (stop_program 3997) = .error e → e = .ram_overflow) ∧
    (first_pass (stop_program 3997) = .error .ram_overflow ↔
      ∃ pre raw post, stop_program 3997 = pre ++ raw :: post ∧
        (line_statement raw).isSome = true ∧
        CODE_ARR_IMG_LENGTH < IC_INIT_VALUE + total_words (pre ++ [raw])) :=
  ⟨fun e h => by rw [stop_program_overflow] at h; cases h; rfl,
    (ram_overflow_iff (stop_program 3997)
      (fun e h => by rw [stop_program_overflow] at h; cases h; rfl)).1⟩

/-! ## Helper lemmas on the words written by pass two -/

theorem strtok_delims_order (s : List Char) :
    strtok ", \t".toList s = strtok " ,\t".toList s := by
  have h : (fun c => ", \t".toList.contains c) = (fun c => " ,\t".toList.contains c) := by
    funext c
    simp only [String.toList, List.contains_cons, List.contains_nil, Bool.or_false]
    cases (c == ',') <;> cases (c == ' ') <;> rfl
  have h2 : (fun c => !", \t".toList.contains c) = (fun c => !" ,\t".toList.contains c) := by
    funext c
    rw [congrFun h c]
  unfold strtok
  rw [h, h2]

theorem char_at_take (t : List Char) (i k : Nat) (h : i < k) :
    char_at (t.take k) i = char_at t i := by
  simp [char_at, List.getD_eq_getElem?_getD, List.getElem?_take, h]

theorem get_addressing_type_take (t : List Char) :
    get_addressing_type (t.take (MAX_OPERAND_LENGTH - 1)) = get_addressing_type t := by
  unfold get_addressing_type
  rw [char_at_take t 0 _ (by decide), char_at_take t 1 _ (by decide),
    char_at_take t 2 _ (by decide)]

theorem writes_slots_store (st : code_state) (epa : Option (List ExternEntry))
    (w : MachineWordsArray) :
    writes_slots 1 st (store_word { st with extern_printing_array := epa } w) := by
  refine ⟨rfl, ?_, ?_⟩
  · intro i hi
    have : i ≠ st.ic - IC_INIT_VALUE := by omega
    simp [store_word, this]
  · intro i h1 h2
    have : i = st.ic - IC_INIT_VALUE := by omega
    simp [store_word, this]

theorem writes_slots_trans (j k : Int) (a b c : code_state) (hj : 0 ≤ j) (hk : 0 ≤ k)
    (h1 : writes_slots j a b) (h2 : writes_slots k b c) : writes_slots (j + k) a c := by
  obtain ⟨a1, a2, a3⟩ := h1
  obtain ⟨b1, b2, b3⟩ := h2
  refine ⟨by omega, ?_, ?_⟩
  · intro i hi
    rw [b2 i (by omega), a2 i (by omega)]
  · intro i hlo hhi
    by_cases hm : i < a.ic - IC_INIT_VALUE + j
    · rw [b2 i (by omega)]
      exact a3 i hlo hm
    · exact b3 i (by omega) (by omega)

theorem generate_register_writes (u : uninit_memory) (st : code_state)
    (a1 a2 : addressing_type) (o1 o2 : Option (List Char))
    (h1 : is_reg_or_rel a1 = true → o1.isSome = true)
    (h2 : is_reg_or_rel a2 = true → o2.isSome = true) :
    ∃ st1, generate_register_code_word u st a1 a2 o1 o2 = .ok st1 ∧ writes_slots 1 st st1 ∧
      st1.extern_printing_array = st.extern_printing_array := by
  have hr : ∀ (a : addressing_type) (o : Option (List Char)),
      (is_reg_or_rel a = true → o.isSome = true) → ∃ n, read_register a o = .ok n := by
    intro a o h
    unfold read_register
    cases a <;> cases o <;> simp_all [is_reg_or_rel]
  obtain ⟨n1, e1⟩ := hr a1 o1 h1
  obtain ⟨n2, e2⟩ := hr a2 o2 h2
  refine ⟨store_word st
      { length := 0, word := .data (handle_register_address_word u.data_word n1 n2) },
    by simp only [generate_register_code_word, e1, e2], ?_, rfl⟩
  exact writes_slots_store st st.extern_printing_array _

theorem generate_non_register_writes (u : uninit_memory) (st : code_state)
    (operand : List Char) (labels : List Label) (ext_entry_array : ExternEntryArray)
    (hne : get_addressing_type operand ≠ .NONE_ADDR)
    (hres : get_addressing_type operand = .DIRECT_ADDR →
      is_resolvable labels ext_entry_array operand = true) :
    ∃ st1, generate_non_register_code_word u st (some operand) labels ext_entry_array = .ok st1 ∧
      writes_slots 1 st st1 := by
  unfold generate_non_register_code_word
  simp only [ne_eq, hne, not_false_eq_true, if_true]
  by_cases hi : get_addressing_type operand = .IMMEDIATE_ADDR
  · simp only [hi, if_true]
    exact ⟨_, rfl, writes_slots_store st st.extern_printing_array _⟩
  · simp only [hi, if_false]
    by_cases hd : get_addressing_type operand = .DIRECT_ADDR
    · simp only [hd, if_true]
      have hr := hres hd
      unfold is_resolvable at hr
      cases hx : ext_entry_array.externs.find? (fun e => decide (e.name = operand)) with
      | some e => exact ⟨_, rfl, writes_slots_store st _ _⟩
      | none =>
        have hdecl : is_extern_name ext_entry_array operand = false := by
          unfold is_extern_name
          rw [Bool.eq_false_iff]
          intro hany
          obtain ⟨e, he, -⟩ := find_some_of_declared _ _ hany
          rw [hx] at he
          cases he
        rw [hdecl, Bool.false_or] at hr
        cases hl : labels.find? (fun l => decide (l.label = operand)) with
        | none => rw [hl] at hr; simp at hr
        | some l => exact ⟨_, rfl, writes_slots_store st st.extern_printing_array _⟩
    · simp only [hd, if_false]
      exact ⟨_, rfl, writes_slots_store st st.extern_printing_array _⟩

theorem sizing_cases (operation operands : List Char) (n : Int)
    (h : calculate_instruction_lines operation operands = .ok n) :
    (strtok " ,\t".toList operands = none ∧ get_operand_count operation = 0 ∧ n = 1) ∨
    (∃ t1 r1, strtok " ,\t".toList operands = some (t1, r1) ∧
      strtok " ,\t".toList r1 = none ∧ is_valid_operand t1 = true ∧
      get_operand_count operation = 1 ∧ n = 2) ∨
    (∃ t1 r1 t2 r2, strtok " ,\t".toList operands = some (t1, r1) ∧
      strtok " ,\t".toList r1 = some (t2, r2) ∧
      is_valid_operand t1 = true ∧ is_valid_operand t2 = true ∧
      get_operand_count operation = 2 ∧
      n = if is_reg_or_rel (get_addressing_type t1) && is_reg_or_rel (get_addressing_type t2)
        then 2 else 3) := by
  unfold calculate_instruction_lines at h
  cases hi : get_operation_info operation with
  | none => simp [hi] at h
  | some op_info =>
    simp only [hi] at h
    cases hs : scan_operands operands with
    | error e => simp [hs] at h
    | ok r =>
      obtain ⟨k, src, dest⟩ := r
      simp only [hs] at h
      by_cases he : get_operand_count operation = k
      · simp only [he, ne_eq, not_true_eq_false, if_false] at h
        cases hte : operand_type_error op_info k src dest with
        | some e => simp [hte] at h
        | none =>
          simp only [hte, Except.ok.injEq] at h
          rw [count_lines_eq] at h
          have hnone : is_reg_or_rel .NONE_ADDR = false := by decide
          unfold scan_operands at hs
          cases h1 : strtok " ,\t".toList operands with
          | none =>
            simp only [h1, Except.ok.injEq, Prod.mk.injEq] at hs
            obtain ⟨rfl, rfl, rfl⟩ := hs
            left
            refine ⟨rfl, he, ?_⟩
            simp [hnone] at h
            omega
          | some p1 =>
            obtain ⟨t1, r1⟩ := p1
            simp only [h1] at hs
            by_cases v1 : is_valid_operand t1 = true
            · have n1 := valid_operand_type_ne_none t1 v1
              simp only [v1, Bool.not_true, Bool.false_eq_true, if_false] at hs
              cases h2 : strtok " ,\t".toList r1 with
              | none =>
                simp only [h2, Except.ok.injEq, Prod.mk.injEq] at hs
                obtain ⟨rfl, rfl, rfl⟩ := hs
                right; left
                refine ⟨t1, r1, rfl, h2, v1, he, ?_⟩
                simp [hnone, n1] at h
                omega
              | some p2 =>
                obtain ⟨t2, r2⟩ := p2
                simp only [h2] at hs
                by_cases v2 : is_valid_operand t2 = true
                · have n2 := valid_operand_type_ne_none t2 v2
                  simp only [v2, Bool.not_true, Bool.false_eq_true, if_false] at hs
                  cases h3 : strtok " ,\t".toList r2 with
                  | none =>
                    simp only [h3, Except.ok.injEq, Prod.mk.injEq] at hs
                    obtain ⟨rfl, rfl, rfl⟩ := hs
                    right; right
                    refine ⟨t1, r1, t2, r2, rfl, h2, v1, v2, he, ?_⟩
                    simp only [ne_eq, n1, n2, not_false_eq_true, if_true] at h
                    split at h <;> rename_i hb
                    · rw [if_pos hb]; omega
                    · rw [if_neg hb]; omega
                  | some p3 =>
                    have h3x : strtok [' ', ',', '\t'] r2 = some p3 := h3
                    simp [h3x] at hs
                · simp [v2] at hs
            · simp [v1] at hs
      · simp only [ne_eq, he, not_false_eq_true, if_true] at h
        split at h <;> simp at h

theorem operand_count_of_no_opcode (operation : List Char)
    (h : get_opcode operation = .NONE_OP) : get_operand_count operation = -1 := by
  by_cases h0 : operation = "mov".toList
  · subst h0; revert h; decide
  by_cases h1 : operation = "cmp".toList
  · subst h1; revert h; decide
  by_cases h2 : operation = "add".toList
  · subst h2; revert h; decide
  by_cases h3 : operation = "sub".toList
  · subst h3; revert h; decide
  by_cases h4 : operation = "lea".toList
  · subst h4; revert h; decide
  by_cases h5 : operation = "clr".toList
  · subst h5; revert h; decide
  by_cases h6 : operation = "not".toList
  · subst h6; revert h; decide
  by_cases h7 : operation = "inc".toList
  · subst h7; revert h; decide
  by_cases h8 : operation = "dec".toList
  · subst h8; revert h; decide
  by_cases h9 : operation = "jmp".toList
  · subst h9; revert h; decide
  by_cases h10 : operation = "bne".toList
  · subst h10; revert h; decide
  by_cases h11 : operation = "red".toList
  · subst h11; revert h; decide
  by_cases h12 : operation = "prn".toList
  · subst h12; revert h; decide
  by_cases h13 : operation = "jsr".toList
  · subst h13; revert h; decide
  by_cases h14 : operation = "rts".toList
  · subst h14; revert h; decide
  by_cases h15 : operation = "stop".toList
  · subst h15; revert h; decide
  unfold get_operand_count
  simp only [h0, h1, h2, h3, h4, h5, h6, h7, h8, h9, h10, h11, h12, h13, h14, h15, or_self, if_false]

theorem opcode_of_operand_count (operation : List Char)
    (h : 0 ≤ get_operand_count operation) : get_opcode operation ≠ .NONE_OP := by
  intro hn
  rw [operand_count_of_no_opcode operation hn] at h
  omega

theorem strtok_nil (d : List Char) : strtok d [] = none := rfl

theorem writes_slots_set_length (n : Int) (hn : 1 ≤ n) (st st2 : code_state) (len : Int)
    (h : writes_slots n st st2) :
    writes_slots n st
      { st2 with
        code_img := fun i =>
          if i = st.ic - IC_INIT_VALUE then
            (st2.code_img i).map (fun w => { w with length := len })
          else st2.code_img i } := by
  obtain ⟨a1, a2, a3⟩ := h
  refine ⟨a1, ?_, ?_⟩
  · intro i hi
    have : i ≠ st.ic - IC_INIT_VALUE := by omega
    simp only [this, if_false]
    exact a2 i hi
  · intro i h1 h2
    by_cases hi : i = st.ic - IC_INIT_VALUE
    · simp only [hi, if_true, Option.isSome_map']
      exact a3 _ (by omega) (by omega)
    · simp only [hi, if_false]
      exact a3 i h1 h2

theorem emit_one_operand (u : uninit_memory) (st : code_state) (t : List Char)
    (labels : List Label) (ext_entry_array : ExternEntryArray)
    (hne : get_addressing_type t ≠ .NONE_ADDR)
    (hres : get_addressing_type t = .DIRECT_ADDR →
      is_resolvable labels ext_entry_array t = true) :
    ∃ st1, emit_operand_words u st 0 (get_addressing_type t) .NONE_ADDR (some t) none labels
        ext_entry_array = .ok st1 ∧ writes_slots 1 st st1 := by
  unfold emit_operand_words
  have hnone : is_reg_or_rel .NONE_ADDR = false := by decide
  simp only [hnone, Bool.and_false, Bool.false_eq_true, if_false, if_true]
  by_cases hr : is_reg_or_rel (get_addressing_type t) = true
  · simp only [hr, if_true]
    obtain ⟨st1, e1, w1, -⟩ := generate_register_writes u st .NONE_ADDR (get_addressing_type t)
      none (some t) (by simp [hnone]) (by simp)
    exact ⟨st1, e1, w1⟩
  · simp only [hr, Bool.false_eq_true, if_false]
    obtain ⟨st1, e1, w1⟩ := generate_non_register_writes u st t labels ext_entry_array hne hres
    refine ⟨st1, ?_, w1⟩
    simp only [e1]
    rfl

theorem emit_two_operands (u : uninit_memory) (st : code_state) (t1 t2 : List Char)
    (labels : List Label) (ext_entry_array : ExternEntryArray)
    (hne1 : get_addressing_type t1 ≠ .NONE_ADDR) (hne2 : get_addressing_type t2 ≠ .NONE_ADDR)
    (hres1 : get_addressing_type t1 = .DIRECT_ADDR →
      is_resolvable labels ext_entry_array t1 = true)
    (hres2 : get_addressing_type t2 = .DIRECT_ADDR →
      is_resolvable labels ext_entry_array t2 = true) :
    ∃ st1, emit_operand_words u st 1 (get_addressing_type t1) (get_addressing_type t2)
        (some t1) (some t2) labels ext_entry_array = .ok st1 ∧
      writes_slots (if is_reg_or_rel (get_addressing_type t1) &&
        is_reg_or_rel (get_addressing_type t2) then 1 else 2) st st1 := by
  unfold emit_operand_words
  by_cases hr1 : is_reg_or_rel (get_addressing_type t1) = true
  · by_cases hr2 : is_reg_or_rel (get_addressing_type t2) = true
    · simp only [hr1, hr2, Bool.and_self, if_true]
      obtain ⟨st1, e1, w1, -⟩ := generate_register_writes u st (get_addressing_type t1)
        (get_addressing_type t2) (some t1) (some t2) (by simp) (by simp)
      exact ⟨st1, e1, w1⟩
    · simp only [hr1, hr2, Bool.and_false, Bool.false_eq_true, if_false, if_true]
      obtain ⟨sa, ea, wa, -⟩ := generate_register_writes u st (get_addressing_type t1)
        (get_addressing_type t2) (some t1) none (by simp) (by simp [hr2])
      obtain ⟨sb, eb, wb⟩ := generate_non_register_writes u sa t2 labels ext_entry_array
        hne2 hres2
      refine ⟨sb, ?_, writes_slots_trans 1 1 st sa sb (by decide) (by decide) wa wb⟩
      simp only [show ((1 : Int) = 0) = False from by simp, if_false, ea, eb]
  · by_cases hr2 : is_reg_or_rel (get_addressing_type t2) = true
    · simp only [hr1, hr2, Bool.false_and, Bool.false_eq_true, if_false, if_true]
      obtain ⟨sa, ea, wa⟩ := generate_non_register_writes u st t1 labels ext_entry_array
        hne1 hres1
      obtain ⟨sb, eb, wb, -⟩ := generate_register_writes u sa (get_addressing_type t1)
        (get_addressing_type t2) none (some t2) (by simp [hr1]) (by simp)
      refine ⟨sb, ?_, writes_slots_trans 1 1 st sa sb (by decide) (by decide) wa wb⟩
      simp only [ne_eq, show ((1 : Int) = 0) = False from by simp, not_false_eq_true, if_true,
        ea, eb]
    · simp only [hr1, hr2, Bool.and_self, Bool.false_eq_true, if_false]
      obtain ⟨sa, ea, wa⟩ := generate_non_register_writes u st t1 labels ext_entry_array
        hne1 hres1
      obtain ⟨sb, eb, wb⟩ := generate_non_register_writes u sa t2 labels ext_entry_array
        hne2 hres2
      refine ⟨sb, ?_, writes_slots_trans 1 1 st sa sb (by decide) (by decide) wa wb⟩
      simp only [ea, show ((1 : Int) > 0) = True from by simp, if_true, eb]

theorem operand_addressing_some (t : List Char) (hne : get_addressing_type t ≠ .NONE_ADDR) :
    operand_addressing (some t) = .ok (get_addressing_type t) := by
  simp [operand_addressing, hne]

/-- Whenever pass one accepts an instruction with `n` words and the operand
text is empty or holds an operand, pass two writes `n` slots for it. -/
theorem process_code_word_count (u : uninit_memory) (st : code_state)
    (operation operands : List Char) (labels : List Label)
    (ext_entry_array : ExternEntryArray) (n : Int)
    (h : calculate_instruction_lines operation operands = .ok n)
    (hne : operands = [] ∨ strtok ", \t".toList operands ≠ none)
    (hres : ∀ t ∈ strtok_all " ,\t".toList operands,
      get_addressing_type t = .DIRECT_ADDR →
        is_resolvable labels ext_entry_array (t.take (MAX_OPERAND_LENGTH - 1)) = true) :
    ∃ st1, process_code u operation operands st labels ext_entry_array = .ok st1 ∧
      writes_slots n st st1 := by
  have hstore : ∀ w, writes_slots 1 st (store_word st w) :=
    fun w => writes_slots_store st st.extern_printing_array w
  have hic : ∀ w, (store_word st w).ic - IC_INIT_VALUE = st.ic - IC_INIT_VALUE + 1 := by
    intro w; simp [store_word]; ring
  rcases sizing_cases operation operands n h with
    ⟨h1, hc, hn⟩ | ⟨t1, r1, h1, h2, v1, hc, hn⟩ | ⟨t1, r1, t2, r2, h1, h2, v1, v2, hc, hn⟩
  · have hnil : operands = [] := by
      rcases hne with hnil | hx
      · exact hnil
      · rw [strtok_delims_order] at hx
        exact absurd h1 hx
    subst hnil hn
    have hop := opcode_of_operand_count operation (by omega)
    unfold process_code
    simp only [extract_operands, ne_eq, not_true_eq_false, if_false, hop, hc, operand_addressing]
    exact ⟨_, rfl, writes_slots_set_length 1 (by decide) st _ _ (hstore _)⟩
  · have hop := opcode_of_operand_count operation (by omega)
    have hnn : operands ≠ [] := by
      intro hnil
      rw [hnil, strtok_nil] at h1
      cases h1
    have n1 := valid_operand_type_ne_none t1 v1
    have hty := get_addressing_type_take t1
    have hres1 : get_addressing_type (t1.take (MAX_OPERAND_LENGTH - 1)) = .DIRECT_ADDR →
        is_resolvable labels ext_entry_array (t1.take (MAX_OPERAND_LENGTH - 1)) = true := by
      intro hd
      apply hres t1 _ (by rw [← hty]; exact hd)
      rw [strtok_all_eq, h1]
      simp
    obtain ⟨s2, e2, w2⟩ := emit_one_operand u
      (store_word st { u.machine_word with
        word := .code (create_code_word (get_opcode operation) 1
          (some (t1.take (MAX_OPERAND_LENGTH - 1))) none) })
      (t1.take (MAX_OPERAND_LENGTH - 1)) labels ext_entry_array (by rw [hty]; exact n1) hres1
    have hw := writes_slots_trans 1 1 st _ s2 (by decide) (by decide) (hstore _) w2
    subst hn
    unfold process_code
    simp only [extract_operands, ne_eq, hnn, not_false_eq_true, if_true, strtok_delims_order,
      h1, h2, hop, if_false, hc,
      operand_addressing_some _ (show get_addressing_type (t1.take (MAX_OPERAND_LENGTH - 1))
        ≠ .NONE_ADDR by rw [hty]; exact n1),
      show operand_addressing none = .ok .NONE_ADDR from rfl,
      show ((1 : Int) = 0) = False from by simp, sub_self, e2]
    exact ⟨_, rfl, writes_slots_set_length 2 (by decide) st _ _ hw⟩
  · have hop := opcode_of_operand_count operation (by omega)
    have hnn : operands ≠ [] := by
      intro hnil
      rw [hnil, strtok_nil] at h1
      cases h1
    have n1 := valid_operand_type_ne_none t1 v1
    have n2 := valid_operand_type_ne_none t2 v2
    have hty1 := get_addressing_type_take t1
    have hty2 := get_addressing_type_take t2
    have hmem1 : t1 ∈ strtok_all " ,\t".toList operands := by
      rw [strtok_all_eq, h1]; simp
    have hmem2 : t2 ∈ strtok_all " ,\t".toList operands := by
      rw [strtok_all_eq, h1]
      simp only
      rw [strtok_all_eq, h2]
      simp
    have hres1 : get_addressing_type (t1.take (MAX_OPERAND_LENGTH - 1)) = .DIRECT_ADDR →
        is_resolvable labels ext_entry_array (t1.take (MAX_OPERAND_LENGTH - 1)) = true :=
      fun hd => hres t1 hmem1 (by rw [← hty1]; exact hd)
    have hres2 : get_addressing_type (t2.take (MAX_OPERAND_LENGTH - 1)) = .DIRECT_ADDR →
        is_resolvable labels ext_entry_array (t2.take (MAX_OPERAND_LENGTH - 1)) = true :=
      fun hd => hres t2 hmem2 (by rw [← hty2]; exact hd)
    obtain ⟨s2, e2, w2⟩ := emit_two_operands u
      (store_word st { u.machine_word with
        word := .code (create_code_word (get_opcode operation) 2
          (some (t1.take (MAX_OPERAND_LENGTH - 1))) (some (t2.take (MAX_OPERAND_LENGTH - 1)))) })
      (t1.take (MAX_OPERAND_LENGTH - 1)) (t2.take (MAX_OPERAND_LENGTH - 1)) labels
      ext_entry_array (by rw [hty1]; exact n1) (by rw [hty2]; exact n2) hres1 hres2
    rw [hty1, hty2] at w2
    have hw : writes_slots n st s2 := by
      rw [hn]
      by_cases hb : (is_reg_or_rel (get_addressing_type t1) &&
          is_reg_or_rel (get_addressing_type t2)) = true
      · rw [if_pos hb] at w2 ⊢
        exact writes_slots_trans 1 1 st _ s2 (by decide) (by decide) (hstore _) w2
      · rw [if_neg hb] at w2 ⊢
        exact writes_slots_trans 1 2 st _ s2 (by decide) (by decide) (hstore _) w2
    have hn1 : 1 ≤ n := by rw [hn]; split <;> decide
    unfold process_code
    simp only [extract_operands, ne_eq, hnn, not_false_eq_true, if_true, strtok_delims_order,
      h1, h2, hop, if_false, hc,
      operand_addressing_some _ (show get_addressing_type (t1.take (MAX_OPERAND_LENGTH - 1))
        ≠ .NONE_ADDR by rw [hty1]; exact n1),
      operand_addressing_some _ (show get_addressing_type (t2.take (MAX_OPERAND_LENGTH - 1))
        ≠ .NONE_ADDR by rw [hty2]; exact n2),
      show ((2 : Int) = 0) = False from by simp, show (2 : Int) - 1 = 1 from rfl, e2]
    exact ⟨_, rfl, writes_slots_set_length n hn1 st _ _ hw⟩

/-! ## Claim on the agreement of the two passes -/

/-- C1, failing input: for the mnemonic `stop` with the operand text of one
blank (the line `stop` followed by two blanks, which pass one accepts)
`calculate_instruction_lines` returns 1, and `process_code` fails with
"Operands not extracted correctly" before it writes any word, so that the
second pass of the one-line program fails; with the empty operand text
`process_code` writes the one word. -/
theorem process_code_blank_operand_text :
    calculate_instruction_lines "stop".toList " ".toList = .ok 1 ∧
    (process_code sample_memory "stop".toList " ".toList second_pass_init [] ⟨[], []⟩).map
        (fun st => st.ic)
      = .error .operands_not_extracted ∧
    (first_pass ["stop  ".toList]).map (fun st => st.line_counter) = .ok 101 ∧
    (process_file_passes sample_memory ["stop  ".toList]).map (fun r => r.2.code.ic)
      = .error .operands_not_extracted ∧
    (process_code sample_memory "stop".toList [] second_pass_init [] ⟨[], []⟩).map
        (fun st => st.ic)
      = .ok 101 := by
  decide

/-! ## Claim on the operands an instruction accepts -/

theorem is_valid_operand_type_iff (type : Int) (l : List Int) :
    is_valid_operand_type type l = true ↔ type ∈ allowed_types l := by
  induction l with
  | nil => simp [is_valid_operand_type, allowed_types]
  | cons v vs ih =>
    unfold is_valid_operand_type allowed_types
    by_cases hv : v = -1
    · simp [hv]
    · by_cases ht : type = v
      · simp [hv, ht]
      · have ih2 : is_valid_operand_type type vs = true ↔
            type ∈ List.takeWhile (fun v => !(v == -1)) vs := ih
        simp [hv, ht, ih2]

theorem scan_operands_of_valid (operands : List Char)
    (hvalid : ∀ t ∈ strtok_all " ,\t".toList operands, is_valid_operand t = true) :
    scan_operands operands =
      if (strtok_all " ,\t".toList operands).length ≤ 2 then
        .ok (((strtok_all " ,\t".toList operands).length : Int),
          operand_type (strtok_all " ,\t".toList operands) 0,
          operand_type (strtok_all " ,\t".toList operands) 1)
      else .error .too_many_operands := by
  unfold scan_operands
  rw [strtok_all_eq] at hvalid ⊢
  cases h1 : strtok " ,\t".toList operands with
  | none => simp [operand_type]
  | some p1 =>
    obtain ⟨t1, r1⟩ := p1
    simp only [h1] at hvalid ⊢
    have v1 : is_valid_operand t1 = true := hvalid t1 (by simp)
    rw [strtok_all_eq] at hvalid ⊢
    cases h2 : strtok " ,\t".toList r1 with
    | none => simp [operand_type, v1]
    | some p2 =>
      obtain ⟨t2, r2⟩ := p2
      simp only [h2] at hvalid ⊢
      have v2 : is_valid_operand t2 = true := hvalid t2 (by simp)
      rw [strtok_all_eq]
      cases h3 : strtok " ,\t".toList r2 with
      | none => simp [operand_type, v1, v2]
      | some p3 =>
        obtain ⟨t3, r3⟩ := p3
        simp [v1, v2]

theorem operand_count_of_info (operation : List Char) (info : operation_info)
    (h : get_operation_info operation = some info) :
    get_operand_count operation = 0 ∨ get_operand_count operation = 1 ∨
      get_operand_count operation = 2 := by
  have hop : operation ∈ operations := by
    unfold get_operation_info at h
    have hm := List.find?_some h
    have hmem := List.mem_of_find?_eq_some h
    simp only [decide_eq_true_eq] at hm
    rw [hm]
    revert hmem
    generalize info = i
    intro hmem
    simp only [operations_info, List.mem_cons, List.mem_singleton, List.not_mem_nil, or_false] at hmem
    rcases hmem with h | h | h | h | h | h | h | h | h | h | h | h | h | h | h | h <;>
      (subst h; decide)
  simp only [operations, List.mem_cons, List.mem_singleton, List.not_mem_nil, or_false] at hop
  rcases hop with h | h | h | h | h | h | h | h | h | h | h | h | h | h | h | h <;>
    (subst h; decide)

/-- C12: for each of the sixteen mnemonics and every operand text whose
operands are all syntactically valid, `calculate_instruction_lines` accepts
the instruction if and only if the number of operands is the operand count
of the opcode and the addressing types are allowed: with two operands the
first is in the source list of the opcode and the second in its destination
list, with one operand it is in the destination list. So `jmp r1` and
`clr #1` are rejected, `prn #1` and `jmp *r1` are accepted. -/
theorem calculate_instruction_lines_accepts (operation operands : List Char)
    (info : operation_info) (hinfo : get_operation_info operation = some info)
    (hvalid : ∀ t ∈ strtok_all " ,\t".toList operands, is_valid_operand t = true) :
    ((∃ n, calculate_instruction_lines operation operands = .ok n) ↔
      (((strtok_all " ,\t".toList operands).length : Int) = get_operand_count operation ∧
        (get_operand_count operation = 2 →
          (operand_type (strtok_all " ,\t".toList operands) 0).toInt
              ∈ allowed_types info.valid_src_types ∧
            (operand_type (strtok_all " ,\t".toList operands) 1).toInt
              ∈ allowed_types info.valid_dest_types) ∧
        (get_operand_count operation = 1 →
          (operand_type (strtok_all " ,\t".toList operands) 0).toInt
            ∈ allowed_types info.valid_dest_types))) ∧
    (∃ e, calculate_instruction_lines "jmp".toList "r1".toList = .error e) ∧
    (∃ e, calculate_instruction_lines "clr".toList "#1".toList = .error e) ∧
    (∃ n, calculate_instruction_lines "prn".toList "#1".toList = .ok n) ∧
    (∃ n, calculate_instruction_lines "jmp".toList "*r1".toList = .ok n) := by
  refine ⟨?_, ⟨.invalid_operand_type, by decide⟩, ⟨.invalid_operand_type, by decide⟩,
    ⟨2, by decide⟩, ⟨2, by decide⟩⟩
  have hcount := operand_count_of_info operation info hinfo
  have hscan := scan_operands_of_valid operands hvalid
  unfold calculate_instruction_lines
  simp only [hinfo]
  generalize strtok_all " ,\t".toList operands = toks at *
  generalize get_operand_count operation = k at *
  by_cases hlen : toks.length ≤ 2
  · rw [if_pos hlen] at hscan
    simp only [hscan]
    by_cases hk : k = (toks.length : Int)
    · simp only [hk, ne_eq, not_true_eq_false, if_false, true_and]
      unfold operand_type_error
      simp only [← is_valid_operand_type_iff]
      have hcases : toks.length = 0 ∨ toks.length = 1 ∨ toks.length = 2 := by omega
      rcases hcases with h0 | h0 | h0
      · simp [h0]
      · simp only [h0, Nat.cast_one, if_true]
        cases hv : is_valid_operand_type (operand_type toks 0).toInt info.valid_dest_types <;>
          simp
      · simp only [h0, Nat.cast_ofNat]
        cases hv1 : is_valid_operand_type (operand_type toks 0).toInt info.valid_src_types <;>
          cases hv2 : is_valid_operand_type (operand_type toks 1).toInt info.valid_dest_types <;>
          simp
    · have hk2 : ¬ (toks.length : Int) = k := fun h => hk h.symm
      simp only [ne_eq, hk, not_false_eq_true, if_true, hk2, false_and, iff_false, not_exists]
      intro n
      split <;> simp
  · rw [if_neg hlen] at hscan
    simp only [hscan]
    have hk2 : ¬ (toks.length : Int) = k := by omega
    simp [hk2]

theorem calculate_instruction_lines_accepts_witness :
    (∃ n, calculate_instruction_lines "mov".toList "#3, r2".toList = .ok n) ↔
      (((strtok_all " ,\t".toList "#3, r2".toList).length : Int) = get_operand_count "mov".toList ∧
        (get_operand_count "mov".toList = 2 →
          (operand_type (strtok_all " ,\t".toList "#3, r2".toList) 0).toInt
              ∈ allowed_types [1, 2, 4, 8, -1] ∧
            (operand_type (strtok_all " ,\t".toList "#3, r2".toList) 1).toInt
              ∈ allowed_types [2, 4, 8, -1, 0]) ∧
        (get_operand_count "mov".toList = 1 →
          (operand_type (strtok_all " ,\t".toList "#3, r2".toList) 0).toInt
            ∈ allowed_types [2, 4, 8, -1, 0])) :=
  (calculate_instruction_lines_accepts "mov".toList "#3, r2".toList
    ⟨"mov".toList, [1, 2, 4, 8, -1], [2, 4, 8, -1, 0]⟩ (by decide) (by decide)).1

/-! ## Claim on identifiers used as operands -/

theorem is_alnum_ne_nul (c : Char) (h : is_alnum c = true) : c ≠ '\x00' := by
  intro hc
  subst hc
  revert h
  decide

theorem char_at_alnum (s : List Char) (h : s.all is_alnum = true) (i : Nat) (hi : i < s.length) :
    is_alnum (char_at s i) = true := by
  unfold char_at
  rw [List.getD_eq_getElem _ _ hi]
  exact List.all_eq_true.mp h _ (List.getElem_mem hi)

theorem char_at_length_le (s : List Char) (i : Nat) (hi : s.length ≤ i) : char_at s i = '\x00' := by
  unfold char_at
  exact List.getD_eq_default _ _ hi

/-- C19, the claim as stated fails: `r8` begins with a letter, holds only
letters and digits and is none of `r0` .. `r7`, yet `is_valid_operand`
returns false on it and `get_addressing_type` returns `NONE_ADDR`; and
`is_valid_operand` returns false on `result`. -/
theorem r8_is_no_direct_operand :
    is_alpha (char_at "r8".toList 0) = true ∧ "r8".toList.all is_alnum = true ∧
    "r8".toList ∉ register_names ∧
    is_valid_operand "r8".toList = false ∧
    get_addressing_type "r8".toList = .NONE_ADDR ∧
    is_valid_operand "result".toList = false := by
  decide

/-- C19, amended: for every operand that begins with a letter and consists
only of letters and digits, if the first letter is not `r` then
`is_valid_operand` returns true and `get_addressing_type` returns Direct;
if the first letter is `r` then `get_addressing_type` returns Direct unless
the operand is `r` followed by exactly one digit (so `result` is Direct);
and `r8`, `r9` are registers with an invalid number: `is_valid_operand`
returns false and `get_addressing_type` returns `NONE_ADDR` (-1). -/
theorem identifier_addressing (operand : List Char)
    (hfirst : is_alpha (char_at operand 0) = true) (hall : operand.all is_alnum = true) :
    (char_at operand 0 ≠ 'r' →
      is_valid_operand operand = true ∧ get_addressing_type operand = .DIRECT_ADDR) ∧
    (char_at operand 0 = 'r' → ¬ (operand.length = 2 ∧ is_digit (char_at operand 1) = true) →
      get_addressing_type operand = .DIRECT_ADDR) ∧
    get_addressing_type "result".toList = .DIRECT_ADDR ∧
    (is_valid_operand "r8".toList = false ∧ get_addressing_type "r8".toList = .NONE_ADDR ∧
      (get_addressing_type "r8".toList).toInt = -1) ∧
    (is_valid_operand "r9".toList = false ∧ get_addressing_type "r9".toList = .NONE_ADDR) := by
  refine ⟨?_, ?_, by decide, by decide, by decide⟩
  · intro hr
    have h1 : char_at operand 0 ≠ '#' := by
      intro h; rw [h] at hfirst; revert hfirst; decide
    have h2 : char_at operand 0 ≠ '*' := by
      intro h; rw [h] at hfirst; revert hfirst; decide
    have hdrop : (operand.drop 1).all is_alnum = true := by
      rw [List.all_eq_true] at hall ⊢
      intro c hc
      exact hall c (List.mem_of_mem_drop hc)
    have hr2 : (char_at operand 0 == 'r') = false := by simpa using hr
    constructor
    · unfold is_valid_operand
      simp only [h1, hr, h2, if_false, hfirst, if_true, hdrop]
    · unfold get_addressing_type
      simp only [h1, if_false, hfirst, if_true, hr2, Bool.false_and, Bool.false_eq_true]
  · intro hr hnot
    have h1 : char_at operand 0 ≠ '#' := by
      intro h; rw [h] at hfirst; revert hfirst; decide
    unfold get_addressing_type
    simp only [h1, if_false, hfirst, if_true]
    have hcond : (char_at operand 0 == 'r' && is_digit (char_at operand 1) &&
        char_at operand 2 == '\x00') = false := by
      by_cases hd : is_digit (char_at operand 1) = true
      · have hlen1 : 1 < operand.length := by
          by_contra hlt
          rw [char_at_length_le operand 1 (by omega)] at hd
          revert hd; decide
        have hlen2 : 2 < operand.length := by
          by_contra hlt
          exact hnot ⟨by omega, hd⟩
        have h2 := is_alnum_ne_nul _ (char_at_alnum operand hall 2 hlen2)
        have : (char_at operand 2 == '\x00') = false := by simpa using h2
        simp [this]
      · have : is_digit (char_at operand 1) = false := by simpa using hd
        simp [this]
    simp only [hcond, Bool.false_eq_true, if_false]

theorem identifier_addressing_witness :
    (char_at "LIST".toList 0 ≠ 'r' →
      is_valid_operand "LIST".toList = true ∧ get_addressing_type "LIST".toList = .DIRECT_ADDR) ∧
    (char_at "LIST".toList 0 = 'r' →
      ¬ ("LIST".toList.length = 2 ∧ is_digit (char_at "LIST".toList 1) = true) →
      get_addressing_type "LIST".toList = .DIRECT_ADDR) :=
  ⟨(identifier_addressing "LIST".toList (by decide) (by decide)).1,
    (identifier_addressing "LIST".toList (by decide) (by decide)).2.1⟩

/-! ## Claims on the label table -/

theorem add_label_ok (array : List Label) (label : List Char) (n : Int) (r : List Label)
    (h : add_label array label n = .ok r) :
    (∀ l ∈ array, l.label ≠ label) ∧
    r = array ++ [{ label := label.take MAX_LABEL_LENGTH, line_number := n }] := by
  unfold add_label is_unique_label at h
  split at h
  · simp at h
  · rename_i hu
    have hu2 : ∀ l ∈ array, l.label ≠ label := by simpa using hu
    simp only [Except.ok.injEq] at h
    exact ⟨hu2, h.symm⟩

theorem add_labels_names (calls : List (List Char × Int)) :
    ∀ (array r : List Label), add_labels array calls = .ok r →
      (∀ c ∈ calls, c.1.length ≤ MAX_LABEL_LENGTH) →
      (array.map (fun l => l.label)).Nodup →
      r.map (fun l => l.label) = array.map (fun l => l.label) ++ calls.map (fun c => c.1) ∧
      (r.map (fun l => l.label)).Nodup := by
  induction calls with
  | nil =>
    intro array r h _ hnd
    simp only [add_labels, Except.ok.injEq] at h
    subst h
    simp [hnd]
  | cons c cs ih =>
    intro array r h hlen hnd
    obtain ⟨label, n⟩ := c
    simp only [add_labels] at h
    cases ha : add_label array label n with
    | error e => simp [ha] at h
    | ok array1 =>
      simp only [ha] at h
      obtain ⟨hu, harr⟩ := add_label_ok array label n array1 ha
      have hl : label.length ≤ MAX_LABEL_LENGTH := hlen (label, n) (by simp)
      have htake : label.take MAX_LABEL_LENGTH = label := List.take_of_length_le hl
      rw [htake] at harr
      have hnd1 : (array1.map (fun l => l.label)).Nodup := by
        rw [harr, List.map_append, List.map_singleton]
        refine List.Nodup.append hnd (List.nodup_singleton _) ?_
        intro x hx1 hx2
        simp only [List.mem_singleton] at hx2
        subst hx2
        obtain ⟨l, hl1, hl2⟩ := List.mem_map.mp hx1
        exact hu l hl1 hl2
      obtain ⟨h1, h2⟩ := ih array1 r h (fun c hc => hlen c (List.mem_cons_of_mem _ hc)) hnd1
      refine ⟨?_, h2⟩
      rw [h1, harr]
      simp

/-- C15, the claim as stated fails: a name of 32 characters is stored cut to
its first 31 characters, so a second `add_label` with the same name finds
no stored label equal to it and succeeds; the table then holds the same
stored name twice. -/
theorem add_label_long_name_twice :
    add_labels [] [(List.replicate 32 'A', 100), (List.replicate 32 'A', 101)] =
      .ok [⟨List.replicate 31 'A', 100⟩, ⟨List.replicate 31 'A', 101⟩] ∧
    ¬ ([(⟨List.replicate 31 'A', 100⟩ : Label), ⟨List.replicate 31 'A', 101⟩].map
        (fun l => l.label)).Nodup := by
  decide

/-- C15, amended: `add_label` fails if and only if a label with the same
name is already in the label array; when it succeeds the array grows by
exactly one record, appended at the end and holding the first 31 characters
of the new name (the new name itself when it has at most 31 characters)
with the given address, all earlier records unchanged. Consequently, after
any sequence of `add_label` calls with names of at most 31 characters
starting from the empty array, the stored names are the names of the calls
in order and are pairwise distinct. -/
theorem add_label_spec (array : List Label) (label : List Char) (line_number : Int)
    (calls : List (List Char × Int)) (r : List Label)
    (hcalls : add_labels [] calls = .ok r)
    (hshort : ∀ c ∈ calls, c.1.length ≤ MAX_LABEL_LENGTH) :
    ((∃ e, add_label array label line_number = .error e) ↔ ∃ l ∈ array, l.label = label) ∧
    (∀ array1, add_label array label line_number = .ok array1 →
      array1 = array ++ [{ label := label.take MAX_LABEL_LENGTH, line_number := line_number }]) ∧
    (label.length ≤ MAX_LABEL_LENGTH → label.take MAX_LABEL_LENGTH = label) ∧
    r.map (fun l => l.label) = calls.map (fun c => c.1) ∧
    (r.map (fun l => l.label)).Nodup := by
  refine ⟨?_, ?_, fun h => List.take_of_length_le h, ?_⟩
  · constructor
    · rintro ⟨e, he⟩
      unfold add_label is_unique_label at he
      split at he
      · rename_i hu
        simp only [Bool.not_not, List.any_eq_true, decide_eq_true_eq] at hu
        exact hu
      · simp at he
    · rintro ⟨l, hl, hlab⟩
      refine ⟨.duplicate_label, ?_⟩
      unfold add_label is_unique_label
      have : (array.any (fun l => decide (l.label = label))) = true := by
        simp only [List.any_eq_true, decide_eq_true_eq]
        exact ⟨l, hl, hlab⟩
      simp [this]
  · intro array1 h
    exact (add_label_ok array label line_number array1 h).2
  · have := add_labels_names calls [] r hcalls hshort (by simp)
    simpa using this

theorem add_label_spec_witness :
    ((∃ e, add_label [⟨"MAIN".toList, 100⟩] "LOOP".toList 103 = .error e) ↔
      ∃ l ∈ [(⟨"MAIN".toList, 100⟩ : Label)], l.label = "LOOP".toList) ∧
    (∀ array1, add_label [⟨"MAIN".toList, 100⟩] "LOOP".toList 103 = .ok array1 →
      array1 = [⟨"MAIN".toList, 100⟩] ++
        [{ label := "LOOP".toList.take MAX_LABEL_LENGTH, line_number := 103 }]) ∧
    ("LOOP".toList.length ≤ MAX_LABEL_LENGTH → "LOOP".toList.take MAX_LABEL_LENGTH = "LOOP".toList) ∧
    [(⟨"MAIN".toList, 100⟩ : Label), ⟨"LOOP".toList, 103⟩].map (fun l => l.label) =
      [("MAIN".toList, (100 : Int)), ("LOOP".toList, 103)].map (fun c => c.1) ∧
    ([(⟨"MAIN".toList, 100⟩ : Label), ⟨"LOOP".toList, 103⟩].map (fun l => l.label)).Nodup :=
  add_label_spec [⟨"MAIN".toList, 100⟩] "LOOP".toList 103
    [("MAIN".toList, 100), ("LOOP".toList, 103)] [⟨"MAIN".toList, 100⟩, ⟨"LOOP".toList, 103⟩]
    (by decide) (by decide)

/-- C17, the claim as stated fails: the lines `mov: stop` and `r3: stop` are
accepted by pass one, which records the labels `mov` and `r3`. -/
theorem mov_and_r3_accepted_as_labels :
    first_pass ["mov: stop".toList] =
      .ok { label_array := [⟨"mov".toList, 100⟩], ext_entry_array := ⟨[], []⟩,
            line_counter := 101, user_line_counter := 2 } ∧
    first_pass ["r3: stop".toList] =
      .ok { label_array := [⟨"r3".toList, 100⟩], ext_entry_array := ⟨[], []⟩,
            line_counter := 101, user_line_counter := 2 } := by
  decide

/-- C17, amended: pass one does not reject a label definition whose name is
an opcode mnemonic or a register name: each of the sixteen mnemonics and of
`r0` .. `r7` passes `is_valid_label`, and the line `<name>: stop` is
accepted, the name entering the label table with address 100. -/
theorem reserved_names_accepted_as_labels (name : List Char) (h : name ∈ reserved_names) :
    is_valid_label name = true ∧
    first_pass [name ++ ": stop".toList] =
      .ok { label_array := [⟨name, 100⟩], ext_entry_array := ⟨[], []⟩,
            line_counter := 101, user_line_counter := 2 } := by
  simp only [reserved_names, operations, register_names, List.cons_append, List.nil_append,
    List.mem_cons, List.mem_singleton, List.not_mem_nil, or_false] at h
  rcases h with h | h | h | h | h | h | h | h | h | h | h | h | h | h | h | h | h | h | h | h |
    h | h | h | h <;> (subst h; decide)

theorem reserved_names_accepted_as_labels_witness :
    is_valid_label "jmp".toList = true ∧
    first_pass ["jmp".toList ++ ": stop".toList] =
      .ok { label_array := [⟨"jmp".toList, 100⟩], ext_entry_array := ⟨[], []⟩,
            line_counter := 101, user_line_counter := 2 } :=
  reserved_names_accepted_as_labels "jmp".toList (by decide)

/-! ## Claim on the names pass one accepts in a label definition -/

theorem scan_operands_not_invalid_label (operands : List Char) :
    scan_operands operands ≠ .error .invalid_label := by
  unfold scan_operands
  intro h
  repeat' split at h
  all_goals simp at h

theorem operand_type_error_not_invalid_label (op_info : operation_info) (k : Int)
    (src dest : addressing_type) :
    operand_type_error op_info k src dest ≠ some .invalid_label := by
  unfold operand_type_error
  split_ifs <;> simp

theorem calculate_instruction_lines_not_invalid_label (operation operands : List Char) :
    calculate_instruction_lines operation operands ≠ .error .invalid_label := by
  unfold calculate_instruction_lines
  intro h
  cases hi : get_operation_info operation with
  | none => simp [hi] at h
  | some op_info =>
    cases hs : scan_operands operands with
    | error e =>
      simp only [hi, hs, Except.error.injEq] at h
      subst h
      exact scan_operands_not_invalid_label operands hs
    | ok r =>
      obtain ⟨k, src, dest⟩ := r
      simp only [hi, hs] at h
      split at h
      · split at h <;> simp at h
      · cases hte : operand_type_error op_info k src dest with
        | none => simp [hte] at h
        | some e =>
          simp only [hte, Except.error.injEq] at h
          subst h
          exact operand_type_error_not_invalid_label _ _ _ _ hte

theorem count_data_tokens_not_invalid_label (tokens : List (List Char)) :
    ∀ c : Int, count_data_tokens tokens c ≠ .error .invalid_label := by
  induction tokens with
  | nil => intro c; simp [count_data_tokens]
  | cons t ts ih =>
    intro c
    simp only [count_data_tokens]
    split
    · simp
    · exact ih _

theorem handle_data_directive_not_invalid_label (line : List Char) (c : Int) :
    handle_data_directive line c ≠ .error .invalid_label := by
  unfold handle_data_directive
  split
  · simp
  · exact count_data_tokens_not_invalid_label _ _

theorem handle_string_directive_not_invalid_label (line : List Char) (c : Int) :
    handle_string_directive line c ≠ .error .invalid_label := by
  unfold handle_string_directive
  simp only
  repeat' split
  all_goals simp

theorem add_extern_entry_tokens_not_invalid_label (directive : List Char) (n : Int)
    (tokens : List (List Char)) :
    ∀ a : ExternEntryArray,
      add_extern_entry_tokens directive n tokens a ≠ .error .invalid_label := by
  induction tokens with
  | nil => intro a; simp [add_extern_entry_tokens]
  | cons t ts ih =>
    intro a
    simp only [add_extern_entry_tokens]
    split
    · split
      · rename_i e he
        unfold add_extern at he
        split at he
        · simp only [Except.error.injEq] at he
          subst he
          simp
        · simp at he
      · exact ih _
    · split
      · split
        · rename_i e he
          unfold add_entry at he
          split at he
          · simp only [Except.error.injEq] at he
            subst he
            simp
          · simp at he
        · exact ih _
      · exact ih _

theorem first_pass_dispatch_not_invalid_label (st : first_pass_state) (token rest : List Char) :
    first_pass_dispatch st token rest ≠ .error .invalid_label := by
  unfold first_pass_dispatch
  intro h
  simp only at h
  split at h
  · split at h
    · rename_i e he
      simp only [Except.error.injEq] at h
      subst h
      exact calculate_instruction_lines_not_invalid_label _ _ he
    · simp at h
  · split at h
    · split at h
      · split at h
        · rename_i e he
          simp only [Except.error.injEq] at h
          subst h
          exact handle_data_directive_not_invalid_label _ _ he
        · simp at h
      · simp at h
    · split at h
      · split at h
        · split at h
          · rename_i e he
            simp only [Except.error.injEq] at h
            subst h
            exact handle_string_directive_not_invalid_label _ _ he
          · simp at h
        · simp at h
      · split at h
        · split at h
          · rename_i e he
            simp only [Except.error.injEq] at h
            subst h
            exact add_extern_entry_tokens_not_invalid_label _ _ _ _ he
          · simp at h
        · simp at h

theorem first_pass_statement_not_invalid_label (st : first_pass_state)
    (token : Option (List Char × List Char)) :
    first_pass_statement st token ≠ .error .invalid_label := by
  unfold first_pass_statement
  intro h
  split at h
  · simp at h
  · split at h
    · rename_i e he
      simp only [Except.error.injEq] at h
      subst h
      exact first_pass_dispatch_not_invalid_label _ _ _ he
    · split at h <;> simp at h

/-- C16, the claim as stated fails: the definition of a label of 32 letters
is accepted by pass one, which stores the first 31 letters. -/
theorem long_label_accepted :
    (List.replicate 32 'A').length > MAX_LABEL_LENGTH ∧
    first_pass [List.replicate 32 'A' ++ ": stop".toList] =
      .ok { label_array := [⟨List.replicate 31 'A', 100⟩], ext_entry_array := ⟨[], []⟩,
            line_counter := 101, user_line_counter := 2 } := by
  decide

/-- C16, amended: pass one rejects a label definition `<name>:` as an
invalid label if and only if the name does not begin with a letter or holds
a character that is neither a letter nor a digit; the length of the name is
not tested, and a name longer than 31 characters is accepted and stored cut
to its first 31 characters. -/
theorem label_definition_validation (st : first_pass_state) (raw name : List Char)
    (hlen : raw.length ≤ MAX_LINE_LENGTH)
    (hcommas : validate_commas (line_text raw) (strstr_found (line_text raw) ".data".toList) = true)
    (hname : line_label raw = some name) :
    (first_pass_line st raw = .error .invalid_label ↔
      ¬ (is_alpha (char_at name 0) = true ∧ name.all is_alnum = true)) ∧
    first_pass [List.replicate 32 'A' ++ ": stop".toList] =
      .ok { label_array := [⟨List.replicate 31 'A', 100⟩], ext_entry_array := ⟨[], []⟩,
            line_counter := 101, user_line_counter := 2 } := by
  refine ⟨?_, by decide⟩
  have hvalid : is_valid_label name = true ↔
      (is_alpha (char_at name 0) = true ∧ name.all is_alnum = true) := by
    unfold is_valid_label
    cases name with
    | nil => simp [char_at]
    | cons c cs =>
      have hc : char_at (c :: cs) 0 = c := rfl
      simp only [hc, List.drop_one, List.tail_cons, List.all_cons, Bool.and_eq_true]
      by_cases ha : is_alpha c = true
      · have hn : is_alnum c = true := by unfold is_alnum; simp [ha]
        simp [ha, hn]
      · simp [ha]
  rw [← hvalid]
  unfold line_label at hname
  unfold first_pass_line
  have hlen2 : ¬ raw.length > MAX_LINE_LENGTH := by omega
  simp only [hlen2, if_false]
  by_cases hb : is_blank_line raw = true
  · rw [if_pos hb] at hname
    exact absurd hname (by simp)
  · rw [if_neg hb] at hname
    have hb2 : ¬ ((line_text raw).length = 0 ∨
        ((line_text raw).takeWhile (fun c => c == ' ' || c == '\t')).length
          = (line_text raw).length) := by
      intro h
      apply hb
      unfold is_blank_line
      simpa using h
    unfold line_text at hb2 hcommas hname
    simp only [hb2, if_false, hcommas, Bool.not_true, Bool.false_eq_true]
    cases hs : strtok " \t".toList
        (List.takeWhile (fun c => !(c == '\r' || c == '\n')) raw) with
    | none =>
      rw [hs] at hname
      exact absurd hname (by simp)
    | some p =>
      obtain ⟨token, rest⟩ := p
      rw [hs] at hname
      simp only at hname ⊢
      by_cases hc : token.contains ':' = true
      · rw [if_pos hc] at hname
        rw [if_pos hc]
        have hn : List.takeWhile (fun c => !(c == ':')) token = name := Option.some.inj hname
        rw [hn]
        by_cases hv : is_valid_label name = true
        · simp only [hv, if_true, iff_false, not_true_eq_false]
          intro h
          split at h
          · rename_i e he
            simp only [Except.error.injEq] at h
            subst h
            unfold add_label at he
            split at he <;> simp at he
          · exact first_pass_statement_not_invalid_label _ _ h
        · simp [hv]
      · rw [if_neg hc] at hname
        exact absurd hname (by simp)

theorem label_definition_validation_witness :
    (first_pass_line first_pass_init "1OOP: stop".toList = .error .invalid_label ↔
      ¬ (is_alpha (char_at "1OOP".toList 0) = true ∧ "1OOP".toList.all is_alnum = true)) :=
  (label_definition_validation first_pass_init "1OOP: stop".toList "1OOP".toList
    (by decide) (by decide) (by decide)).1

/-! ## Claim on names that are both extern and label -/

/-- C18, the claim as stated fails: the program that declares `X` with
`.extern` and then defines the label `X` is accepted by pass one, and `X`
is both in the externs list and in the label table. -/
theorem extern_and_label_accepted :
    first_pass [".extern X".toList, "X: stop".toList] =
      .ok { label_array := [⟨"X".toList, 100⟩],
            ext_entry_array := ⟨[⟨"X".toList, 100⟩], []⟩,
            line_counter := 101, user_line_counter := 3 } := by
  decide

/-- C18, amended: pass one does not compare the externs list with the label
table. A line whose statement is not `.extern` or `.entry` is processed
without reading the extern and entry tables: with any other tables the
outcome is the same, the tables passing through unchanged; so a label
definition is accepted whether or not its name was declared with `.extern`.
A `.extern` or `.entry` directive is processed without reading the label
table. A program that declares `X` with `.extern` and defines the label `X`
is accepted, with `X` in both. -/
theorem first_pass_line_ignores_externs (st : first_pass_state) (tables : ExternEntryArray)
    (labels : List Label) (raw rest : List Char)
    (hstatement : ∀ token rest, line_statement raw = some (token, rest) →
      token ≠ ".extern".toList ∧ token ≠ ".entry".toList) :
    first_pass_line { st with ext_entry_array := tables } raw =
      (first_pass_line st raw).map (fun s => { s with ext_entry_array := tables }) ∧
    first_pass_dispatch { st with label_array := labels } ".extern".toList rest =
      (first_pass_dispatch st ".extern".toList rest).map
        (fun s => { s with label_array := labels }) ∧
    first_pass_dispatch { st with label_array := labels } ".entry".toList rest =
      (first_pass_dispatch st ".entry".toList rest).map
        (fun s => { s with label_array := labels }) ∧
    first_pass [".extern X".toList, "X: stop".toList] =
      .ok { label_array := [⟨"X".toList, 100⟩],
            ext_entry_array := ⟨[⟨"X".toList, 100⟩], []⟩,
            line_counter := 101, user_line_counter := 3 } := by
  have hdispatch : ∀ (s : first_pass_state) (token rest : List Char),
      token ≠ ".extern".toList → token ≠ ".entry".toList →
      first_pass_dispatch { s with ext_entry_array := tables } token rest =
        (first_pass_dispatch s token rest).map (fun s => { s with ext_entry_array := tables }) := by
    intro s token rest h1 h2
    unfold first_pass_dispatch
    simp only [h1, h2, or_self, if_false]
    split
    · split <;> simp [Except.map]
    · split
      · split
        · split <;> simp [Except.map]
        · simp [Except.map]
      · split
        · split
          · split <;> simp [Except.map]
          · simp [Except.map]
        · simp [Except.map]
  have hstat : ∀ (s : first_pass_state) (tok : Option (List Char × List Char)),
      (∀ token rest, tok = some (token, rest) →
        token ≠ ".extern".toList ∧ token ≠ ".entry".toList) →
      first_pass_statement { s with ext_entry_array := tables } tok =
        (first_pass_statement s tok).map (fun s => { s with ext_entry_array := tables }) := by
    intro s tok h
    unfold first_pass_statement
    cases tok with
    | none => simp [Except.map]
    | some p =>
      obtain ⟨token, rest⟩ := p
      obtain ⟨h1, h2⟩ := h token rest rfl
      simp only [hdispatch s token rest h1 h2]
      cases hd : first_pass_dispatch s token rest with
      | error e => simp [Except.map]
      | ok s1 =>
        simp only [Except.map]
        split <;> simp
  refine ⟨?_, ?_, ?_, by decide⟩
  · unfold line_statement at hstatement
    unfold first_pass_line
    split
    · simp [Except.map]
    · simp only
      by_cases hb : is_blank_line raw = true
      · have hb2 : (line_text raw).length = 0 ∨
            ((line_text raw).takeWhile (fun c => c == ' ' || c == '\t')).length
              = (line_text raw).length := by
          unfold is_blank_line at hb
          simpa using hb
        unfold line_text at hb2
        simp only [hb2, if_true, Except.map]
      · have hb2 : ¬ ((line_text raw).length = 0 ∨
            ((line_text raw).takeWhile (fun c => c == ' ' || c == '\t')).length
              = (line_text raw).length) := by
          intro h
          apply hb
          unfold is_blank_line
          simpa using h
        rw [if_neg hb] at hstatement
        unfold line_text at hb2 hstatement
        simp only [hb2, if_false]
        split
        · simp [Except.map]
        · cases hs : strtok " \t".toList
              (List.takeWhile (fun c => !(c == '\r' || c == '\n')) raw) with
          | none =>
            simp only
            exact hstat st none (by simp)
          | some p =>
            obtain ⟨token, rest1⟩ := p
            rw [hs] at hstatement
            simp only at hstatement ⊢
            by_cases hc : token.contains ':' = true
            · rw [if_pos hc] at hstatement
              simp only [hc, if_true]
              split
              · cases ha : add_label st.label_array
                    (List.takeWhile (fun c => !(c == ':')) token) st.line_counter with
                | error e => simp [Except.map]
                | ok labels1 =>
                  simp only
                  exact hstat { st with label_array := labels1 } _ hstatement
              · simp [Except.map]
            · rw [if_neg hc] at hstatement
              simp only [hc, Bool.false_eq_true, if_false]
              exact hstat st _ hstatement
  · unfold first_pass_dispatch
    have h1 : is_operation ".extern".toList = false := by decide
    have h2 : ".extern".toList ≠ ".data".toList := by decide
    have h3 : ".extern".toList ≠ ".string".toList := by decide
    simp only [h1, h2, h3, Bool.false_eq_true, if_false, true_or, if_true]
    split <;> simp [Except.map]
  · unfold first_pass_dispatch
    have h1 : is_operation ".entry".toList = false := by decide
    have h2 : ".entry".toList ≠ ".data".toList := by decide
    have h3 : ".entry".toList ≠ ".string".toList := by decide
    simp only [h1, h2, h3, Bool.false_eq_true, if_false, or_true, if_true]
    split <;> simp [Except.map]

theorem first_pass_line_ignores_externs_witness :
    first_pass_line { first_pass_init with ext_entry_array := ⟨[⟨"X".toList, 100⟩], []⟩ }
        "X: stop".toList =
      (first_pass_line first_pass_init "X: stop".toList).map
        (fun s => { s with ext_entry_array := ⟨[⟨"X".toList, 100⟩], []⟩ }) :=
  (first_pass_line_ignores_externs first_pass_init ⟨[⟨"X".toList, 100⟩], []⟩ [] "X: stop".toList []
    (by
      intro token rest h
      have hs : line_statement "X: stop".toList = some ("stop".toList, []) := by decide
      rw [hs] at h
      simp only [Option.some.injEq, Prod.mk.injEq] at h
      obtain ⟨h1, -⟩ := h
      subst h1
      decide)).1

/-! ## Claim on the `.data` directive in the two passes -/

theorem store_data_tokens_ok (tokens : List (List Char)) :
    ∀ st st1 : second_pass_state, store_data_tokens tokens st = .ok st1 →
      (∀ t ∈ tokens, (strtol t).2 = []) ∧
      st1.dc = st.dc + (tokens.length : Int) ∧ st1.code = st.code ∧
      (∀ (j : Nat) (t : List Char), tokens.get? j = some t →
        st1.data_img (st.dc + (j : Int)) = some (strtol t).1) ∧
      (∀ i, (i < st.dc ∨ st.dc + (tokens.length : Int) ≤ i) → st1.data_img i = st.data_img i) := by
  induction tokens with
  | nil =>
    intro st st1 h
    simp only [store_data_tokens, Except.ok.injEq] at h
    subst h
    simp
  | cons t ts ih =>
    intro st st1 h
    simp only [store_data_tokens] at h
    split at h
    · simp at h
    · rename_i ht
      have ht2 : (strtol t).2 = [] := by simpa using ht
      obtain ⟨h1, h2, h3, h4, h5⟩ := ih _ _ h
      have hdc : (store_data st (strtol t).1).dc = st.dc + 1 := rfl
      rw [hdc] at h2 h4 h5
      refine ⟨?_, ?_, ?_, ?_, ?_⟩
      · intro x hx
        rcases List.mem_cons.mp hx with rfl | hx
        · exact ht2
        · exact h1 x hx
      · rw [h2]; simp only [List.length_cons]; push_cast; ring
      · rw [h3]; rfl
      · intro j x hj
        cases j with
        | zero =>
          simp only [List.get?_cons_zero, Option.some.injEq] at hj
          subst hj
          rw [h5 _ (Or.inl (by simp))]
          simp [store_data]
        | succ j =>
          simp only [List.get?_cons_succ] at hj
          have := h4 j x hj
          rw [← this]
          congr 1
          push_cast
          ring
      · intro i hi
        simp only [List.length_cons] at hi
        push_cast at hi
        rw [h5 i (by omega)]
        have hne : i ≠ st.dc := by omega
        simp [store_data, hne]

theorem update_entry_lines_ok (label_array : List Label) (entries : List ExternEntry) :
    ∀ r, update_entry_lines label_array entries = .ok r →
      r.map (fun e => e.name) = entries.map (fun e => e.name) ∧
      ∀ e ∈ r, label_address label_array e.name = some e.line_number := by
  induction entries with
  | nil =>
    intro r h
    simp only [update_entry_lines, Except.ok.injEq] at h
    subst h
    simp
  | cons e es ih =>
    intro r h
    simp only [update_entry_lines] at h
    cases hf : label_array.find? (fun l => decide (e.name = l.label)) with
    | none => simp [hf] at h
    | some l =>
      simp only [hf] at h
      cases hu : update_entry_lines label_array es with
      | error x => simp [hu] at h
      | ok r1 =>
        simp only [hu, Except.ok.injEq] at h
        subst h
        obtain ⟨h1, h2⟩ := ih r1 hu
        refine ⟨by simp [h1], ?_⟩
        intro x hx
        rcases List.mem_cons.mp hx with rfl | hx
        · simp [label_address, hf]
        · exact h2 x hx

theorem update_entry_lines_error (label_array : List Label) (entries : List ExternEntry)
    (h : ∃ e ∈ entries, label_address label_array e.name = none) :
    update_entry_lines label_array entries = .error .entry_label_not_found := by
  induction entries with
  | nil => simp at h
  | cons e es ih =>
    simp only [update_entry_lines]
    cases hf : label_array.find? (fun l => decide (e.name = l.label)) with
    | none => rfl
    | some l =>
      obtain ⟨x, hx, hnone⟩ := h
      rcases List.mem_cons.mp hx with rfl | hx
      · simp [label_address, hf] at hnone
      · simp only
        rw [ih ⟨x, hx, hnone⟩]

theorem entry_listing_with_labels (u : uninit_memory) (lines : List (List Char))
    (fp : first_pass_state) (out : output_files)
    (hfp : first_pass lines = .ok fp) (hlabels : fp.label_array ≠ [])
    (hout : process_file u lines = .ok out) :
    (fp.ext_entry_array.entries = [] → out.ent = none) ∧
    (fp.ext_entry_array.entries ≠ [] →
      ∃ listing, out.ent = some listing ∧
        listing.map (fun p => p.1) = fp.ext_entry_array.entries.reverse.map (fun e => e.name) ∧
        ∀ p ∈ listing, label_address fp.label_array p.1 = some p.2) := by
  unfold process_file process_file_passes at hout
  simp only [hfp] at hout
  have hl : fp.label_array.length > 0 := List.length_pos.mpr hlabels
  by_cases he : fp.ext_entry_array.entries = []
  · refine ⟨fun _ => ?_, fun h => absurd he h⟩
    simp only [he, List.length_nil, gt_iff_lt, lt_self_iff_false, and_false, if_false] at hout
    split at hout
    · simp at hout
    · rename_i ext sp hsp
      split at hsp
      · simp at hsp
      · simp only [Except.ok.injEq, Prod.mk.injEq] at hsp
        simp only [Except.ok.injEq] at hout
        rw [← hout, ← hsp.1]
        simp
  · refine ⟨fun h => absurd h he, fun _ => ?_⟩
    have hel : fp.ext_entry_array.entries.length > 0 := List.length_pos.mpr he
    simp only [hl, hel, and_self, if_true] at hout
    cases hu : update_entry_lines fp.label_array fp.ext_entry_array.entries with
    | error x => simp [hu] at hout
    | ok r =>
      obtain ⟨h1, h2⟩ := update_entry_lines_ok _ _ r hu
      simp only [hu] at hout
      split at hout
      · simp at hout
      · rename_i ext sp hsp
        split at hsp
        · simp at hsp
        · simp only [Except.ok.injEq, Prod.mk.injEq] at hsp
          simp only [Except.ok.injEq] at hout
          have hr : r ≠ [] := by
            intro hr
            rw [hr] at h1
            simp at h1
            exact he h1
          have hrl : r.length > 0 := List.length_pos.mpr hr
          have hrl2 : ¬ r.length = 0 := by omega
          rw [← hout, ← hsp.1]
          simp only [hrl, if_true, write_entries_to_file, hrl2, if_false]
          refine ⟨_, rfl, ?_, ?_⟩
          · simp only [List.map_map, List.map_reverse]
            congr 1
          · intro p hp
            simp only [List.mem_map, List.mem_reverse] at hp
            obtain ⟨e, he1, rfl⟩ := hp
            exact h2 e he1

theorem unresolved_entry_with_labels (u : uninit_memory) (lines : List (List Char))
    (fp : first_pass_state) (hfp : first_pass lines = .ok fp) (hlabels : fp.label_array ≠ [])
    (hentry : ∃ e ∈ fp.ext_entry_array.entries, label_address fp.label_array e.name = none) :
    process_file u lines = .error .entry_label_not_found := by
  unfold process_file process_file_passes
  simp only [hfp]
  have hl : fp.label_array.length > 0 := List.length_pos.mpr hlabels
  have he : fp.ext_entry_array.entries ≠ [] := by
    obtain ⟨e, he, -⟩ := hentry
    exact List.ne_nil_of_mem he
  have hel : fp.ext_entry_array.entries.length > 0 := List.length_pos.mpr he
  simp only [hl, hel, and_self, if_true, update_entry_lines_error _ _ hentry]

/-- C13, the code at the failing input: the program `.entry X`, `.entry Y`,
`stop` defines no label, so `process_file` skips `update_entry_lines`; the
program is assembled and the entry listing pairs `Y` and `X` with 100, the
value of the line counter at their declaration, though the label table
records no address for them. -/
theorem entry_listing_without_label :
    (first_pass [".entry X".toList, ".entry Y".toList, "stop".toList]).map
        (fun fp => fp.label_array) = .ok [] ∧
    (process_file sample_memory [".entry X".toList, ".entry Y".toList, "stop".toList]).map
        (fun out => out.ent) = .ok (some [("Y".toList, 100), ("X".toList, 100)]) ∧
    label_address [] "X".toList = none ∧ label_address [] "Y".toList = none := by
  decide

/-- C14, the code at the failing input: the program `.entry X`, `stop`
declares the entry `X` and defines no label; `process_file` skips
`update_entry_lines`, assembly does not abort, and the object listing and
the entry listing are written. -/
theorem unresolved_entry_without_label_assembles :
    (first_pass [".entry X".toList, "stop".toList]).map
        (fun fp => (fp.label_array, fp.ext_entry_array.entries)) =
      .ok ([], [⟨"X".toList, 100⟩]) ∧
    (process_file sample_memory [".entry X".toList, "stop".toList]).map
        (fun out => out.ent) = .ok (some [("X".toList, 100)]) ∧
    (process_file sample_memory [".entry X".toList, "stop".toList]).map
        (fun out => out.ob.map (fun r => r.1)) = .ok (some (1, 0)) := by
  decide

/-! ## Helper lemmas on the layout of the code image -/

theorem extension_words_store (st : code_state) (epa : Option (List ExternEntry)) (d : dataWord) :
    writes_extension_words 1 st
      (store_word { st with extern_printing_array := epa } { length := 0, word := .data d }) := by
  refine ⟨rfl, ?_, ?_⟩
  · intro i hi
    have : i ≠ st.ic - IC_INIT_VALUE := by omega
    simp [store_word, this]
  · intro i h1 h2
    have : i = st.ic - IC_INIT_VALUE := by omega
    exact ⟨d, by simp [store_word, this]⟩

theorem extension_words_trans (j k : Int) (a b c : code_state) (hj : 0 ≤ j) (hk : 0 ≤ k)
    (h1 : writes_extension_words j a b) (h2 : writes_extension_words k b c) :
    writes_extension_words (j + k) a c := by
  obtain ⟨a1, a2, a3⟩ := h1
  obtain ⟨b1, b2, b3⟩ := h2
  refine ⟨by omega, ?_, ?_⟩
  · intro i hi
    rw [b2 i (by omega), a2 i (by omega)]
  · intro i hlo hhi
    by_cases hm : i < a.ic - IC_INIT_VALUE + j
    · rw [b2 i (by omega)]
      exact a3 i hlo hm
    · exact b3 i (by omega) (by omega)

theorem generate_register_extension (u : uninit_memory) (st st1 : code_state)
    (a1 a2 : addressing_type) (o1 o2 : Option (List Char))
    (h : generate_register_code_word u st a1 a2 o1 o2 = .ok st1) :
    writes_extension_words 1 st st1 := by
  unfold generate_register_code_word at h
  split at h
  · simp at h
  · split at h
    · simp at h
    · simp only [Except.ok.injEq] at h
      rw [← h]
      exact extension_words_store st st.extern_printing_array _

theorem generate_non_register_extension (u : uninit_memory) (st st1 : code_state)
    (operand : Option (List Char)) (a : addressing_type) (labels : List Label)
    (ext_entry_array : ExternEntryArray)
    (ha : operand_addressing operand = .ok a) (hr : is_reg_or_rel a = false)
    (h : generate_non_register_code_word u st operand labels ext_entry_array = .ok st1) :
    writes_extension_words 1 st st1 := by
  unfold generate_non_register_code_word at h
  cases operand with
  | none => simp at h
  | some t =>
    unfold operand_addressing at ha
    simp only at ha h
    by_cases hn : get_addressing_type t = .NONE_ADDR
    · simp [hn] at ha
    · simp only [hn, if_false, Except.ok.injEq] at ha
      simp only [ne_eq, hn, not_false_eq_true, if_true] at h
      by_cases hi : get_addressing_type t = .IMMEDIATE_ADDR
      · simp only [hi, if_true, Except.ok.injEq] at h
        rw [← h]
        exact extension_words_store st st.extern_printing_array _
      · simp only [hi, if_false] at h
        by_cases hd : get_addressing_type t = .DIRECT_ADDR
        · simp only [hd, if_true] at h
          split at h
          · simp only [Except.ok.injEq] at h
            rw [← h]
            exact extension_words_store st _ _
          · split at h
            · simp only [Except.ok.injEq] at h
              rw [← h]
              exact extension_words_store st st.extern_printing_array _
            · simp at h
        · exfalso
          rw [← ha] at hr
          revert hn hi hd hr
          cases get_addressing_type t <;> simp [is_reg_or_rel]

theorem emit_operand_words_extension (u : uninit_memory) (st st2 : code_state)
    (operand_count : Int) (a1 a2 : addressing_type) (o0 o1 : Option (List Char))
    (labels : List Label) (ext_entry_array : ExternEntryArray)
    (h1 : operand_addressing o0 = .ok a1) (h2 : operand_addressing o1 = .ok a2)
    (h : emit_operand_words u st operand_count a1 a2 o0 o1 labels ext_entry_array = .ok st2) :
    ∃ k : Int, (k = 1 ∨ k = 2) ∧ writes_extension_words k st st2 := by
  unfold emit_operand_words at h
  cases hr1 : is_reg_or_rel a1 <;> cases hr2 : is_reg_or_rel a2 <;>
    simp only [hr1, hr2, Bool.and_self, Bool.and_false, Bool.false_and, Bool.false_eq_true,
      if_false, if_true] at h
  · cases hg : generate_non_register_code_word u st o0 labels ext_entry_array with
    | error e => simp [hg] at h
    | ok sa =>
      have e1 := generate_non_register_extension u st sa o0 a1 labels ext_entry_array h1 hr1 hg
      simp only [hg] at h
      split at h
      · have e2 := generate_non_register_extension u sa st2 o1 a2 labels ext_entry_array h2 hr2 h
        exact ⟨2, Or.inr rfl, extension_words_trans 1 1 st sa st2 (by omega) (by omega) e1 e2⟩
      · simp only [Except.ok.injEq] at h
        rw [← h]
        exact ⟨1, Or.inl rfl, e1⟩
  · split at h
    · cases hg : generate_non_register_code_word u st o0 labels ext_entry_array with
      | error e => simp [hg] at h
      | ok sa =>
        have e1 := generate_non_register_extension u st sa o0 a1 labels ext_entry_array h1 hr1 hg
        simp only [hg] at h
        have e2 := generate_register_extension u sa st2 _ _ _ _ h
        exact ⟨2, Or.inr rfl, extension_words_trans 1 1 st sa st2 (by omega) (by omega) e1 e2⟩
    · exact ⟨1, Or.inl rfl, generate_register_extension u st st2 _ _ _ _ h⟩
  · split at h
    · exact ⟨1, Or.inl rfl, generate_register_extension u st st2 _ _ _ _ h⟩
    · cases hg : generate_register_code_word u st a1 a2 o0 none with
      | error e => simp [hg] at h
      | ok sa =>
        have e1 := generate_register_extension u st sa _ _ _ _ hg
        simp only [hg] at h
        have e2 := generate_non_register_extension u sa st2 o1 a2 labels ext_entry_array h2 hr2 h
        exact ⟨2, Or.inr rfl, extension_words_trans 1 1 st sa st2 (by omega) (by omega) e1 e2⟩
  · exact ⟨1, Or.inl rfl, generate_register_extension u st st2 _ _ _ _ h⟩

theorem process_code_block (u : uninit_memory) (operation operands_line : List Char)
    (st st1 : code_state) (labels : List Label) (ext_entry_array : ExternEntryArray)
    (h : process_code u operation operands_line st labels ext_entry_array = .ok st1) :
    ∃ n : Int, 1 ≤ n ∧ n ≤ 3 ∧ st1.ic = st.ic + n ∧
      instruction_block st1.code_img (st.ic - IC_INIT_VALUE) n ∧
      ∀ i, (i < st.ic - IC_INIT_VALUE ∨ st.ic - IC_INIT_VALUE + n ≤ i) →
        st1.code_img i = st.code_img i := by
  unfold process_code at h
  cases hx : extract_operands operands_line with
  | error e => simp [hx] at h
  | ok ops =>
    obtain ⟨o0, o1⟩ := ops
    simp only [hx] at h
    split at h
    · simp at h
    · cases h1 : operand_addressing o0 with
      | error e => simp [h1] at h
      | ok a1 =>
        cases h2 : operand_addressing o1 with
        | error e => simp [h1, h2] at h
        | ok a2 =>
          simp only [h1, h2] at h
          generalize hcw : create_code_word (get_opcode operation) (get_operand_count operation)
            o0 o1 = cw at h
          generalize hs1 : store_word st { u.machine_word with word := .code cw } = s1 at h
          have hs1ic : s1.ic = st.ic + 1 := by rw [← hs1]; rfl
          have hs1at : s1.code_img (st.ic - IC_INIT_VALUE)
              = some { u.machine_word with word := .code cw } := by
            rw [← hs1]; simp [store_word]
          have hs1out : ∀ i, i ≠ st.ic - IC_INIT_VALUE → s1.code_img i = st.code_img i := by
            intro i hi
            rw [← hs1]; simp [store_word, hi]
          have key : ∀ (st2 : code_state) (k : Int), 0 ≤ k → k ≤ 2 →
              writes_extension_words k s1 st2 →
              ∃ n : Int, 1 ≤ n ∧ n ≤ 3 ∧
                ({ st2 with
                    code_img := fun i =>
                      if i = st.ic - IC_INIT_VALUE then
                        (st2.code_img i).map (fun w => { w with length := st2.ic - st.ic })
                      else st2.code_img i } : code_state).ic = st.ic + n ∧
                instruction_block
                  (fun i =>
                    if i = st.ic - IC_INIT_VALUE then
                      (st2.code_img i).map (fun w => { w with length := st2.ic - st.ic })
                    else st2.code_img i) (st.ic - IC_INIT_VALUE) n ∧
                ∀ i, (i < st.ic - IC_INIT_VALUE ∨ st.ic - IC_INIT_VALUE + n ≤ i) →
                  (if i = st.ic - IC_INIT_VALUE then
                      (st2.code_img i).map (fun w => { w with length := st2.ic - st.ic })
                    else st2.code_img i) = st.code_img i := by
            intro st2 k hk0 hk2 hw
            obtain ⟨w1, w2, w3⟩ := hw
            rw [hs1ic] at w1 w2 w3
            refine ⟨1 + k, by omega, by omega, by simp only; omega, ⟨?_, ?_⟩, ?_⟩
            · refine ⟨cw, ?_⟩
              simp only [if_true]
              rw [w2 _ (Or.inl (by omega)), hs1at]
              simp only [Option.map_some', Option.some.injEq, MachineWordsArray.mk.injEq, and_true]
              omega
            · intro i hlo hhi
              have hne : i ≠ st.ic - IC_INIT_VALUE := by omega
              simp only [hne, if_false]
              exact w3 i (by omega) (by omega)
            · intro i hi
              have hne : i ≠ st.ic - IC_INIT_VALUE := by omega
              simp only [hne, if_false]
              rw [w2 i (by omega)]
              exact hs1out i hne
          by_cases hc : get_operand_count operation ≠ 0
          · rw [if_pos hc] at h
            cases he : emit_operand_words u s1 (get_operand_count operation - 1) a1 a2 o0 o1
                labels ext_entry_array with
            | error e => simp [he] at h
            | ok st2 =>
              obtain ⟨k, hk, hw⟩ := emit_operand_words_extension u s1 st2 _ a1 a2 o0 o1
                labels ext_entry_array h1 h2 he
              simp only [he, Except.ok.injEq] at h
              rw [← h]
              exact key st2 k (by omega) (by omega) hw
          · rw [if_neg hc] at h
            simp only [Except.ok.injEq] at h
            rw [← h]
            refine key s1 0 (by omega) (by omega) ⟨by omega, fun i _ => rfl, ?_⟩
            intro i h1 h2
            omega

theorem image_blocks_sum_nonneg (code_img : Int → Option MachineWordsArray) (ns : List Int) :
    ∀ start, image_blocks code_img start ns → 0 ≤ ns.sum := by
  induction ns with
  | nil => intro _ _; simp
  | cons n ns ih =>
    intro start h
    obtain ⟨h1, -, h3⟩ := h
    have := ih _ h3
    simp only [List.sum_cons]
    omega

theorem image_blocks_congr (img1 img2 : Int → Option MachineWordsArray) (ns : List Int) :
    ∀ start, image_blocks img1 start ns →
      (∀ i, start ≤ i → i < start + ns.sum → img2 i = img1 i) →
      image_blocks img2 start ns := by
  induction ns with
  | nil => intro _ _ _; trivial
  | cons n ns ih =>
    intro start h hagree
    obtain ⟨h1, ⟨⟨c, hc⟩, hd⟩, h3⟩ := h
    have hs := image_blocks_sum_nonneg img1 ns _ h3
    simp only [List.sum_cons] at hagree
    refine ⟨h1, ⟨⟨c, ?_⟩, ?_⟩, ?_⟩
    · rw [hagree start (by omega) (by omega)]; exact hc
    · intro i hlo hhi
      rw [hagree i (by omega) (by omega)]
      exact hd i hlo hhi
    · exact ih _ h3 (fun i hlo hhi => hagree i (by omega) (by omega))

theorem image_blocks_append (code_img : Int → Option MachineWordsArray) (n : Int) (hn : 1 ≤ n)
    (ns : List Int) :
    ∀ start, image_blocks code_img start ns →
      instruction_block code_img (start + ns.sum) n →
      image_blocks code_img start (ns ++ [n]) := by
  induction ns with
  | nil =>
    intro start _ hb
    simp only [List.sum_nil, add_zero] at hb
    exact ⟨hn, hb, trivial⟩
  | cons m ms ih =>
    intro start h hb
    obtain ⟨h1, h2, h3⟩ := h
    refine ⟨h1, h2, ih _ h3 ?_⟩
    simp only [List.sum_cons] at hb
    rw [add_assoc]
    exact hb

theorem image_blocks_slot (code_img : Int → Option MachineWordsArray) (ns : List Int) :
    ∀ start, image_blocks code_img start ns →
      ∀ i, start ≤ i → i < start + ns.sum →
        ∃ w, code_img i = some w ∧
          ((0 < w.length ∧ ∃ c, w.word = .code c) ∨ (w.length = 0 ∧ ∃ d, w.word = .data d)) := by
  induction ns with
  | nil =>
    intro start _ i hlo hhi
    simp only [List.sum_nil] at hhi
    omega
  | cons n ns ih =>
    intro start h i hlo hhi
    obtain ⟨h1, ⟨⟨c, hc⟩, hd⟩, h3⟩ := h
    simp only [List.sum_cons] at hhi
    by_cases hi0 : i = start
    · subst hi0
      exact ⟨_, hc, Or.inl ⟨by simp only; omega, c, rfl⟩⟩
    · by_cases hi1 : i < start + n
      · obtain ⟨d, hdd⟩ := hd i (by omega) hi1
        exact ⟨_, hdd, Or.inr ⟨rfl, d, rfl⟩⟩
      · exact ih _ h3 i (by omega) (by omega)

theorem ob_code_values_total (code_img : Int → Option MachineWordsArray) (n : Nat)
    (h : ∀ i : Nat, i < n → ∃ w, code_img (i : Int) = some w ∧
      ((0 < w.length ∧ ∃ c, w.word = .code c) ∨ (w.length = 0 ∧ ∃ d, w.word = .data d))) :
    ∃ l, ob_code_values code_img n = some l ∧ l.length = n := by
  induction n with
  | zero => exact ⟨[], rfl, rfl⟩
  | succ n ih =>
    obtain ⟨l, hl, hlen⟩ := ih (fun i hi => h i (by omega))
    obtain ⟨w, hw, hkind⟩ := h n (by omega)
    have hb : ∃ b, ob_binary_value w = some b := by
      unfold ob_binary_value
      rcases hkind with ⟨hpos, c, hc⟩ | ⟨hzero, d, hd⟩
      · simp [hpos, hc]
      · have : ¬ w.length > 0 := by omega
        simp [this, hd]
    obtain ⟨b, hb⟩ := hb
    refine ⟨l ++ [((n : Int) + 100, b)], ?_, by simp [hlen]⟩
    simp only [ob_code_values, hl, hw, Option.some_bind, hb]

theorem ob_data_values_total (data_img : Int → Option Int) (icf : Int) (n : Nat)
    (h : ∀ i : Nat, i < n → (data_img (i : Int)).isSome = true) :
    ∃ l, ob_data_values data_img icf n = some l ∧ l.length = n := by
  induction n with
  | zero => exact ⟨[], rfl, rfl⟩
  | succ n ih =>
    obtain ⟨l, hl, hlen⟩ := ih (fun i hi => h i (by omega))
    obtain ⟨v, hv⟩ := Option.isSome_iff_exists.mp (h n (by omega))
    refine ⟨l ++ [((n : Int) + 100 + icf - IC_INIT_VALUE, handle_data_value (to_int32 v))],
      ?_, by simp [hlen]⟩
    simp only [ob_data_values, hl, hv]

theorem store_characters_effect (cs : List Char) :
    ∀ st : second_pass_state,
      (store_characters cs st).dc = st.dc + (cs.length : Int) ∧
      (store_characters cs st).code = st.code ∧
      (∀ i, st.dc ≤ i → i < st.dc + (cs.length : Int) →
        ((store_characters cs st).data_img i).isSome = true) ∧
      (∀ i, (i < st.dc ∨ st.dc + (cs.length : Int) ≤ i) →
        (store_characters cs st).data_img i = st.data_img i) := by
  induction cs with
  | nil =>
    intro st
    refine ⟨by simp [store_characters], rfl, ?_, fun _ _ => rfl⟩
    intro i h1 h2
    simp only [List.length_nil, Nat.cast_zero, add_zero] at h2
    omega
  | cons c cs ih =>
    intro st
    obtain ⟨h1, h2, h3, h4⟩ := ih (store_data st (char_value c))
    have hdc : (store_data st (char_value c)).dc = st.dc + 1 := rfl
    rw [hdc] at h1 h3 h4
    simp only [store_characters, List.length_cons]
    push_cast
    refine ⟨by rw [h1]; ring, by rw [h2]; rfl, ?_, ?_⟩
    · intro i hlo hhi
      by_cases hi : i = st.dc
      · rw [h4 i (Or.inl (by omega)), hi]
        simp [store_data]
      · exact h3 i (by omega) (by omega)
    · intro i hi
      rw [h4 i (by omega)]
      have hne : i ≠ st.dc := by omega
      simp [store_data, hne]

theorem data_image_filled_grow (st st1 : second_pass_state) (k : Int) (hk : 0 ≤ k)
    (hinv : data_image_filled st) (hdc : st1.dc = st.dc + k)
    (hin : ∀ i, st.dc ≤ i → i < st.dc + k → (st1.data_img i).isSome = true)
    (hout : ∀ i, (i < st.dc ∨ st.dc + k ≤ i) → st1.data_img i = st.data_img i) :
    data_image_filled st1 := by
  obtain ⟨h0, h1, h2⟩ := hinv
  refine ⟨by omega, ?_, ?_⟩
  · intro i hlo hhi
    by_cases hi : i < st.dc
    · rw [hout i (Or.inl hi)]
      exact h1 i hlo hi
    · exact hin i (by omega) (by omega)
  · intro i hi
    rw [hout i (by omega)]
    exact h2 i (by omega)

theorem code_image_filled_grow (c c1 : code_state) (ns : List Int) (n : Int) (hn : 1 ≤ n)
    (hinv : code_image_filled c ns) (hic : c1.ic = c.ic + n)
    (hblock : instruction_block c1.code_img (c.ic - IC_INIT_VALUE) n)
    (hout : ∀ i, (i < c.ic - IC_INIT_VALUE ∨ c.ic - IC_INIT_VALUE + n ≤ i) →
      c1.code_img i = c.code_img i) :
    code_image_filled c1 (ns ++ [n]) := by
  obtain ⟨h0, h1, h2⟩ := hinv
  have hs := image_blocks_sum_nonneg _ _ _ h1
  have hstart : c.ic - IC_INIT_VALUE = 0 + ns.sum := by omega
  refine ⟨?_, ?_, ?_⟩
  · rw [hic, h0, List.sum_append, List.sum_singleton]; ring
  · apply image_blocks_append _ n hn ns 0
    · exact image_blocks_congr c.code_img c1.code_img ns 0 h1
        (fun i hlo hhi => hout i (Or.inl (by omega)))
    · rw [← hstart]; exact hblock
  · intro i hi
    rw [hout i (by omega)]
    exact h2 i (by omega)

theorem handle_data_directive_SP_filled (line : List Char) (st st1 : second_pass_state)
    (h : handle_data_directive_SP line st = .ok st1) (hinv : data_image_filled st) :
    st1.code = st.code ∧ data_image_filled st1 := by
  unfold handle_data_directive_SP at h
  obtain ⟨-, h2, h3, h4, h5⟩ := store_data_tokens_ok _ _ _ h
  refine ⟨h3, data_image_filled_grow st st1 _ (Int.natCast_nonneg _) hinv h2 ?_ h5⟩
  intro i hlo hhi
  generalize strtok_all " \t,".toList line = tokens at h4 hhi
  have hj : (i - st.dc).toNat < tokens.length := by omega
  have hget : tokens.get? (i - st.dc).toNat = some (tokens.get ⟨_, hj⟩) := List.get?_eq_get hj
  have := h4 _ _ hget
  have hi : st.dc + ((i - st.dc).toNat : Int) = i := by omega
  rw [hi] at this
  rw [this]
  rfl

theorem handle_string_directive_SP_filled (line : List Char) (st st1 : second_pass_state)
    (h : handle_string_directive_SP line st = .ok st1) (hinv : data_image_filled st) :
    st1.code = st.code ∧ data_image_filled st1 := by
  unfold handle_string_directive_SP at h
  simp only at h
  split at h
  · simp at h
  · split at h
    · simp at h
    · simp only [Except.ok.injEq] at h
      generalize List.takeWhile (fun c => !(c == '"'))
        (List.drop 1 (List.dropWhile (fun c => c == ' ' || c == '\t') line)) = cs at h
      obtain ⟨k1, k2, k3, k4⟩ := store_characters_effect cs st
      have hdc : st1.dc = st.dc + ((cs.length : Int) + 1) := by
        rw [← h]
        show (store_characters cs st).dc + 1 = _
        rw [k1]; ring
      refine ⟨by rw [← h]; exact k2, ?_⟩
      refine data_image_filled_grow st st1 ((cs.length : Int) + 1) (by omega) hinv hdc ?_ ?_
      · intro i hlo hhi
        rw [← h]
        by_cases hi : i = (store_characters cs st).dc
        · simp [store_data, hi]
        · have : (store_data (store_characters cs st) 0).data_img i
              = (store_characters cs st).data_img i := by simp [store_data, hi]
          rw [this]
          exact k3 i hlo (by omega)
      · intro i hi
        rw [← h]
        have hne : i ≠ (store_characters cs st).dc := by omega
        have : (store_data (store_characters cs st) 0).data_img i
            = (store_characters cs st).data_img i := by simp [store_data, hne]
        rw [this]
        exact k4 i (by omega)

theorem second_pass_statement_filled (u : uninit_memory) (label_array : List Label)
    (ext_entry_array : ExternEntryArray) (st st1 : second_pass_state)
    (statement : Option (List Char × List Char)) (ns : List Int)
    (hcode : code_image_filled st.code ns) (hdata : data_image_filled st) :
    (match statement with
      | none => .ok st
      | some (operation, rest) =>
        if operation = ".extern".toList ∨ operation = ".entry".toList then .ok st
        else if operation = ".data".toList then
          handle_data_directive_SP (((strtok [] rest).map (fun p => p.1)).getD []) st
        else if operation = ".string".toList then
          handle_string_directive_SP (((strtok [] rest).map (fun p => p.1)).getD []) st
        else if is_operation operation then
          match process_code u operation (((strtok [] rest).map (fun p => p.1)).getD []) st.code
              label_array ext_entry_array with
          | .error e => .error e
          | .ok code => .ok { st with code := code }
        else .error .unrecognized_operation_or_directive) = Except.ok st1 →
    ∃ ms : List Int,
      ms.length = (if (match statement with
        | some (operation, _) => is_operation operation
        | none => false) = true then 1 else 0) ∧
      code_image_filled st1.code (ns ++ ms) ∧ data_image_filled st1 := by
  intro h
  cases statement with
  | none =>
    simp only [Except.ok.injEq] at h
    subst h
    exact ⟨[], by simp, by simpa using hcode, hdata⟩
  | some p =>
    obtain ⟨operation, rest⟩ := p
    simp only at h ⊢
    by_cases h1 : operation = ".extern".toList ∨ operation = ".entry".toList
    · have hop : is_operation operation = false := by
        rcases h1 with h1 | h1 <;> (subst h1; decide)
      rw [if_pos h1] at h
      simp only [Except.ok.injEq] at h
      subst h
      exact ⟨[], by simp [hop], by simpa using hcode, hdata⟩
    · rw [if_neg h1] at h
      by_cases h2 : operation = ".data".toList
      · have hop : is_operation operation = false := by subst h2; decide
        rw [if_pos h2] at h
        obtain ⟨k1, k2⟩ := handle_data_directive_SP_filled _ st st1 h hdata
        exact ⟨[], by simp [hop], by rw [k1]; simpa using hcode, k2⟩
      · rw [if_neg h2] at h
        by_cases h3 : operation = ".string".toList
        · have hop : is_operation operation = false := by subst h3; decide
          rw [if_pos h3] at h
          obtain ⟨k1, k2⟩ := handle_string_directive_SP_filled _ st st1 h hdata
          exact ⟨[], by simp [hop], by rw [k1]; simpa using hcode, k2⟩
        · rw [if_neg h3] at h
          by_cases h4 : is_operation operation = true
          · rw [if_pos h4] at h
            split at h
            · simp at h
            · rename_i code hp
              simp only [Except.ok.injEq] at h
              subst h
              obtain ⟨n, hn1, -, hic, hblock, hout⟩ := process_code_block _ _ _ _ _ _ _ hp
              exact ⟨[n], by simp [h4],
                code_image_filled_grow st.code code ns n hn1 hcode hic hblock hout, hdata⟩
          · rw [if_neg h4] at h
            simp at h

theorem second_pass_line_filled (u : uninit_memory) (label_array : List Label)
    (ext_entry_array : ExternEntryArray) (st st1 : second_pass_state) (raw : List Char)
    (ns : List Int)
    (h : second_pass_line u label_array ext_entry_array st raw = .ok st1)
    (hcode : code_image_filled st.code ns) (hdata : data_image_filled st) :
    ∃ ms : List Int, ms.length = (if is_instruction_line raw then 1 else 0) ∧
      code_image_filled st1.code (ns ++ ms) ∧ data_image_filled st1 :=
  second_pass_statement_filled u label_array ext_entry_array st st1 _ ns hcode hdata h

theorem second_pass_lines_filled (u : uninit_memory) (label_array : List Label)
    (ext_entry_array : ExternEntryArray) (lines : List (List Char)) :
    ∀ (st st1 : second_pass_state) (ns : List Int),
      second_pass_lines u label_array ext_entry_array st lines = .ok st1 →
      code_image_filled st.code ns → data_image_filled st →
      ∃ ms : List Int, ms.length = (lines.filter is_instruction_line).length ∧
        code_image_filled st1.code (ns ++ ms) ∧ data_image_filled st1 := by
  induction lines with
  | nil =>
    intro st st1 ns h hcode hdata
    simp only [second_pass_lines, Except.ok.injEq] at h
    subst h
    exact ⟨[], by simp, by simpa using hcode, hdata⟩
  | cons raw lines ih =>
    intro st st1 ns h hcode hdata
    simp only [second_pass_lines] at h
    cases hl : second_pass_line u label_array ext_entry_array st raw with
    | error e => simp [hl] at h
    | ok sa =>
      simp only [hl] at h
      obtain ⟨ms1, hm1, hc1, hd1⟩ := second_pass_line_filled _ _ _ _ _ _ ns hl hcode hdata
      obtain ⟨ms2, hm2, hc2, hd2⟩ := ih sa st1 (ns ++ ms1) h hc1 hd1
      refine ⟨ms1 ++ ms2, ?_, by rw [← List.append_assoc]; exact hc2, hd2⟩
      rw [List.length_append, hm1, hm2, List.filter_cons]
      split
      · simp; omega
      · simp

/-! ## Claim on the layout of the images after pass two -/

/-- C11: after every successful second pass there is a list of word counts,
one for each instruction line in order, such that the code image holds the
instructions one after the other from slot 0 on: the first word of an
instruction is a slot whose length is the word count of the instruction
(at least 1) and which holds a code word, and it is followed by the
extension words of the instruction, slots of length 0 that hold a data
word. The slots 0 .. `IC - 100 - 1` are thus all occupied, each by a code
word with positive length or by a data word with length 0, and no slot at
or beyond `IC - 100` was written; the data image holds a value in each of
the slots 0 .. `DC - 1` and in no other slot; and `write_ob_file` reads
every slot through the member of the union that was written, and prints
`IC - 100 + DC` words. -/
theorem second_pass_image_layout (u : uninit_memory) (label_array : List Label)
    (ext_entry_array : ExternEntryArray) (lines : List (List Char))
    (hsuccess : (second_pass u label_array ext_entry_array lines).isOk = true) :
    ∃ (st : second_pass_state) (ns : List Int),
      second_pass u label_array ext_entry_array lines = .ok st ∧
      ns.length = (lines.filter is_instruction_line).length ∧
      st.code.ic = IC_INIT_VALUE + ns.sum ∧
      image_blocks st.code.code_img 0 ns ∧
      (∀ i, 0 ≤ i → i < st.code.ic - IC_INIT_VALUE →
        ∃ w, st.code.code_img i = some w ∧
          ((0 < w.length ∧ ∃ c, w.word = .code c) ∨ (w.length = 0 ∧ ∃ d, w.word = .data d))) ∧
      (∀ i, (i < 0 ∨ st.code.ic - IC_INIT_VALUE ≤ i) → st.code.code_img i = none) ∧
      0 ≤ st.dc ∧
      (∀ i, 0 ≤ i → i < st.dc → (st.data_img i).isSome = true) ∧
      (∀ i, (i < 0 ∨ st.dc ≤ i) → st.data_img i = none) ∧
      ∃ listing, write_ob_file st.code.code_img st.data_img st.code.ic st.dc
          = some ((st.code.ic - IC_INIT_VALUE, st.dc), listing) ∧
        listing.length = (st.code.ic - IC_INIT_VALUE).toNat + st.dc.toNat := by
  cases hsp : second_pass u label_array ext_entry_array lines with
  | error e => rw [hsp] at hsuccess; exact absurd hsuccess (by simp [Except.isOk, Except.toBool])
  | ok st =>
    have hinit_code : code_image_filled second_pass_init [] := by
      refine ⟨rfl, trivial, fun _ _ => rfl⟩
    have hinit_data : data_image_filled
        { code := second_pass_init, data_img := fun _ => none, dc := 0 } := by
      refine ⟨le_refl _, ?_, fun _ _ => rfl⟩
      intro i h1 h2
      have h3 : i < 0 := h2
      omega
    obtain ⟨ns, hlen, hcode, hdata⟩ := second_pass_lines_filled u label_array ext_entry_array
      lines _ st [] hsp hinit_code hinit_data
    simp only [List.nil_append] at hcode
    obtain ⟨c1, c2, c3⟩ := hcode
    obtain ⟨d1, d2, d3⟩ := hdata
    have hslot : ∀ i, 0 ≤ i → i < st.code.ic - IC_INIT_VALUE →
        ∃ w, st.code.code_img i = some w ∧
          ((0 < w.length ∧ ∃ c, w.word = .code c) ∨ (w.length = 0 ∧ ∃ d, w.word = .data d)) := by
      intro i hlo hhi
      exact image_blocks_slot _ ns 0 c2 i hlo (by omega)
    refine ⟨st, ns, rfl, hlen, c1, c2, hslot, c3, d1, d2, d3, ?_⟩
    obtain ⟨lc, hlc, hlcl⟩ := ob_code_values_total st.code.code_img
      (st.code.ic - IC_INIT_VALUE).toNat (fun i hi => hslot i (by omega) (by omega))
    obtain ⟨ld, hld, hldl⟩ := ob_data_values_total st.data_img st.code.ic st.dc.toNat
      (fun i hi => d2 i (by omega) (by omega))
    refine ⟨(lc ++ ld).map (fun p => (p.1, convert_binary_to_octal p.2)), ?_, ?_⟩
    · simp only [write_ob_file, ob_values, hlc, hld, Option.map_some']
    · simp [hlcl, hldl]

theorem second_pass_image_layout_witness :
    ∃ (st : second_pass_state) (ns : List Int),
      second_pass sample_memory [⟨"MAIN".toList, 100⟩, ⟨"LIST".toList, 104⟩] ⟨[], []⟩
        ["MAIN: mov r3, LIST".toList, "stop".toList, "LIST: .data 6, -9".toList] = .ok st ∧
      ns.length = (["MAIN: mov r3, LIST".toList, "stop".toList,
        "LIST: .data 6, -9".toList].filter is_instruction_line).length ∧
      st.code.ic = IC_INIT_VALUE + ns.sum ∧
      image_blocks st.code.code_img 0 ns ∧
      (∀ i, 0 ≤ i → i < st.code.ic - IC_INIT_VALUE →
        ∃ w, st.code.code_img i = some w ∧
          ((0 < w.length ∧ ∃ c, w.word = .code c) ∨ (w.length = 0 ∧ ∃ d, w.word = .data d))) ∧
      (∀ i, (i < 0 ∨ st.code.ic - IC_INIT_VALUE ≤ i) → st.code.code_img i = none) ∧
      0 ≤ st.dc ∧
      (∀ i, 0 ≤ i → i < st.dc → (st.data_img i).isSome = true) ∧
      (∀ i, (i < 0 ∨ st.dc ≤ i) → st.data_img i = none) ∧
      ∃ listing, write_ob_file st.code.code_img st.data_img st.code.ic st.dc
          = some ((st.code.ic - IC_INIT_VALUE, st.dc), listing) ∧
        listing.length = (st.code.ic - IC_INIT_VALUE).toNat + st.dc.toNat :=
  second_pass_image_layout sample_memory [⟨"MAIN".toList, 100⟩, ⟨"LIST".toList, 104⟩] ⟨[], []⟩
    ["MAIN: mov r3, LIST".toList, "stop".toList, "LIST: .data 6, -9".toList] (by decide)

/-! ## Claim on two commas in a row -/

theorem validate_commas_loop_skip (is_data : Bool) (rest : List Char) (pre : List Char) :
    ∀ (e : Bool) (p : Char), '"' ∉ pre →
      validate_commas_loop is_data (pre ++ rest) e p false = false ∨
      ∃ (e1 : Bool) (p1 : Char),
        validate_commas_loop is_data (pre ++ rest) e p false =
          validate_commas_loop is_data rest e1 p1 false := by
  induction pre with
  | nil => intro e p _; exact Or.inr ⟨e, p, rfl⟩
  | cons c cs ih =>
    intro e p hq
    have hc : c ≠ '"' := fun h => hq (by simp [h])
    have hcs : '"' ∉ cs := fun h => hq (List.mem_cons_of_mem _ h)
    simp only [List.cons_append, validate_commas_loop]
    cases is_data
    · simp only [Bool.false_eq_true, if_false, and_true, hc]
      split
      · split
        · exact Or.inl rfl
        · exact ih _ _ hcs
      · split
        · exact ih _ _ hcs
        · exact ih _ _ hcs
    · simp only [if_true]
      split
      · split
        · exact Or.inl rfl
        · exact ih _ _ hcs
      · split
        · exact ih _ _ hcs
        · exact ih _ _ hcs

theorem validate_commas_loop_blanks (is_data : Bool) (rest : List Char) (blanks : List Char)
    (hb : ∀ c ∈ blanks, c = ' ' ∨ c = '\t') :
    ∀ (p : Char), ∃ p1 : Char,
      validate_commas_loop is_data (blanks ++ rest) true p false =
        validate_commas_loop is_data rest true p1 false := by
  induction blanks with
  | nil => intro p; exact ⟨p, rfl⟩
  | cons c cs ih =>
    intro p
    have hc := hb c (by simp)
    have hcs : ∀ c ∈ cs, c = ' ' ∨ c = '\t' := fun x hx => hb x (List.mem_cons_of_mem _ hx)
    have h1 : c ≠ ',' := by rcases hc with h | h <;> (rw [h]; decide)
    have h2 : c ≠ '"' := by rcases hc with h | h <;> (rw [h]; decide)
    have h3 : ¬ (c ≠ ' ' ∧ c ≠ '\t') := by
      rintro ⟨a, b⟩
      rcases hc with h | h
      · exact a h
      · exact b h
    simp only [List.cons_append, validate_commas_loop]
    cases is_data
    · simp only [Bool.false_eq_true, if_false, h1, false_and, h2, true_and, h3]
      exact ih hcs c
    · simp only [if_true, h1, if_false, h3]
      exact ih hcs c

/-- C30: for every line that holds no double quote and holds two commas
with nothing but blanks or tabs between them, `validate_commas` returns
false, with `is_data` true and with `is_data` false. -/
theorem validate_commas_two_commas (pre blanks post : List Char) (is_data : Bool)
    (hquote : '"' ∉ pre ++ ',' :: (blanks ++ ',' :: post))
    (hblanks : ∀ c ∈ blanks, c = ' ' ∨ c = '\t') :
    validate_commas (pre ++ ',' :: (blanks ++ ',' :: post)) is_data = false := by
  unfold validate_commas
  have hpre : '"' ∉ pre := fun h => hquote (List.mem_append_left _ h)
  rcases validate_commas_loop_skip is_data (',' :: (blanks ++ ',' :: post)) pre true '\x00' hpre
    with h | ⟨e, p, h⟩
  · exact h
  · rw [h]
    simp only [validate_commas_loop]
    have hstep : ∀ p1 : Char,
        validate_commas_loop is_data (blanks ++ ',' :: post) true p1 false = false := by
      intro p1
      obtain ⟨p2, h2⟩ := validate_commas_loop_blanks is_data (',' :: post) blanks hblanks p1
      rw [h2]
      simp only [validate_commas_loop]
      cases is_data <;> simp
    cases is_data
    · simp only [Bool.false_eq_true, if_false, and_self, if_true]
      split
      · rfl
      · exact hstep _
    · simp only [if_true]
      split
      · rfl
      · exact hstep _

theorem validate_commas_two_commas_witness :
    validate_commas ("mov r1".toList ++ ',' :: (" \t".toList ++ ',' :: " r2".toList)) false = false :=
  validate_commas_two_commas "mov r1".toList " \t".toList " r2".toList false (by decide)
    (by decide)

/-! ## Claim on the first word of an instruction -/

/-- C28: for each of the sixteen opcodes `create_code_word` sets the opcode
field to the opcode and `ARE` to 4; for the two-operand opcodes (0..4) the
source field is the addressing type of the first operand and the
destination field that of the second; for the one-operand opcodes (5..13)
the destination field is the addressing type of the operand and the source
field is 0; for `rts` and `stop` both fields are 0. A field holds the four
low bits of the addressing type, which is its value 1, 2, 4 or 8 for an
operand that has one. -/
theorem create_code_word_fields (curr_opcode : opcode) (op_count : Int)
    (operand0 operand1 : Option (List Char)) (hop : curr_opcode ≠ .NONE_OP) :
    ((create_code_word curr_opcode op_count operand0 operand1).opcode : Int) = curr_opcode.toInt ∧
    (create_code_word curr_opcode op_count operand0 operand1).ARE = 4 ∧
    (0 ≤ curr_opcode.toInt ∧ curr_opcode.toInt ≤ 4 →
      (create_code_word curr_opcode op_count operand0 operand1).src_address
          = bitfield 4 (operand_mode operand0).toInt ∧
        (create_code_word curr_opcode op_count operand0 operand1).dest_address
          = bitfield 4 (operand_mode operand1).toInt) ∧
    (5 ≤ curr_opcode.toInt ∧ curr_opcode.toInt ≤ 13 →
      (create_code_word curr_opcode op_count operand0 operand1).src_address = 0 ∧
        (create_code_word curr_opcode op_count operand0 operand1).dest_address
          = bitfield 4 (operand_mode operand0).toInt) ∧
    (14 ≤ curr_opcode.toInt →
      (create_code_word curr_opcode op_count operand0 operand1).src_address = 0 ∧
        (create_code_word curr_opcode op_count operand0 operand1).dest_address = 0) ∧
    (∀ a : addressing_type, a ≠ .NONE_ADDR → ((bitfield 4 a.toInt : Nat) : Int) = a.toInt) := by
  refine ⟨?_, ?_, ?_, ?_, ?_, ?_⟩
  · cases curr_opcode <;> first | exact absurd rfl hop | rfl
  · cases curr_opcode <;> first | exact absurd rfl hop | rfl
  · intro h
    cases curr_opcode <;> first
      | exact absurd rfl hop
      | exact ⟨rfl, rfl⟩
      | (exfalso; revert h; decide)
  · intro h
    cases curr_opcode <;> first
      | exact absurd rfl hop
      | exact ⟨rfl, rfl⟩
      | (exfalso; revert h; decide)
  · intro h
    cases curr_opcode <;> first
      | exact absurd rfl hop
      | exact ⟨rfl, rfl⟩
      | (exfalso; revert h; decide)
  · intro a ha
    cases a <;> first | exact absurd rfl ha | decide

theorem create_code_word_fields_witness :
    ((create_code_word .LEA_OP 2 (some "LIST".toList) (some "r6".toList)).opcode : Int)
      = opcode.LEA_OP.toInt ∧
    (create_code_word .LEA_OP 2 (some "LIST".toList) (some "r6".toList)).ARE = 4 ∧
    (0 ≤ opcode.LEA_OP.toInt ∧ opcode.LEA_OP.toInt ≤ 4 →
      (create_code_word .LEA_OP 2 (some "LIST".toList) (some "r6".toList)).src_address
          = bitfield 4 (operand_mode (some "LIST".toList)).toInt ∧
        (create_code_word .LEA_OP 2 (some "LIST".toList) (some "r6".toList)).dest_address
          = bitfield 4 (operand_mode (some "r6".toList)).toInt) :=
  ⟨(create_code_word_fields .LEA_OP 2 (some "LIST".toList) (some "r6".toList) (by decide)).1,
    (create_code_word_fields .LEA_OP 2 (some "LIST".toList) (some "r6".toList) (by decide)).2.1,
    (create_code_word_fields .LEA_OP 2 (some "LIST".toList) (some "r6".toList)
      (by decide)).2.2.1⟩

/-! ## Claim on a label before `.entry` or `.extern` -/

theorem labelled_line_parts (raw label : List Char) (hname : line_label raw = some label) :
    is_blank_line raw = false ∧
    ∃ token rest0, strtok " \t".toList (line_text raw) = some (token, rest0) ∧
      token.contains ':' = true ∧ label = token.takeWhile (fun c => !(c == ':')) ∧
      line_statement raw = strtok " \t".toList rest0 := by
  unfold line_label at hname
  unfold line_statement
  by_cases hb : is_blank_line raw = true
  · rw [if_pos hb] at hname
    exact absurd hname (by simp)
  · rw [if_neg hb] at hname
    rw [if_neg hb]
    refine ⟨by simpa using hb, ?_⟩
    cases hs : strtok " \t".toList (line_text raw) with
    | none =>
      rw [hs] at hname
      exact absurd hname (by simp)
    | some p =>
      obtain ⟨token, rest0⟩ := p
      rw [hs] at hname
      simp only at hname
      by_cases hc : token.contains ':' = true
      · rw [if_pos hc] at hname
        refine ⟨token, rest0, rfl, hc, (Option.some.inj hname).symm, ?_⟩
        simp only [hc, if_true]
      · rw [if_neg hc] at hname
        exact absurd hname (by simp)

/-- C29, the claim as stated fails: the line `X: .entry Y` records the label
`X` in the label table, and when `X` is already defined the line
`X: .extern Y` ends pass one with the duplicate-label error. -/
theorem label_before_entry_is_recorded :
    first_pass ["X: .entry Y".toList] =
      .ok { label_array := [⟨"X".toList, 100⟩], ext_entry_array := ⟨[], [⟨"Y".toList, 100⟩]⟩,
            line_counter := 100, user_line_counter := 2 } ∧
    first_pass ["X: stop".toList, "X: .extern Y".toList] = .error .duplicate_label := by
  decide

/-- C29, amended: a line `<label>: .entry <names>` or
`<label>: .extern <names>` is processed by pass one like any other labelled
line: when the label is valid and not yet defined (and the names fit the
table, the counter being within the memory limit) no error is raised, the
label is appended to the label table with the current value of the
counter, the names are added to the entry or extern table, and the counter
is not advanced. -/
theorem label_before_directive_recorded (st : first_pass_state)
    (raw label directive rest : List Char) (tables : ExternEntryArray)
    (hlen : raw.length ≤ MAX_LINE_LENGTH)
    (hcommas : validate_commas (line_text raw) (strstr_found (line_text raw) ".data".toList) = true)
    (hname : line_label raw = some label)
    (hstatement : line_statement raw = some (directive, rest))
    (hdirective : directive = ".entry".toList ∨ directive = ".extern".toList)
    (hvalid : is_valid_label label = true)
    (hnew : is_unique_label st.label_array label = true)
    (hcounter : st.line_counter ≤ CODE_ARR_IMG_LENGTH)
    (htables : handle_extern_entry_directive directive rest st.ext_entry_array st.line_counter
      = .ok tables) :
    first_pass_line st raw =
      .ok { label_array := st.label_array ++
              [{ label := label.take MAX_LABEL_LENGTH, line_number := st.line_counter }]
            ext_entry_array := tables
            line_counter := st.line_counter
            user_line_counter := st.user_line_counter + 1 } := by
  obtain ⟨hb, token, rest0, hs, hc, hlabel, hst⟩ := labelled_line_parts raw label hname
  rw [hstatement] at hst
  unfold first_pass_line
  have hlen2 : ¬ raw.length > MAX_LINE_LENGTH := by omega
  have hb2 : ¬ ((line_text raw).length = 0 ∨
      ((line_text raw).takeWhile (fun c => c == ' ' || c == '\t')).length
        = (line_text raw).length) := by
    intro h
    have : is_blank_line raw = true := by
      unfold is_blank_line
      simpa using h
    rw [hb] at this
    exact absurd this (by simp)
  unfold line_text at hb2 hcommas hs
  simp only [hlen2, if_false, hb2, hcommas, Bool.not_true, Bool.false_eq_true, hs, hc, if_true,
    ← hlabel, hvalid]
  have hadd : add_label st.label_array label st.line_counter =
      .ok (st.label_array ++
        [{ label := label.take MAX_LABEL_LENGTH, line_number := st.line_counter }]) := by
    unfold add_label
    simp [hnew]
  simp only [hadd, ← hst]
  unfold first_pass_statement
  simp only
  have hop : is_operation directive = false := by
    rcases hdirective with h | h <;> (subst h; decide)
  have hd1 : directive ≠ ".data".toList := by
    rcases hdirective with h | h <;> (subst h; decide)
  have hd2 : directive ≠ ".string".toList := by
    rcases hdirective with h | h <;> (subst h; decide)
  have hd3 : directive = ".extern".toList ∨ directive = ".entry".toList := hdirective.symm
  unfold first_pass_dispatch
  simp only [hop, Bool.false_eq_true, if_false, hd1, hd2, hd3, if_true, htables]
  have : ¬ st.line_counter > CODE_ARR_IMG_LENGTH := by omega
  simp only [this, if_false]

theorem label_before_directive_recorded_witness :
    first_pass_line first_pass_init "X: .entry Y".toList =
      .ok { label_array := [] ++
              [{ label := "X".toList.take MAX_LABEL_LENGTH, line_number := first_pass_init.line_counter }]
            ext_entry_array := ⟨[], [⟨"Y".toList, 100⟩]⟩
            line_counter := first_pass_init.line_counter
            user_line_counter := first_pass_init.user_line_counter + 1 } :=
  label_before_directive_recorded first_pass_init "X: .entry Y".toList "X".toList
    ".entry".toList "Y".toList ⟨[], [⟨"Y".toList, 100⟩]⟩ (by decide) (by decide) (by decide)
    (by decide) (by decide) (by decide) (by decide) (by decide) (by decide)

/-! ## Claim on the names of `.entry` and `.extern` -/

/-- C26, the code at the failing input: for the line `.extern A, B` pass one
stores the names `A,` (with the comma) and `B`, and for `.entry A, B` the
names `A,` and `B`; no counter is advanced. A later reference to `A` is
then not resolved as an extern: the second pass of `.extern A, B`, `jmp A`
fails. -/
theorem extern_list_keeps_comma :
    first_pass [".extern A, B".toList] =
      .ok { label_array := [], ext_entry_array := ⟨[⟨"A,".toList, 100⟩, ⟨"B".toList, 100⟩], []⟩,
            line_counter := 100, user_line_counter := 2 } ∧
    first_pass [".entry A, B".toList] =
      .ok { label_array := [], ext_entry_array := ⟨[], [⟨"A,".toList, 100⟩, ⟨"B".toList, 100⟩]⟩,
            line_counter := 100, user_line_counter := 2 } ∧
    (process_file sample_memory [".extern A, B".toList, "jmp A".toList]).map (fun out => out.ent)
      = .error .label_not_initialized ∧
    (process_file sample_memory [".extern A B".toList, "jmp A".toList]).map (fun out => out.ext)
      = .ok (some [("A".toList, 101)]) := by
  decide

/-! ## Claim on the extension word of a single register operand -/

theorem register_words_r1_to_r7 (n : Nat) (hn : n ∈ [1, 2, 3, 4, 5, 6, 7]) :
    (process_code sample_memory "mov".toList (' ' :: register_text n ++ ", #5".toList)
        second_pass_init [] ⟨[], []⟩).map (fun st => (st.ic, st.code_img 1, st.code_img 2))
      = .ok (103, some { length := 0, word := .data { ARE := 4, data := n * 8 } },
          some { length := 0, word := .data { ARE := 4, data := 5 } }) ∧
    (process_code sample_memory "mov".toList (" #5, ".toList ++ register_text n)
        second_pass_init [] ⟨[], []⟩).map (fun st => (st.ic, st.code_img 1, st.code_img 2))
      = .ok (103, some { length := 0, word := .data { ARE := 4, data := 5 } },
          some { length := 0, word := .data { ARE := 4, data := n } }) ∧
    (process_code sample_memory "clr".toList (' ' :: register_text n)
        second_pass_init [] ⟨[], []⟩).map (fun st => (st.ic, st.code_img 1))
      = .ok (102, some { length := 0, word := .data { ARE := 4, data := n } }) ∧
    (process_code sample_memory "jmp".toList (' ' :: '*' :: register_text n)
        second_pass_init [] ⟨[], []⟩).map (fun st => (st.ic, st.code_img 1))
      = .ok (102, some { length := 0, word := .data { ARE := 4, data := n } }) := by
  simp only [List.mem_cons, List.mem_singleton, List.not_mem_nil, or_false] at hn
  rcases hn with h | h | h | h | h | h | h <;> (subst h; decide)

/-- C27, the code at the failing input: when the only register operand of
an instruction is `r0`, `handle_register_address_word` is called with both
numbers 0 and assigns nothing to the payload of the word it allocated; the
extension word of `r0` in `mov r0, #5`, `mov #5, r0` and `clr r0` holds
whatever the allocated memory held (`u.data_word.data`) instead of 0, and
with memory that held 999 the object listing shows 7996 for the word and
not 4. -/
theorem register_r0_word_uninitialized (u : uninit_memory) :
    (process_code u "mov".toList " r0, #5".toList second_pass_init [] ⟨[], []⟩).map
        (fun st => (st.ic, st.code_img 1))
      = .ok (103, some { length := 0, word := .data { ARE := 4, data := u.data_word.data } }) ∧
    (process_code u "mov".toList " #5, r0".toList second_pass_init [] ⟨[], []⟩).map
        (fun st => (st.ic, st.code_img 2))
      = .ok (103, some { length := 0, word := .data { ARE := 4, data := u.data_word.data } }) ∧
    (process_code u "clr".toList " r0".toList second_pass_init [] ⟨[], []⟩).map
        (fun st => (st.ic, st.code_img 1))
      = .ok (102, some { length := 0, word := .data { ARE := 4, data := u.data_word.data } }) ∧
    (assemble_values sample_memory ["clr r0".toList]).map (fun r => r.2)
      = some [(100, 10308), (101, 7996)] := by
  refine ⟨rfl, rfl, rfl, by decide⟩

/-! ## Claims on the `.string` directive in the two passes -/

theorem takeWhile_append_stop {α : Type} (p : α → Bool) (s : List α) (x : α) (r : List α)
    (hs : ∀ c ∈ s, p c = true) (hx : p x = false) : (s ++ x :: r).takeWhile p = s := by
  induction s with
  | nil => simp [List.takeWhile_cons, hx]
  | cons c cs ih =>
    simp only [List.cons_append, List.takeWhile_cons, hs c (by simp), if_true]
    rw [ih (fun d hd => hs d (List.mem_cons_of_mem _ hd))]

theorem dropWhile_append_stop {α : Type} (p : α → Bool) (s : List α) (x : α) (r : List α)
    (hs : ∀ c ∈ s, p c = true) (hx : p x = false) : (s ++ x :: r).dropWhile p = x :: r := by
  induction s with
  | nil => simp [List.dropWhile_cons, hx]
  | cons c cs ih =>
    simp only [List.cons_append, List.dropWhile_cons, hs c (by simp), if_true]
    exact ih (fun d hd => hs d (List.mem_cons_of_mem _ hd))

/-- For a character of the 7-bit set the value stored for it is its code;
for a byte of 128 or more it is the code minus 256. -/
theorem char_value_cases (c : Char) :
    (c.toNat < 128 → char_value c = (c.toNat : Int)) ∧
    (128 ≤ c.toNat → c.toNat < 256 → char_value c = (c.toNat : Int) - 256) := by
  unfold char_value
  constructor
  · intro h
    omega
  · intro h1 h2
    omega

theorem store_characters_values (cs : List Char) :
    ∀ st : second_pass_state,
      ∀ (j : Nat) (c : Char), cs.get? j = some c →
        (store_characters cs st).data_img (st.dc + (j : Int)) = some (char_value c) := by
  induction cs with
  | nil => intro st j c h; simp at h
  | cons x xs ih =>
    intro st j c h
    simp only [store_characters]
    have hdc : (store_data st (char_value x)).dc = st.dc + 1 := rfl
    cases j with
    | zero =>
      simp only [List.get?_cons_zero, Option.some.injEq] at h
      subst h
      obtain ⟨-, -, -, h4⟩ := store_characters_effect xs (store_data st (char_value x))
      rw [h4 _ (Or.inl (by rw [hdc]; simp))]
      simp [store_data]
    | succ j =>
      simp only [List.get?_cons_succ] at h
      have := ih (store_data st (char_value x)) j c h
      rw [hdc] at this
      rw [← this]
      congr 1
      push_cast
      ring

theorem skip_trailing_blanks_quote (line : List Char) (e : Nat) (h : char_at line e = '"') :
    skip_trailing_blanks line e = e := by
  cases e with
  | zero => rfl
  | succ e =>
    simp only [skip_trailing_blanks, h]
    have h1 : ('"' : Char) ≠ ' ' := by decide
    have h2 : ('"' : Char) ≠ '\t' := by decide
    simp [h1, h2]

theorem char_at_quoted_last (s : List Char) :
    char_at ('"' :: (s ++ ['"'])) (s.length + 1) = '"' := by
  unfold char_at
  rw [List.getD_cons_succ, List.getD_eq_getElem _ _ (by simp)]
  simp

theorem string_directive_handlers (s : List Char) (hquote : '"' ∉ s) (line_counter : Int)
    (st : second_pass_state) :
    handle_string_directive ('"' :: (s ++ ['"'])) line_counter
      = .ok (line_counter + (s.length : Int) + 1) ∧
    ∃ st1, handle_string_directive_SP ('"' :: (s ++ ['"'])) st = .ok st1 ∧
      st1.dc = st.dc + (s.length : Int) + 1 ∧
      (∀ (j : Nat) (c : Char), s.get? j = some c →
        st1.data_img (st.dc + (j : Int)) = some (char_value c)) ∧
      st1.data_img (st.dc + (s.length : Int)) = some 0 ∧
      (∀ i, (i < st.dc ∨ st.dc + (s.length : Int) + 1 ≤ i) → st1.data_img i = st.data_img i) ∧
      st1.code = st.code := by
  have hstrip : List.dropWhile (fun c => c == ' ' || c == '\t') ('"' :: (s ++ ['"']))
      = '"' :: (s ++ ['"']) := by
    rw [List.dropWhile_cons]
    simp
  have h0 : char_at ('"' :: (s ++ ['"'])) 0 = '"' := rfl
  constructor
  · unfold handle_string_directive
    simp only [hstrip, h0, ne_eq, not_true_eq_false, if_false]
    have hlen : ('"' :: (s ++ ['"'])).length - 1 = s.length + 1 := by simp
    rw [hlen, skip_trailing_blanks_quote _ _ (char_at_quoted_last s)]
    simp only [char_at_quoted_last, not_true_eq_false, if_false, Nat.add_sub_cancel]
  · have htake : List.takeWhile (fun c => !(c == '"')) (s ++ ['"']) = s :=
      takeWhile_append_stop _ s '"' [] (fun c hc => by
        have : c ≠ '"' := fun h => hquote (h ▸ hc)
        simpa using this) (by simp)
    have hcontains : (s ++ ['"']).contains '"' = true := by simp
    obtain ⟨k1, k2, k3, k4⟩ := store_characters_effect s st
    refine ⟨store_data (store_characters s st) 0, ?_, ?_, ?_, ?_, ?_, ?_⟩
    · unfold handle_string_directive_SP
      simp only [hstrip, h0, ne_eq, not_true_eq_false, if_false, List.drop_one, List.tail_cons,
        hcontains, Bool.not_true, Bool.false_eq_true, htake]
    · show (store_characters s st).dc + 1 = _
      rw [k1]
    · intro j c hj
      have hlt : j < s.length := by
        rcases Nat.lt_or_ge j s.length with h | h
        · exact h
        · rw [List.get?_eq_none.mpr h] at hj; exact absurd hj (by simp)
      have hne : st.dc + (j : Int) ≠ (store_characters s st).dc := by rw [k1]; omega
      have : (store_data (store_characters s st) 0).data_img (st.dc + (j : Int))
          = (store_characters s st).data_img (st.dc + (j : Int)) := by simp [store_data, hne]
      rw [this]
      exact store_characters_values s st j c hj
    · rw [← k1]
      simp [store_data]
    · intro i hi
      have hne : i ≠ (store_characters s st).dc := by rw [k1]; omega
      have : (store_data (store_characters s st) 0).data_img i
          = (store_characters s st).data_img i := by simp [store_data, hne]
      rw [this]
      exact k4 i (by omega)
    · show (store_characters s st).code = _
      exact k2

/-- C21, the code at the failing input: the literal `.data,,` holds no
double quote, but since the line `.string ".data,,"` holds the text
`.data`, `first_pass` validates its commas as those of a `.data` directive,
where a string literal is not skipped, and ends with the invalid-comma
error instead of advancing the counter by 8. Pass two on the same line
stores the 8 words; and a literal with two commas that does not hold
`.data` is accepted by pass one. -/
theorem string_literal_with_data_rejected :
    '"' ∉ ".data,,".toList ∧
    first_pass [".string \".data,,\"".toList] = .error .invalid_comma ∧
    (second_pass sample_memory [] ⟨[], []⟩ [".string \".data,,\"".toList]).map (fun st => st.dc)
      = .ok 8 ∧
    (first_pass [".string \"a,,b\"".toList]).map (fun st => st.line_counter) = .ok 105 ∧
    (first_pass [".string \"ab\"".toList]).map (fun st => st.line_counter) = .ok 103 ∧
    (second_pass sample_memory [] ⟨[], []⟩ [".string \"ab\"".toList]).map
        (fun st => (st.dc, st.data_img 0, st.data_img 1, st.data_img 2))
      = .ok (3, some 97, some 98, some 0) := by
  decide

/-- C22, the code at the failing inputs: pass one counts the characters up
to the last double quote of the text, pass two stores the characters up to
the first double quote after the opening one. For the text `"a"b"` pass one
counts 4 words and pass two stores 2; the text that holds only an opening
quote is accepted by pass one, which counts 1 word, and rejected by pass
two. A label after such a line gets an address that pass two does not
reach. -/
theorem string_quote_handling_differs :
    handle_string_directive "\"a\"b\"".toList 100 = .ok 104 ∧
    (handle_string_directive_SP "\"a\"b\"".toList
        { code := second_pass_init, data_img := fun _ => none, dc := 0 }).map
        (fun st => (st.dc, st.data_img 0, st.data_img 1, st.data_img 2))
      = .ok (2, some 97, some 0, none) ∧
    handle_string_directive "\"".toList 100 = .ok 101 ∧
    (handle_string_directive_SP "\"".toList
        { code := second_pass_init, data_img := fun _ => none, dc := 0 }).map (fun st => st.dc)
      = .error .missing_closing_quote ∧
    (first_pass ["S: .string \"a\"b\"".toList, "E: stop".toList]).map (fun st => st.label_array)
      = .ok [⟨"S".toList, 100⟩, ⟨"E".toList, 104⟩] ∧
    (second_pass sample_memory [⟨"S".toList, 100⟩, ⟨"E".toList, 104⟩] ⟨[], []⟩
        ["S: .string \"a\"b\"".toList, "E: stop".toList]).map (fun st => (st.code.ic, st.dc))
      = .ok (101, 2) := by
  decide

/-! ## Helper lemmas on the preprocessor -/

theorem dropWhile_append_head {α : Type} (p : α → Bool) (g : List α) (x : α) (r : List α)
    (hx : p x = false) : (g ++ x :: r).dropWhile p = g.dropWhile p ++ x :: r := by
  induction g with
  | nil => simp [List.dropWhile_cons, hx]
  | cons c cs ih =>
    simp only [List.cons_append, List.dropWhile_cons]
    split
    · exact ih
    · rfl

theorem sscanf_word_of_word (gap name rest : List Char)
    (hgap : ∀ c ∈ gap, isspace c = true) (hne : name ≠ [])
    (hname : ∀ c ∈ name, isspace c = false)
    (hrest : rest = [] ∨ ∃ c r, rest = c :: r ∧ isspace c = true) :
    sscanf_word (gap ++ (name ++ rest)) = some name := by
  obtain ⟨x, xs, rfl⟩ := List.exists_cons_of_ne_nil hne
  have hx : isspace x = false := hname x (by simp)
  have hdrop : (gap ++ (x :: xs ++ rest)).dropWhile isspace = x :: xs ++ rest := by
    rw [List.cons_append]
    exact dropWhile_append_stop isspace gap x (xs ++ rest) hgap hx
  have htake : (x :: xs ++ rest).takeWhile (fun c => !isspace c) = x :: xs := by
    rcases hrest with h | ⟨c, r, h, hc⟩
    · subst h
      rw [List.append_nil, List.takeWhile_eq_self_iff]
      intro c hc
      simp [hname c hc]
    · subst h
      exact takeWhile_append_stop _ (x :: xs) c r (fun d hd => by simp [hname d hd])
        (by simp [hc])
  unfold sscanf_word
  rw [hdrop]
  simp only [List.cons_append]
  rw [← List.cons_append, htake]

theorem preprocess_lines_append (pre : List (List Char)) :
    ∀ (st : preprocess_state) (post : List (List Char)),
      preprocess_lines st (pre ++ post) =
        match preprocess_lines st pre with
        | .error e => .error e
        | .ok st1 => preprocess_lines st1 post := by
  induction pre with
  | nil => intro st post; rfl
  | cons l ls ih =>
    intro st post
    simp only [List.cons_append, preprocess_lines]
    cases preprocess_line st l with
    | error e => rfl
    | ok st1 => exact ih st1 post

theorem is_valid_macro_name_iff (name : List Char) :
    is_valid_macro_name name = false ↔ name ∈ reserved_names := by
  have hlist : reserved_names = invalid_names := by decide
  rw [hlist]
  unfold is_valid_macro_name
  simp only [Bool.not_eq_false', List.any_eq_true, decide_eq_true_eq]
  constructor
  · rintro ⟨n, hn, rfl⟩
    exact hn
  · intro h
    exact ⟨name, h, rfl⟩

theorem reserved_names_words :
    ∀ n ∈ reserved_names, n ≠ [] ∧ ∀ c ∈ n, isspace c = false := by
  decide

/-! ## Claim on the names a macro may not have -/

/-- C23: `is_valid_macro_name` is false exactly on the sixteen mnemonics and
the register names `r0` .. `r7`; and on every line `macr <name>` whose name
is one of these 24 words (after any indentation, with any white space
before the name and white space or nothing after it) the loop body of
`preprocess_file` ends with the invalid-name error, whatever the state, so
that `preprocess_file` returns false as soon as it reaches such a line and
processes no later line. -/
theorem invalid_macro_name_rejected (name indent gap rest : List Char)
    (hname : name ∈ reserved_names)
    (hindent : ∀ c ∈ indent, c = ' ' ∨ c = '\t')
    (hgap : ∀ c ∈ gap, isspace c = true)
    (hrest : rest = [] ∨ ∃ c r, rest = c :: r ∧ isspace c = true) :
    (∀ n : List Char, is_valid_macro_name n = false ↔ n ∈ operations ∨ n ∈ register_names) ∧
    (∀ st : preprocess_state,
      preprocess_line st (indent ++ ("macr ".toList ++ (gap ++ (name ++ rest))))
        = .error .invalid_macro_name) ∧
    (∀ (u : preprocess_uninit) (input : List Char) (pre post : List (List Char))
      (st1 : preprocess_state),
      read_lines MAX_LINE_LENGTH input
        = pre ++ (indent ++ ("macr ".toList ++ (gap ++ (name ++ rest)))) :: post →
      preprocess_lines (preprocess_init u) pre = .ok st1 →
      preprocess_file u input = .error .invalid_macro_name) := by
  have hline : ∀ st : preprocess_state,
      preprocess_line st (indent ++ ("macr ".toList ++ (gap ++ (name ++ rest))))
        = .error .invalid_macro_name := by
    intro st
    obtain ⟨hne, hchars⟩ := reserved_names_words name hname
    have hm : (fun c : Char => c == ' ' || c == '\t') 'm' = false := by decide
    have hstart : (indent ++ ("macr ".toList ++ (gap ++ (name ++ rest)))).dropWhile
        (fun c => c == ' ' || c == '\t') = "macr ".toList ++ (gap ++ (name ++ rest)) :=
      dropWhile_append_stop _ indent 'm' _
        (fun c hc => by rcases hindent c hc with h | h <;> simp [h]) hm
    have hfirst : char_at (indent ++ ("macr ".toList ++ (gap ++ (name ++ rest)))) 0 ≠ ';' := by
      cases indent with
      | nil => simp [char_at]
      | cons c cs =>
        have : c = ' ' ∨ c = '\t' := hindent c (by simp)
        rcases this with h | h <;> (subst h; simp [char_at])
    obtain ⟨x, xs, hx⟩ := List.exists_cons_of_ne_nil hne
    have hxs : (fun c : Char => c == ' ') x = false := by
      have := hchars x (by rw [hx]; simp)
      have hne2 : x ≠ ' ' := by
        intro h
        rw [h] at this
        revert this
        decide
      simpa using hne2
    have hcheck : (gap ++ (name ++ rest)).dropWhile (fun c => c == ' ')
        = gap.dropWhile (fun c => c == ' ') ++ (name ++ rest) := by
      rw [hx, List.cons_append]
      exact dropWhile_append_head _ gap x (xs ++ rest) hxs
    have hword : sscanf_word ((gap ++ (name ++ rest)).dropWhile (fun c => c == ' '))
        = some name := by
      rw [hcheck]
      exact sscanf_word_of_word _ name rest
        (fun c hc => hgap c ((List.dropWhile_sublist _).subset hc)) hne hchars hrest
    have hinvalid : is_valid_macro_name name = false := (is_valid_macro_name_iff name).mpr hname
    unfold preprocess_line
    simp only [hfirst, if_false, hstart]
    have hstarts : "macr ".toList.isPrefixOf ("macr ".toList ++ (gap ++ (name ++ rest))) = true := by
      simp
    have hdrop5 : ("macr ".toList ++ (gap ++ (name ++ rest))).drop 5 = gap ++ (name ++ rest) := by
      simp
    simp only [hstarts, if_true, hdrop5, hword, Option.getD_some, hinvalid, Bool.not_false]
  refine ⟨?_, hline, ?_⟩
  · intro n
    rw [is_valid_macro_name_iff]
    simp [reserved_names]
  · intro u input pre post st1 hread hpre
    unfold preprocess_file
    rw [hread, preprocess_lines_append, hpre]
    simp only [preprocess_lines, hline st1]

theorem invalid_macro_name_rejected_witness :
    "jmp".toList ∈ reserved_names ∧
    preprocess_line (preprocess_init sample_buffers)
        ("\t".toList ++ ("macr ".toList ++ (" ".toList ++ ("jmp".toList ++ "\n".toList))))
      = .error .invalid_macro_name :=
  ⟨by decide,
    (invalid_macro_name_rejected "jmp".toList "\t".toList " ".toList "\n".toList (by decide)
      (by decide) (by decide) (Or.inr ⟨'\n', [], rfl, by decide⟩)).2.1
      (preprocess_init sample_buffers)⟩

/-! ## Claim on the expansion of a macro invocation -/

theorem strcat_macro_lines_fits (body : List (List Char)) :
    ∀ output_line : List Char,
      output_line.length + body.flatten.length < MAX_LINE_LENGTH →
      strcat_macro_lines output_line body = .ok (output_line ++ body.flatten) := by
  induction body with
  | nil => intro out _; simp [strcat_macro_lines]
  | cons l ls ih =>
    intro out h
    simp only [List.flatten_cons, List.length_append] at h
    have h1 : ¬ out.length + l.length + 1 > MAX_LINE_LENGTH := by omega
    simp only [strcat_macro_lines, strcat_output_line, h1, if_false]
    rw [ih (out ++ l) (by simp only [List.length_append]; omega)]
    simp

theorem expand_line_invocation (macros : List Macro) (M rest word output_line : List Char)
    (body : List (List Char))
    (hdefined : get_macro_content macros M = some body)
    (hne : M ≠ []) (hword : ∀ c ∈ M, isspace c = false)
    (hrest : rest = [] ∨ ∃ c r, rest = c :: r ∧ isspace c = true)
    (hfits : output_line.length + body.flatten.length < MAX_LINE_LENGTH) :
    expand_line macros (M ++ rest) word output_line = .ok (output_line ++ body.flatten, M) := by
  have hscan : sscanf_word (M ++ rest) = some M := by
    have := sscanf_word_of_word [] M rest (by simp) hne hword hrest
    simpa using this
  obtain ⟨x, xs, hx⟩ := List.exists_cons_of_ne_nil hne
  have hcons : M ++ rest = x :: (xs ++ rest) := by rw [hx]; rfl
  rw [hcons] at hscan ⊢
  simp only [expand_line, hscan, Option.getD_some, hdefined,
    strcat_macro_lines_fits body output_line hfits]

theorem blank_of_not_isspace (c : Char) (h : isspace c = false) :
    (c == ' ' || c == '\t') = false := by
  unfold isspace at h
  simp only [Bool.or_eq_false_iff] at h ⊢
  exact ⟨h.1.1.1.1.1, h.1.1.1.1.2⟩

/-- C24, the code at the failing input: with `M` a defined macro whose body
is the line `stop`, the line `M x: y` is of the form `M <rest>`, and the
preprocessor does not expand it: the label is looked for with
`strchr(start, ':')` in the whole line, so `M x` is taken for a label, the
lookup of macro names starts behind the colon, and the output is `M x: y`.
The same line without the colon, `M x y`, is expanded to the body of `M`,
and so is `L: M x y`, behind its label. -/
theorem macro_invocation_not_expanded :
    preprocess_file sample_buffers "macr M\nstop\nendmacr\nM x: y\n".toList
      = .ok "M x: y\n".toList ∧
    preprocess_file sample_buffers "macr M\nstop\nendmacr\nM x y\n".toList
      = .ok "stop\n".toList ∧
    preprocess_file sample_buffers "macr M\nstop\nendmacr\nL: M x y\n".toList
      = .ok "L: stop\n".toList :=
  ⟨by decide, by decide, by decide⟩

/-- The expansion of an invocation at the start of a line: outside a macro
definition, for every line of the form `M <rest>` that holds no colon, and
for every line of the form `<label>: M <rest>` whose label holds no colon,
where `M` is a defined macro followed by white space or by nothing and the
line does not begin with `;`, `macr ` or `endmacr`, the loop body of
`preprocess_file` appends the label prefix (if any, as `<label>: `) and the
body lines of `M` in order to the output, as long as they fit the buffer
`output_line`: the text after the macro name is dropped, and the body is
not scanned again, so a body line that names another defined macro is
output unexpanded. A two-line macro invoked twice gives four body lines. -/
theorem macro_invocation_output (st : preprocess_state) (indent M rest : List Char)
    (body : List (List Char))
    (hin : st.in_macro = false)
    (hdefined : get_macro_content st.macros M = some body)
    (hindent : ∀ c ∈ indent, c = ' ' ∨ c = '\t')
    (hne : M ≠ []) (hword : ∀ c ∈ M, isspace c = false)
    (hrest : rest = [] ∨ ∃ c r, rest = c :: r ∧ isspace c = true) :
    (':' ∉ M ++ rest →
      char_at (indent ++ (M ++ rest)) 0 ≠ ';' →
      "macr ".toList.isPrefixOf (M ++ rest) = false →
      "endmacr".toList.isPrefixOf (M ++ rest) = false →
      body.flatten.length < MAX_LINE_LENGTH →
      preprocess_line st (indent ++ (M ++ rest))
        = .ok { st with word := M, output := st.output ++ body.flatten }) ∧
    (∀ label gap : List Char, ':' ∉ label →
      (∀ c ∈ gap, c = ' ' ∨ c = '\t') →
      (∀ c ∈ label.head?, c ≠ ' ' ∧ c ≠ '\t') →
      char_at (indent ++ (label ++ ':' :: (gap ++ (M ++ rest)))) 0 ≠ ';' →
      "macr ".toList.isPrefixOf (label ++ ':' :: (gap ++ (M ++ rest))) = false →
      "endmacr".toList.isPrefixOf (label ++ ':' :: (gap ++ (M ++ rest))) = false →
      (label ++ ": ".toList).length + body.flatten.length < MAX_LINE_LENGTH →
      preprocess_line st (indent ++ (label ++ ':' :: (gap ++ (M ++ rest))))
        = .ok { st with word := M, output := st.output ++ (label ++ ": ".toList ++ body.flatten) }) ∧
    preprocess_file sample_buffers
        "macr M\n inc r1\n\tdec r2\nendmacr\nM\nL: M r3\nstop\n".toList
      = .ok "inc r1\ndec r2\nL: inc r1\ndec r2\nstop\n".toList ∧
    preprocess_file sample_buffers "macr A\nstop\nendmacr\nmacr B\nA\nendmacr\nB\n".toList
      = .ok "A\n".toList := by
  obtain ⟨x, xs, hx⟩ := List.exists_cons_of_ne_nil hne
  have hxblank : (fun c : Char => c == ' ' || c == '\t') x = false :=
    blank_of_not_isspace x (hword x (by rw [hx]; simp))
  have hindent2 : ∀ c ∈ indent, (fun c : Char => c == ' ' || c == '\t') c = true := by
    intro c hc
    rcases hindent c hc with h | h <;> simp [h]
  refine ⟨?_, ?_, by decide, by decide⟩
  · intro hcolon hcomment hmacr hendmacr hfits
    have hstart : (indent ++ (M ++ rest)).dropWhile (fun c => c == ' ' || c == '\t')
        = M ++ rest := by
      rw [hx, List.cons_append]
      exact dropWhile_append_stop _ indent x (xs ++ rest) hindent2 hxblank
    have hcontains : (M ++ rest).contains ':' = false := by
      simpa using hcolon
    unfold preprocess_line
    simp only [hcomment, if_false, hstart, hmacr, Bool.false_eq_true, hendmacr, hin, copy_label,
      hcontains]
    rw [expand_line_invocation st.macros M rest st.word [] body hdefined hne hword hrest
      (by simpa using hfits)]
    simp
  · intro label gap hlabel hgap hhead hcomment hmacr hendmacr hfits
    have hgap2 : ∀ c ∈ gap, (fun c : Char => c == ' ' || c == '\t') c = true := by
      intro c hc
      rcases hgap c hc with h | h <;> simp [h]
    have hstart : (indent ++ (label ++ ':' :: (gap ++ (M ++ rest)))).dropWhile
        (fun c => c == ' ' || c == '\t') = label ++ ':' :: (gap ++ (M ++ rest)) := by
      cases label with
      | nil => exact dropWhile_append_stop _ indent ':' _ hindent2 (by decide)
      | cons c cs =>
        have hc := hhead c (by simp)
        rw [List.cons_append]
        exact dropWhile_append_stop _ indent c _ hindent2 (by simp [hc.1, hc.2])
    have hcontains : (label ++ ':' :: (gap ++ (M ++ rest))).contains ':' = true := by simp
    have hnot : ∀ c ∈ label, (fun c : Char => !(c == ':')) c = true := by
      intro c hc
      have : c ≠ ':' := fun h => hlabel (h ▸ hc)
      simpa using this
    have htake : (label ++ ':' :: (gap ++ (M ++ rest))).takeWhile (fun c => !(c == ':'))
        = label := takeWhile_append_stop _ label ':' _ hnot (by decide)
    have hdrop : (label ++ ':' :: (gap ++ (M ++ rest))).dropWhile (fun c => !(c == ':'))
        = ':' :: (gap ++ (M ++ rest)) := dropWhile_append_stop _ label ':' _ hnot (by decide)
    have hafter : (gap ++ (M ++ rest)).dropWhile (fun c => c == ' ' || c == '\t')
        = M ++ rest := by
      rw [hx, List.cons_append]
      exact dropWhile_append_stop _ gap x (xs ++ rest) hgap2 hxblank
    simp only [List.length_append] at hfits
    have hlen2 : (": ".toList).length = 2 := rfl
    rw [hlen2] at hfits
    have hfit1 : ¬ ([] : List Char).length + label.length + 1 > MAX_LINE_LENGTH := by
      simp only [List.length_nil]; omega
    have hfit2 : ¬ ([] ++ label).length + (": ".toList).length + 1 > MAX_LINE_LENGTH := by
      simp only [List.nil_append, hlen2]; omega
    unfold preprocess_line
    simp only [hcomment, if_false, hstart, hmacr, Bool.false_eq_true, hendmacr, hin, copy_label,
      hcontains, if_true, htake, hdrop, List.drop_one, List.tail_cons, hafter,
      strcat_output_line, hfit1, hfit2]
    rw [expand_line_invocation st.macros M rest st.word ([] ++ label ++ ": ".toList) body hdefined hne
      hword hrest (by simp only [List.nil_append, List.length_append, hlen2]; omega)]
    simp

theorem macro_invocation_output_witness :
    preprocess_line
        { macros := [⟨"M".toList, some ["inc r1\n".toList, "dec r2\n".toList]⟩],
          in_macro := false, macro_name := "M".toList, macro_content := none,
          word := "junk".toList, output := [] }
        ("  ".toList ++ ("LOOP".toList ++ ':' :: ("\t".toList ++ ("M".toList ++ " r3\n".toList))))
      = .ok { macros := [⟨"M".toList, some ["inc r1\n".toList, "dec r2\n".toList]⟩],
              in_macro := false, macro_name := "M".toList, macro_content := none,
              word := "M".toList,
              output := [] ++ ("LOOP".toList ++ ": ".toList ++
                ["inc r1\n".toList, "dec r2\n".toList].flatten) } :=
  (macro_invocation_output
    { macros := [⟨"M".toList, some ["inc r1\n".toList, "dec r2\n".toList]⟩],
      in_macro := false, macro_name := "M".toList, macro_content := none,
      word := "junk".toList, output := [] }
    "  ".toList "M".toList " r3\n".toList ["inc r1\n".toList, "dec r2\n".toList]
    rfl (by decide) (by decide) (by decide) (by decide)
    (Or.inr ⟨' ', "r3\n".toList, rfl, by decide⟩)).2.1
    "LOOP".toList "\t".toList (by decide) (by decide) (by decide) (by decide) (by decide)
    (by decide) (by decide)

/-! ## Helper lemmas on a source without macro definitions -/

theorem strcat_output_line_ok (a b o : List Char) (h : strcat_output_line a b = .ok o) :
    o = a ++ b ∧ a.length + b.length < MAX_LINE_LENGTH := by
  unfold strcat_output_line at h
  split at h
  · simp at h
  · rename_i hfit
    simp only [Except.ok.injEq] at h
    exact ⟨h.symm, by omega⟩

theorem strcat_output_line_fits (a b : List Char) (h : a.length + b.length < MAX_LINE_LENGTH) :
    strcat_output_line a b = .ok (a ++ b) := by
  unfold strcat_output_line
  have : ¬ a.length + b.length + 1 > MAX_LINE_LENGTH := by omega
  rw [if_neg this]

theorem copy_label_length (start output_line start1 : List Char)
    (h : copy_label start = .ok (output_line, start1)) : output_line.length < MAX_LINE_LENGTH := by
  unfold copy_label at h
  by_cases hc : start.contains ':' = true
  · rw [if_pos hc] at h
    cases h1 : strcat_output_line [] (List.takeWhile (fun c => !(c == ':')) start) with
    | error e => simp [h1] at h
    | ok o1 =>
      simp only [h1] at h
      cases h2 : strcat_output_line o1 [':', ' '] with
      | error e => simp [h2] at h
      | ok o2 =>
        have h2x : strcat_output_line o1 ": ".toList = .ok o2 := h2
        simp only [h2x, Except.ok.injEq, Prod.mk.injEq] at h
        obtain ⟨k1, k2⟩ := strcat_output_line_ok _ _ _ h2
        simp only [List.length_cons, List.length_nil] at k2
        rw [← h.1, k1]
        simp only [List.length_append, List.length_cons, List.length_nil]
        omega
  · rw [if_neg hc] at h
    simp only [Except.ok.injEq, Prod.mk.injEq] at h
    rw [← h.1]
    decide

theorem expand_line_no_macro (start : List Char) :
    ∀ (word output_line : List Char), output_line.length < MAX_LINE_LENGTH →
      ∃ word1, expand_line [] start word output_line =
        (strcat_output_line output_line start).map (fun o => (o, word1)) := by
  induction start with
  | nil =>
    intro word out h
    refine ⟨word, ?_⟩
    have : ¬ out.length + 0 + 1 > MAX_LINE_LENGTH := by omega
    simp [expand_line, strcat_output_line, this, Except.map]
  | cons c cs ih =>
    intro word out h
    simp only [expand_line, get_macro_content, List.find?_nil]
    by_cases hfit : out.length + 1 + 1 > MAX_LINE_LENGTH
    · refine ⟨word, ?_⟩
      have h2 : out.length + (c :: cs).length + 1 > MAX_LINE_LENGTH := by
        simp only [List.length_cons]; omega
      have h3 : out.length + [c].length + 1 > MAX_LINE_LENGTH := hfit
      simp only [strcat_output_line]
      rw [if_pos h2, if_pos h3]
      rfl
    · have hstep : strcat_output_line out [c] = .ok (out ++ [c]) := by
        simp [strcat_output_line, hfit]
      simp only [hstep]
      obtain ⟨w1, hw1⟩ := ih ((sscanf_word (c :: cs)).getD word) (out ++ [c])
        (by simp only [List.length_append, List.length_singleton]; omega)
      refine ⟨w1, ?_⟩
      rw [hw1]
      have hsame : strcat_output_line (out ++ [c]) cs = strcat_output_line out (c :: cs) := by
        unfold strcat_output_line
        simp only [List.length_append, List.length_singleton, List.length_cons,
          List.append_assoc, List.singleton_append, List.length_nil, Nat.zero_add]
        split <;> split <;> first | rfl | (exfalso; omega)
      rw [hsame]

theorem preprocess_line_copied (st : preprocess_state) (line : List Char)
    (hmacros : st.macros = []) (hin : st.in_macro = false)
    (hdef : is_definition_line line = false) :
    (∀ e, copied_line line = .error e → preprocess_line st line = .error e) ∧
    (∀ o, copied_line line = .ok o →
      ∃ st1, preprocess_line st line = .ok st1 ∧ st1.macros = [] ∧ st1.in_macro = false ∧
        st1.output = st.output ++ o) := by
  unfold is_definition_line at hdef
  simp only [Bool.or_eq_false_iff] at hdef
  unfold copied_line preprocess_line
  by_cases hc : char_at line 0 = ';'
  · simp only [hc, if_true]
    refine ⟨fun e h => by simp at h, fun o h => ?_⟩
    simp only [Except.ok.injEq] at h
    exact ⟨st, rfl, hmacros, hin, by simp [← h]⟩
  · simp only [hc, if_false, hdef.1, hdef.2, Bool.false_eq_true, hin, copied_start]
    cases hl : copy_label (List.dropWhile (fun c => c == ' ' || c == '\t') line) with
    | error e =>
      refine ⟨fun e1 h => by simpa using h, fun o h => by simp at h⟩
    | ok p =>
      obtain ⟨out, s1⟩ := p
      have hlen := copy_label_length _ _ _ hl
      obtain ⟨w1, hw1⟩ := expand_line_no_macro s1 st.word out hlen
      simp only [hmacros, hw1]
      cases hs : strcat_output_line out s1 with
      | error e =>
        refine ⟨fun e1 h => by simpa [Except.map] using h, fun o h => by simp at h⟩
      | ok o1 =>
        refine ⟨fun e h => by simp at h, fun o h => ?_⟩
        simp only [Except.ok.injEq] at h
        subst h
        exact ⟨_, rfl, rfl, rfl, rfl⟩

theorem preprocess_lines_copied (lines : List (List Char)) :
    ∀ (st : preprocess_state) (outs : List (List Char)),
      st.macros = [] → st.in_macro = false →
      (∀ l ∈ lines, is_definition_line l = false) →
      copied_lines lines = .ok outs →
      ∃ st1, preprocess_lines st lines = .ok st1 ∧ st1.output = st.output ++ outs.flatten := by
  induction lines with
  | nil =>
    intro st outs _ _ _ h
    simp only [copied_lines, Except.ok.injEq] at h
    subst h
    exact ⟨st, rfl, by simp⟩
  | cons l ls ih =>
    intro st outs hm hin hdef h
    simp only [copied_lines] at h
    cases hl : copied_line l with
    | error e => simp [hl] at h
    | ok o =>
      simp only [hl] at h
      cases hls : copied_lines ls with
      | error e => simp [hls] at h
      | ok os =>
        simp only [hls, Except.ok.injEq] at h
        subst h
        obtain ⟨st1, h1, h2, h3, h4⟩ :=
          (preprocess_line_copied st l hm hin (hdef l (by simp))).2 o hl
        obtain ⟨st2, k1, k2⟩ := ih st1 os h2 h3 (fun x hx => hdef x (List.mem_cons_of_mem _ hx)) hls
        refine ⟨st2, by simp only [preprocess_lines, h1, k1], ?_⟩
        rw [k2, h4]
        simp

theorem preprocess_lines_copied_ok (lines : List (List Char)) :
    ∀ (st st1 : preprocess_state),
      st.macros = [] → st.in_macro = false →
      (∀ l ∈ lines, is_definition_line l = false) →
      preprocess_lines st lines = .ok st1 →
      ∃ outs, copied_lines lines = .ok outs := by
  induction lines with
  | nil => intro st st1 _ _ _ _; exact ⟨[], rfl⟩
  | cons l ls ih =>
    intro st st1 hm hin hdef h
    simp only [preprocess_lines] at h
    have hstep := preprocess_line_copied st l hm hin (hdef l (by simp))
    cases hl : copied_line l with
    | error e =>
      rw [hstep.1 e hl] at h
      simp at h
    | ok o =>
      obtain ⟨sa, h1, h2, h3, -⟩ := hstep.2 o hl
      rw [h1] at h
      simp only at h
      obtain ⟨os, hos⟩ := ih sa st1 h2 h3 (fun x hx => hdef x (List.mem_cons_of_mem _ hx)) h
      exact ⟨o :: os, by simp only [copied_lines, hl, hos]⟩

theorem dropWhile_idem {α : Type} (p : α → Bool) (l : List α) :
    (l.dropWhile p).dropWhile p = l.dropWhile p := by
  induction l with
  | nil => rfl
  | cons c cs ih =>
    by_cases hc : p c = true
    · simp only [List.dropWhile_cons, hc, if_true]
      exact ih
    · have hc2 : p c = false := by simpa using hc
      simp [List.dropWhile_cons, hc2]

theorem dropWhile_fixed_head {α : Type} (p : α → Bool) (c : α) (cs : List α)
    (h : (c :: cs).dropWhile p = c :: cs) : p c = false := by
  by_cases hc : p c = true
  · rw [List.dropWhile_cons, if_pos hc] at h
    have h1 : (cs.dropWhile p).length ≤ cs.length := (List.dropWhile_sublist p).length_le
    rw [h] at h1
    simp at h1
  · simpa using hc

theorem split_at_colon (s : List Char) (h : ':' ∈ s) :
    ∃ pre post, s = pre ++ ':' :: post ∧ ':' ∉ pre := by
  induction s with
  | nil => simp at h
  | cons c cs ih =>
    by_cases hc : c = ':'
    · exact ⟨[], cs, by simp [hc], by simp⟩
    · have hcs : ':' ∈ cs := by
        rcases List.mem_cons.mp h with h1 | h1
        · exact absurd h1.symm hc
        · exact h1
      obtain ⟨pre, post, h1, h2⟩ := ih hcs
      refine ⟨c :: pre, post, by simp [h1], ?_⟩
      intro hm
      rcases List.mem_cons.mp hm with h3 | h3
      · exact hc h3.symm
      · exact h2 h3

theorem isPrefixOf_before_colon (pat : List Char) (hpat : ':' ∉ pat) :
    ∀ (pre t1 t2 : List Char),
      pat.isPrefixOf (pre ++ ':' :: t1) = pat.isPrefixOf (pre ++ ':' :: t2) := by
  induction pat with
  | nil => intro pre t1 t2; simp
  | cons a as ih =>
    intro pre t1 t2
    have ha : a ≠ ':' := fun h => hpat (by simp [h])
    have has : ':' ∉ as := fun h => hpat (List.mem_cons_of_mem _ h)
    cases pre with
    | nil =>
      have hb : (a == ':') = false := by simpa using ha
      show (a == ':' && as.isPrefixOf t1) = (a == ':' && as.isPrefixOf t2)
      rw [hb]
      rfl
    | cons c cs =>
      show (a == c && as.isPrefixOf (cs ++ ':' :: t1)) = (a == c && as.isPrefixOf (cs ++ ':' :: t2))
      rw [ih has cs t1 t2]

theorem copy_label_no_colon (s : List Char) (h : ':' ∉ s) : copy_label s = .ok ([], s) := by
  unfold copy_label
  have : s.contains ':' = false := by simpa using h
  have hn : ¬ (s.contains ':' = true) := by rw [this]; exact Bool.false_ne_true
  rw [if_neg hn]

theorem copied_start_colon (pre post : List Char) (hpre : ':' ∉ pre) :
    copied_start (pre ++ ':' :: post) =
      strcat_output_line (pre ++ ": ".toList)
        (post.dropWhile (fun c => c == ' ' || c == '\t')) := by
  have hnot : ∀ c ∈ pre, (fun c : Char => !(c == ':')) c = true := by
    intro c hc
    have : c ≠ ':' := fun h => hpre (h ▸ hc)
    simpa using this
  have hcontains : (pre ++ ':' :: post).contains ':' = true := by simp
  have htake : (pre ++ ':' :: post).takeWhile (fun c => !(c == ':')) = pre :=
    takeWhile_append_stop _ pre ':' _ hnot (by decide)
  have hdrop : (pre ++ ':' :: post).dropWhile (fun c => !(c == ':')) = ':' :: post :=
    dropWhile_append_stop _ pre ':' _ hnot (by decide)
  unfold copied_start copy_label
  simp only [hcontains, if_true, htake, hdrop, List.drop_one, List.tail_cons]
  by_cases hfit : pre.length + 2 < MAX_LINE_LENGTH
  · have h1 : strcat_output_line [] pre = .ok pre := by
      have := strcat_output_line_fits [] pre (by simp only [List.length_nil]; omega)
      simpa using this
    have h2 : strcat_output_line pre ": ".toList = .ok (pre ++ ": ".toList) :=
      strcat_output_line_fits _ _ (by
        have : (": ".toList).length = 2 := rfl
        simp only [this]; omega)
    rw [h1]
    simp only
    rw [h2]
  · have hover : strcat_output_line (pre ++ ": ".toList)
        (post.dropWhile (fun c => c == ' ' || c == '\t')) = .error .output_line_overflow := by
      unfold strcat_output_line
      have hl : (": ".toList).length = 2 := rfl
      rw [if_pos (by simp only [List.length_append, hl]; omega)]
    rw [hover]
    by_cases hfit1 : pre.length < MAX_LINE_LENGTH
    · have h1 : strcat_output_line [] pre = .ok pre := by
        have := strcat_output_line_fits [] pre (by simp only [List.length_nil]; omega)
        simpa using this
      have h2 : strcat_output_line pre ": ".toList = .error .output_line_overflow := by
        unfold strcat_output_line
        have hl : (": ".toList).length = 2 := rfl
        rw [if_pos (by simp only [hl]; omega)]
      rw [h1]
      simp only
      rw [h2]
    · have h1 : strcat_output_line [] pre = .error .output_line_overflow := by
        unfold strcat_output_line
        rw [if_pos (by simp only [List.length_nil]; omega)]
      rw [h1]

theorem copied_start_no_colon (s : List Char) (h : ':' ∉ s) :
    copied_start s = strcat_output_line [] s := by
  unfold copied_start
  rw [copy_label_no_colon s h]

theorem copied_start_fixed (s o : List Char) (h : copied_start s = .ok o)
    (hs : s.dropWhile (fun c => c == ' ' || c == '\t') = s) :
    copied_start o = .ok o ∧
    o.dropWhile (fun c => c == ' ' || c == '\t') = o ∧
    (∀ pat : List Char, ':' ∉ pat → pat.isPrefixOf o = pat.isPrefixOf s) ∧
    char_at o 0 = char_at s 0 ∧ o.length < MAX_LINE_LENGTH := by
  by_cases hc : ':' ∈ s
  · obtain ⟨pre, post, hsplit, hpre⟩ := split_at_colon s hc
    subst hsplit
    rw [copied_start_colon pre post hpre] at h
    obtain ⟨ho, hlen⟩ := strcat_output_line_ok _ _ _ h
    have ho2 : o = pre ++ ':' :: (' ' :: post.dropWhile (fun c => c == ' ' || c == '\t')) := by
      rw [ho]; simp
    have hagain : (' ' :: post.dropWhile (fun c => c == ' ' || c == '\t')).dropWhile
        (fun c => c == ' ' || c == '\t') = post.dropWhile (fun c => c == ' ' || c == '\t') := by
      rw [List.dropWhile_cons]
      simp only [beq_self_eq_true, Bool.true_or, if_true]
      exact dropWhile_idem _ post
    refine ⟨?_, ?_, ?_, ?_, ?_⟩
    · have hthis : copied_start
          (pre ++ ':' :: (' ' :: post.dropWhile (fun c => c == ' ' || c == '\t'))) = .ok o := by
        rw [copied_start_colon pre _ hpre, hagain]
        exact h
      rw [← ho2] at hthis
      exact hthis
    · rw [ho2]
      cases pre with
      | nil => simp [List.dropWhile_cons]
      | cons c cs =>
        have hcb := dropWhile_fixed_head _ c _ hs
        simp only [List.cons_append]
        rw [List.dropWhile_cons, hcb]
        simp
    · intro pat hpat
      rw [ho2]
      exact isPrefixOf_before_colon pat hpat pre _ _
    · rw [ho2]
      cases pre <;> rfl
    · rw [ho, List.length_append]
      exact hlen
  · rw [copied_start_no_colon s hc] at h
    obtain ⟨ho, hlen⟩ := strcat_output_line_ok _ _ _ h
    simp only [List.nil_append, List.length_nil, Nat.zero_add] at ho hlen
    subst ho
    refine ⟨?_, hs, fun _ _ => rfl, rfl, hlen⟩
    rw [copied_start_no_colon o hc]
    exact h

theorem copied_start_shape (sb t o : List Char) (h : copied_start (sb ++ t) = .ok o)
    (ht : t = [] ∨ t = ['\n']) (hsb : '\n' ∉ sb) :
    ∃ ob, o = ob ++ t ∧ '\n' ∉ ob := by
  have htc : ':' ∉ t := by rcases ht with h1 | h1 <;> (rw [h1]; decide)
  by_cases hc : ':' ∈ sb
  · obtain ⟨pre, post, hsplit, hpre⟩ := split_at_colon sb hc
    subst hsplit
    rw [List.append_assoc, List.cons_append, copied_start_colon pre (post ++ t) hpre] at h
    obtain ⟨ho, -⟩ := strcat_output_line_ok _ _ _ h
    have hstrip : (post ++ t).dropWhile (fun c => c == ' ' || c == '\t')
        = post.dropWhile (fun c => c == ' ' || c == '\t') ++ t := by
      rcases ht with h1 | h1
      · rw [h1]; simp
      · rw [h1]
        exact dropWhile_append_head _ post '\n' [] (by decide)
    refine ⟨pre ++ ": ".toList ++ post.dropWhile (fun c => c == ' ' || c == '\t'), ?_, ?_⟩
    · rw [ho, hstrip]; simp
    · intro hm
      rcases List.mem_append.mp hm with h1 | h1
      · rcases List.mem_append.mp h1 with h2 | h2
        · exact hsb (List.mem_append_left _ h2)
        · revert h2; decide
      · exact hsb (List.mem_append_right _
          (List.mem_cons_of_mem _ ((List.dropWhile_sublist _).subset h1)))
  · have hc2 : ':' ∉ sb ++ t := by
      intro hm
      rcases List.mem_append.mp hm with h1 | h1
      · exact hc h1
      · exact htc h1
    rw [copied_start_no_colon _ hc2] at h
    obtain ⟨ho, -⟩ := strcat_output_line_ok _ _ _ h
    exact ⟨sb, by rw [ho]; simp, hsb⟩

theorem copied_line_fixed (b t o : List Char) (hb : '\n' ∉ b) (ht : t = [] ∨ t = ['\n'])
    (hdef : is_definition_line (b ++ t) = false)
    (hcomment : char_at ((b ++ t).dropWhile (fun c => c == ' ' || c == '\t')) 0 = ';' →
      char_at (b ++ t) 0 = ';')
    (h : copied_line (b ++ t) = .ok o) :
    o.length < MAX_LINE_LENGTH ∧
    (o = [] ∨ ∃ ob, o = ob ++ t ∧ '\n' ∉ ob) ∧
    (o ≠ [] → copied_line o = .ok o ∧ is_definition_line o = false) := by
  unfold copied_line at h
  by_cases hc : char_at (b ++ t) 0 = ';'
  · rw [if_pos hc] at h
    simp only [Except.ok.injEq] at h
    subst h
    exact ⟨by decide, Or.inl rfl, fun h => absurd rfl h⟩
  · rw [if_neg hc] at h
    have hs0 : char_at ((b ++ t).dropWhile (fun c => c == ' ' || c == '\t')) 0 ≠ ';' :=
      fun h0 => hc (hcomment h0)
    have hstrip : (b ++ t).dropWhile (fun c => c == ' ' || c == '\t')
        = b.dropWhile (fun c => c == ' ' || c == '\t') ++ t := by
      rcases ht with h1 | h1
      · rw [h1]; simp
      · rw [h1]
        exact dropWhile_append_head _ b '\n' [] (by decide)
    obtain ⟨k1, k2, k3, k4, k5⟩ := copied_start_fixed _ o h (dropWhile_idem _ _)
    have hshape : ∃ ob, o = ob ++ t ∧ '\n' ∉ ob := by
      rw [hstrip] at h
      exact copied_start_shape _ t o h ht
        (fun hm => hb ((List.dropWhile_sublist _).subset hm))
    refine ⟨k5, Or.inr hshape, fun _ => ⟨?_, ?_⟩⟩
    · unfold copied_line
      rw [k4] 
      rw [if_neg hs0, k2]
      exact k1
    · unfold is_definition_line at hdef ⊢
      rw [k2, k3 _ (by decide), k3 _ (by decide)]
      exact hdef

theorem fgets_chars_rest_length (n : Nat) :
    ∀ s : List Char, s ≠ [] → ((fgets_chars (n + 1) s).2).length < s.length := by
  induction n with
  | zero =>
    intro s hs
    cases s with
    | nil => exact absurd rfl hs
    | cons c cs =>
      simp only [fgets_chars]
      split <;> simp
  | succ n ih =>
    intro s hs
    cases s with
    | nil => exact absurd rfl hs
    | cons c cs =>
      simp only [fgets_chars]
      split
      · simp
      · cases cs with
        | nil => simp [fgets_chars]
        | cons d ds =>
          have := ih (d :: ds) (by simp)
          simp only [List.length_cons] at this ⊢
          omega

theorem fgets_chars_shape (n : Nat) :
    ∀ s : List Char, ∃ b t, (fgets_chars n s).1 = b ++ t ∧ '\n' ∉ b ∧ (t = [] ∨ t = ['\n']) := by
  induction n with
  | zero => intro s; exact ⟨[], [], rfl, by simp, Or.inl rfl⟩
  | succ n ih =>
    intro s
    cases s with
    | nil => exact ⟨[], [], rfl, by simp, Or.inl rfl⟩
    | cons c cs =>
      simp only [fgets_chars]
      by_cases hc : c = '\n'
      · rw [if_pos hc]
        exact ⟨[], ['\n'], by simp [hc], by simp, Or.inr rfl⟩
      · rw [if_neg hc]
        obtain ⟨b, t, h1, h2, h3⟩ := ih cs
        refine ⟨c :: b, t, by simp [h1], ?_, h3⟩
        intro hm
        rcases List.mem_cons.mp hm with h | h
        · exact hc h.symm
        · exact h2 h

theorem fgets_chars_first_ne_nil (n : Nat) (s : List Char) (hs : s ≠ []) :
    (fgets_chars (n + 1) s).1 ≠ [] := by
  cases s with
  | nil => exact absurd rfl hs
  | cons c cs =>
    simp only [fgets_chars]
    split <;> simp

theorem fgets_chars_whole (b : List Char) (hb : '\n' ∉ b) :
    ∀ n : Nat, b.length ≤ n → fgets_chars n b = (b, []) := by
  induction b with
  | nil => intro n _; cases n <;> rfl
  | cons c cs ih =>
    intro n hn
    cases n with
    | zero => simp at hn
    | succ n =>
      have hc : c ≠ '\n' := fun h => hb (by simp [h])
      have hcs : '\n' ∉ cs := fun h => hb (List.mem_cons_of_mem _ h)
      simp only [fgets_chars, hc, if_false]
      rw [ih hcs n (by simpa using hn)]

theorem fgets_chars_newline (b r : List Char) (hb : '\n' ∉ b) :
    ∀ n : Nat, b.length < n → fgets_chars n (b ++ '\n' :: r) = (b ++ ['\n'], r) := by
  induction b with
  | nil =>
    intro n hn
    cases n with
    | zero => simp at hn
    | succ n => simp [fgets_chars]
  | cons c cs ih =>
    intro n hn
    cases n with
    | zero => simp at hn
    | succ n =>
      have hc : c ≠ '\n' := fun h => hb (by simp [h])
      have hcs : '\n' ∉ cs := fun h => hb (List.mem_cons_of_mem _ h)
      have h := ih hcs n (by simpa using hn)
      simp only [List.cons_append, fgets_chars, hc, if_false]
      change (c :: (fgets_chars n (cs ++ '\n' :: r)).1, (fgets_chars n (cs ++ '\n' :: r)).2) = _
      rw [h]

theorem fgets_rest_length (size : Nat) (hsize : 2 ≤ size) (s l r : List Char)
    (h : fgets size s = some (l, r)) : r.length < s.length := by
  unfold fgets at h
  cases s with
  | nil => simp at h
  | cons c cs =>
    simp only [Option.some.injEq] at h
    obtain ⟨k, hk⟩ : ∃ k, size - 1 = k + 1 := ⟨size - 2, by omega⟩
    rw [hk] at h
    have := fgets_chars_rest_length k (c :: cs) (by simp)
    rw [h] at this
    exact this

theorem read_lines_aux_stable (size : Nat) (hsize : 2 ≤ size) :
    ∀ (fuel1 fuel2 : Nat) (s : List Char), s.length < fuel1 → s.length < fuel2 →
      read_lines_aux size fuel1 s = read_lines_aux size fuel2 s := by
  intro fuel1
  induction fuel1 with
  | zero => intro fuel2 s h; omega
  | succ n ih =>
    intro fuel2 s _ h2
    cases fuel2 with
    | zero => omega
    | succ m =>
      simp only [read_lines_aux]
      cases hs : fgets size s with
      | none => rfl
      | some p =>
        obtain ⟨l, r⟩ := p
        have hr := fgets_rest_length size hsize s l r hs
        simp only
        rw [ih m r (by omega) (by omega)]

theorem read_lines_eq (size : Nat) (hsize : 2 ≤ size) (s : List Char) :
    read_lines size s =
      match fgets size s with
      | none => []
      | some (l, r) => l :: read_lines size r := by
  cases hs : fgets size s with
  | none => simp [read_lines, read_lines_aux, hs]
  | some p =>
    obtain ⟨l, r⟩ := p
    have hr := fgets_rest_length size hsize s l r hs
    simp only [read_lines, read_lines_aux, hs]
    rw [read_lines_aux_stable size hsize s.length (r.length + 1) r hr (by omega)]
    simp only [read_lines_aux]

theorem read_lines_aux_shape (size : Nat) (hsize : 2 ≤ size) (fuel : Nat) :
    ∀ s : List Char, ∀ l ∈ read_lines_aux size fuel s,
      l ≠ [] ∧ ∃ b t, l = b ++ t ∧ '\n' ∉ b ∧ (t = [] ∨ t = ['\n']) := by
  induction fuel with
  | zero => intro s l hl; simp [read_lines_aux] at hl
  | succ n ih =>
    intro s l hl
    simp only [read_lines_aux] at hl
    cases s with
    | nil => simp [fgets] at hl
    | cons c cs =>
      simp only [fgets, List.mem_cons] at hl
      rcases hl with h | h
      · obtain ⟨k, hk⟩ : ∃ k, size - 1 = k + 1 := ⟨size - 2, by omega⟩
        rw [h, hk]
        exact ⟨fgets_chars_first_ne_nil k (c :: cs) (by simp), fgets_chars_shape _ _⟩
      · exact ih _ l h

theorem read_lines_flatten (outs : List (List Char)) :
    (∀ o ∈ outs, o.length < MAX_LINE_LENGTH ∧
      ∃ b t, o = b ++ t ∧ '\n' ∉ b ∧ (t = [] ∨ t = ['\n'])) →
    (∀ o ∈ outs.dropLast, o = [] ∨ ∃ ob, o = ob ++ ['\n'] ∧ '\n' ∉ ob) →
    read_lines MAX_LINE_LENGTH outs.flatten = outs.filter (fun o => decide (o ≠ [])) := by
  induction outs with
  | nil => intro _ _; rfl
  | cons o os ih =>
    intro hall hlast
    have hall2 : ∀ x ∈ os, x.length < MAX_LINE_LENGTH ∧
        ∃ b t, x = b ++ t ∧ '\n' ∉ b ∧ (t = [] ∨ t = ['\n']) :=
      fun x hx => hall x (List.mem_cons_of_mem _ hx)
    have hlast2 : ∀ x ∈ os.dropLast, x = [] ∨ ∃ ob, x = ob ++ ['\n'] ∧ '\n' ∉ ob := by
      intro x hx
      cases os with
      | nil => simp at hx
      | cons p ps =>
        apply hlast x
        rw [List.dropLast_cons₂]
        exact List.mem_cons_of_mem _ hx
    have hrec := ih hall2 hlast2
    by_cases ho : o = []
    · subst ho
      simpa using hrec
    · have hfilter : (o :: os).filter (fun o => decide (o ≠ []))
          = o :: os.filter (fun o => decide (o ≠ [])) := by
        simp [List.filter_cons, ho]
      rw [hfilter, List.flatten_cons, read_lines_eq MAX_LINE_LENGTH (by decide)]
      obtain ⟨hlen, b, t, hshape, hb, ht⟩ := hall o (by simp)
      have hsize : MAX_LINE_LENGTH - 1 = 99 := rfl
      have hlen2 : o.length ≤ 99 := by
        have : MAX_LINE_LENGTH = 100 := rfl
        omega
      cases os with
      | nil =>
        have hfg : fgets MAX_LINE_LENGTH (o ++ [].flatten) = some (o, []) := by
          simp only [List.flatten_nil, List.append_nil]
          obtain ⟨x, xs, hx⟩ := List.exists_cons_of_ne_nil ho
          rw [hx]
          simp only [fgets, hsize, Option.some.injEq]
          rw [← hx]
          rcases ht with h1 | h1
          · rw [h1, List.append_nil] at hshape
            rw [hshape] at hlen2 ⊢
            exact fgets_chars_whole b hb 99 hlen2
          · rw [h1] at hshape
            rw [hshape] at hlen2 ⊢
            simp only [List.length_append, List.length_singleton] at hlen2
            exact fgets_chars_newline b [] hb 99 (by omega)
        rw [hfg]
        simp [read_lines, read_lines_aux, fgets]
      | cons p ps =>
        have hterm := hlast o (by rw [List.dropLast_cons₂]; simp)
        rcases hterm with h1 | ⟨ob, h1, h2⟩
        · exact absurd h1 ho
        · have hfg : fgets MAX_LINE_LENGTH (o ++ (p :: ps).flatten) = some (o, (p :: ps).flatten) := by
            rw [h1] at hlen2 ⊢
            simp only [List.length_append, List.length_singleton] at hlen2
            simp only [List.append_assoc, List.singleton_append]
            cases hob : ob ++ '\n' :: (p :: ps).flatten with
            | nil => simp at hob
            | cons x xs =>
              simp only [fgets, hsize, Option.some.injEq]
              rw [← hob]
              exact fgets_chars_newline ob _ h2 99 (by omega)
          rw [hfg]
          simp only
          rw [hrec]

theorem copied_lines_fixed (outs : List (List Char))
    (h : ∀ o ∈ outs, copied_line o = .ok o) : copied_lines outs = .ok outs := by
  induction outs with
  | nil => rfl
  | cons o os ih =>
    simp only [copied_lines, h o (by simp), ih (fun x hx => h x (List.mem_cons_of_mem _ hx))]

theorem flatten_filter_ne_nil (outs : List (List Char)) :
    (outs.filter (fun o => decide (o ≠ []))).flatten = outs.flatten := by
  induction outs with
  | nil => rfl
  | cons o os ih =>
    by_cases ho : o = []
    · subst ho
      simpa using ih
    · simp only [List.filter_cons, ho, ne_eq, not_false_eq_true, decide_True, if_true,
        List.flatten_cons, ih]

theorem copied_lines_outputs (lines : List (List Char)) :
    ∀ outs : List (List Char), copied_lines lines = .ok outs →
      (∀ l ∈ lines, (∃ b t, l = b ++ t ∧ '\n' ∉ b ∧ (t = [] ∨ t = ['\n'])) ∧
        is_definition_line l = false ∧
        (char_at (l.dropWhile (fun c => c == ' ' || c == '\t')) 0 = ';' → char_at l 0 = ';')) →
      (∀ l ∈ lines.dropLast, ∃ b, l = b ++ ['\n'] ∧ '\n' ∉ b) →
      (∀ o ∈ outs, o.length < MAX_LINE_LENGTH ∧
        ∃ b t, o = b ++ t ∧ '\n' ∉ b ∧ (t = [] ∨ t = ['\n'])) ∧
      (∀ o ∈ outs.dropLast, o = [] ∨ ∃ ob, o = ob ++ ['\n'] ∧ '\n' ∉ ob) ∧
      (∀ o ∈ outs, o ≠ [] → copied_line o = .ok o ∧ is_definition_line o = false) := by
  induction lines with
  | nil =>
    intro outs h _ _
    simp only [copied_lines, Except.ok.injEq] at h
    subst h
    simp
  | cons l ls ih =>
    intro outs h hall hlast
    simp only [copied_lines] at h
    cases hl : copied_line l with
    | error e => simp [hl] at h
    | ok o =>
      simp only [hl] at h
      cases hls : copied_lines ls with
      | error e => simp [hls] at h
      | ok os =>
        simp only [hls, Except.ok.injEq] at h
        subst h
        have hlast2 : ∀ x ∈ ls.dropLast, ∃ b, x = b ++ ['\n'] ∧ '\n' ∉ b := by
          intro x hx
          cases ls with
          | nil => simp at hx
          | cons p ps =>
            apply hlast x
            rw [List.dropLast_cons₂]
            exact List.mem_cons_of_mem _ hx
        obtain ⟨i1, i2, i3⟩ := ih os hls (fun x hx => hall x (List.mem_cons_of_mem _ hx)) hlast2
        obtain ⟨⟨b, t, hshape, hb, ht⟩, hdef, hcomment⟩ := hall l (by simp)
        have hfix := copied_line_fixed b t o hb ht (hshape ▸ hdef) (hshape ▸ hcomment)
          (hshape ▸ hl)
        refine ⟨?_, ?_, ?_⟩
        · intro x hx
          rcases List.mem_cons.mp hx with h1 | h1
          · subst h1
            refine ⟨hfix.1, ?_⟩
            rcases hfix.2.1 with h2 | ⟨ob, h2, h3⟩
            · exact ⟨[], [], by simp [h2], by simp, Or.inl rfl⟩
            · exact ⟨ob, t, h2, h3, ht⟩
          · exact i1 x h1
        · intro x hx
          cases ls with
          | nil =>
            simp only [copied_lines, Except.ok.injEq] at hls
            subst hls
            simp at hx
          | cons p ps =>
            cases os with
            | nil =>
              simp only [copied_lines] at hls
              split at hls
              · simp at hls
              · split at hls <;> simp at hls
            | cons q qs =>
              rw [List.dropLast_cons₂] at hx
              rcases List.mem_cons.mp hx with h1 | h1
              · subst h1
                obtain ⟨b2, hb2, hb3⟩ := hlast l (by rw [List.dropLast_cons₂]; simp)
                have hfix2 := copied_line_fixed b2 ['\n'] x hb3 (Or.inr rfl) (hb2 ▸ hdef)
                  (hb2 ▸ hcomment) (hb2 ▸ hl)
                rcases hfix2.2.1 with h2 | h2
                · exact Or.inl h2
                · exact Or.inr h2
              · exact i2 x h1
        · intro x hx hne
          rcases List.mem_cons.mp hx with h1 | h1
          · subst h1
            exact hfix.2.2 hne
          · exact i3 x h1 hne

theorem terminated_of_getLast (l b t : List Char) (hl : l = b ++ t) (hb : '\n' ∉ b)
    (ht : t = [] ∨ t = ['\n']) (hlast : l.getLast? = some '\n') :
    ∃ b1, l = b1 ++ ['\n'] ∧ '\n' ∉ b1 := by
  rcases ht with h | h
  · subst h
    rw [List.append_nil] at hl
    subst hl
    exact absurd (List.mem_of_getLast?_eq_some hlast) hb
  · subst h
    exact ⟨b, hl, hb⟩

/-! ## Claim on preprocessing a preprocessed source -/

/-- C25, the claim as stated fails: the source that holds the single line
` ;c` (a blank, then a comment) holds no macro definition and fits the line
buffer; the preprocessor copies the line without the blank, and run on its
own output it drops the line, which now starts with `;`. -/
theorem preprocess_twice_differs :
    (∀ l ∈ read_lines MAX_LINE_LENGTH " ;c\n".toList, is_definition_line l = false) ∧
    read_lines MAX_LINE_LENGTH " ;c\n".toList = [" ;c\n".toList] ∧
    preprocess_file sample_buffers " ;c\n".toList = .ok ";c\n".toList ∧
    preprocess_file sample_buffers ";c\n".toList = .ok [] := by
  decide

/-- C25, amended: for every source stream that holds no macro definition
(no line that begins, after blanks and tabs, with `macr ` or `endmacr`),
whose lines fit the line buffer (every line that `fgets` returns but the
last ends with a newline), and in which no line has `;` as its first
character after one or more blanks or tabs, if the preprocessor succeeds
with the output `y`, then running the preprocessor on `y` succeeds and
yields `y` unchanged. -/
theorem preprocess_file_idempotent (u u2 : preprocess_uninit) (x y : List Char)
    (hdefinition : ∀ l ∈ read_lines MAX_LINE_LENGTH x, is_definition_line l = false)
    (hfit : ∀ l ∈ (read_lines MAX_LINE_LENGTH x).dropLast, l.getLast? = some '\n')
    (hcomment : ∀ l ∈ read_lines MAX_LINE_LENGTH x,
      char_at (l.dropWhile (fun c => c == ' ' || c == '\t')) 0 = ';' → char_at l 0 = ';')
    (hy : preprocess_file u x = .ok y) :
    preprocess_file u2 y = .ok y := by
  unfold preprocess_file at hy
  cases hp : preprocess_lines (preprocess_init u) (read_lines MAX_LINE_LENGTH x) with
  | error e => simp [hp] at hy
  | ok st =>
    simp only [hp, Except.ok.injEq] at hy
    obtain ⟨outs, houts⟩ := preprocess_lines_copied_ok _ (preprocess_init u) st rfl rfl
      hdefinition hp
    obtain ⟨st1, h1, h2⟩ := preprocess_lines_copied _ (preprocess_init u) outs rfl rfl
      hdefinition houts
    rw [hp, Except.ok.injEq] at h1
    subst h1
    have hyout : y = outs.flatten := by
      rw [← hy, h2]
      rfl
    have hshape : ∀ l ∈ read_lines MAX_LINE_LENGTH x,
        l ≠ [] ∧ ∃ b t, l = b ++ t ∧ '\n' ∉ b ∧ (t = [] ∨ t = ['\n']) :=
      read_lines_aux_shape MAX_LINE_LENGTH (by decide) _ x
    obtain ⟨i1, i2, i3⟩ := copied_lines_outputs _ outs houts
      (fun l hl => ⟨(hshape l hl).2, hdefinition l hl, hcomment l hl⟩)
      (fun l hl => by
        obtain ⟨b, t, k1, k2, k3⟩ := (hshape l (List.dropLast_subset _ hl)).2
        exact terminated_of_getLast l b t k1 k2 k3 (hfit l hl))
    have hread := read_lines_flatten outs i1 i2
    have hmem : ∀ o ∈ outs.filter (fun o => decide (o ≠ [])), o ∈ outs ∧ o ≠ [] := by
      intro o ho
      have := List.mem_filter.mp ho
      exact ⟨this.1, by simpa using this.2⟩
    have hfixed : copied_lines (outs.filter (fun o => decide (o ≠ [])))
        = .ok (outs.filter (fun o => decide (o ≠ []))) :=
      copied_lines_fixed _ (fun o ho => (i3 o (hmem o ho).1 (hmem o ho).2).1)
    obtain ⟨st2, k1, k2⟩ := preprocess_lines_copied _ (preprocess_init u2) _ rfl rfl
      (fun o ho => (i3 o (hmem o ho).1 (hmem o ho).2).2) hfixed
    unfold preprocess_file
    rw [hyout, hread, k1]
    simp only [Except.ok.injEq]
    rw [k2, flatten_filter_ne_nil]
    rfl

theorem preprocess_file_idempotent_witness :
    preprocess_file sample_buffers "; list\nMAIN:mov  r3 ,LIST\n\t stop\nLIST:  .data 6".toList
      = .ok "MAIN: mov  r3 ,LIST\nstop\nLIST: .data 6".toList ∧
    preprocess_file sample_buffers "MAIN: mov  r3 ,LIST\nstop\nLIST: .data 6".toList
      = .ok "MAIN: mov  r3 ,LIST\nstop\nLIST: .data 6".toList :=
  ⟨by decide,
    preprocess_file_idempotent sample_buffers sample_buffers
      "; list\nMAIN:mov  r3 ,LIST\n\t stop\nLIST:  .data 6".toList
      "MAIN: mov  r3 ,LIST\nstop\nLIST: .data 6".toList
      (by decide) (by decide) (by decide) (by decide)⟩

/-! ## Claim on the tables of the sixteen mnemonics -/

theorem not_operation_lookups (t : List Char) (h : t ∉ operations) :
    get_opcode t = .NONE_OP ∧ get_operand_count t = -1 ∧ get_operation_info t = none ∧
      is_operation t = false := by
  have hop : is_operation t = false := by
    unfold is_operation
    simpa using h
  simp only [operations, List.mem_cons, List.mem_singleton, List.not_mem_nil, or_false,
    not_or] at h
  obtain ⟨h0, h1, h2, h3, h4, h5, h6, h7, h8, h9, h10, h11, h12, h13, h14, h15⟩ := h
  refine ⟨?_, ?_, ?_, hop⟩
  · unfold get_opcode
    simp only [h0, h1, h2, h3, h4, h5, h6, h7, h8, h9, h10, h11, h12, h13, h14, h15, if_false]
  · unfold get_operand_count
    simp only [h0, h1, h2, h3, h4, h5, h6, h7, h8, h9, h10, h11, h12, h13, h14, h15, or_self,
      if_false]
  · unfold get_operation_info operations_info
    simp only [List.find?_cons, List.find?_nil, h0, h1, h2, h3, h4, h5, h6, h7, h8, h9, h10,
      h11, h12, h13, h14, h15, decide_False]

theorem operations_info_rows :
    ∀ info ∈ operations_info,
      get_operation_info info.operation = some info ∧
      (allowed_types info.valid_src_types ≠ [] ↔ get_operand_count info.operation = 2) ∧
      (allowed_types info.valid_dest_types = [] ↔ get_operand_count info.operation = 0) := by
  decide

/-- C37: `get_opcode` maps the sixteen mnemonics `mov`, `cmp`, `add`,
`sub`, `lea`, `clr`, `not`, `inc`, `dec`, `jmp`, `bne`, `red`, `prn`, `jsr`,
`rts`, `stop` to 0 .. 15 in that order and every other string to `NONE_OP`;
for every string `t` the four lookups agree: `is_operation t` is true iff
`get_opcode t` is not `NONE_OP` iff `get_operand_count t` is not -1 iff
`get_operation_info t` finds an entry (which is then the entry of `t`);
`get_operand_count` is 2 for the opcodes 0 .. 4, 1 for 5 .. 13 and 0 for 14
and 15; and the source list of an entry allows some addressing type exactly
when the operand count is 2, its destination list allows none exactly when
the operand count is 0. -/
theorem opcode_lookups_agree (t : List Char) :
    operations.map (fun n => (get_opcode n).toInt)
      = [0, 1, 2, 3, 4, 5, 6, 7, 8, 9, 10, 11, 12, 13, 14, 15] ∧
    operations = ["mov".toList, "cmp".toList, "add".toList, "sub".toList, "lea".toList,
      "clr".toList, "not".toList, "inc".toList, "dec".toList, "jmp".toList, "bne".toList,
      "red".toList, "prn".toList, "jsr".toList, "rts".toList, "stop".toList] ∧
    (t ∉ operations → get_opcode t = .NONE_OP) ∧
    (is_operation t = true ↔ get_opcode t ≠ .NONE_OP) ∧
    (get_opcode t ≠ .NONE_OP ↔ get_operand_count t ≠ -1) ∧
    (get_operand_count t ≠ -1 ↔ (get_operation_info t).isSome = true) ∧
    (0 ≤ (get_opcode t).toInt ∧ (get_opcode t).toInt ≤ 4 → get_operand_count t = 2) ∧
    (5 ≤ (get_opcode t).toInt ∧ (get_opcode t).toInt ≤ 13 → get_operand_count t = 1) ∧
    (14 ≤ (get_opcode t).toInt ∧ (get_opcode t).toInt ≤ 15 → get_operand_count t = 0) ∧
    (∀ info, get_operation_info t = some info →
      info.operation = t ∧
      (allowed_types info.valid_src_types ≠ [] ↔ get_operand_count t = 2) ∧
      (allowed_types info.valid_dest_types = [] ↔ get_operand_count t = 0)) := by
  refine ⟨by decide, rfl, fun h => (not_operation_lookups t h).1, ?_⟩
  by_cases hmem : t ∈ operations
  · simp only [operations, List.mem_cons, List.mem_singleton, List.not_mem_nil, or_false] at hmem
    have hrows := operations_info_rows
    rcases hmem with h | h | h | h | h | h | h | h | h | h | h | h | h | h | h | h <;>
      (subst h
       refine ⟨by decide, by decide, by decide, by decide, by decide, by decide, ?_⟩
       intro info hinfo
       unfold get_operation_info at hinfo
       have hm := List.find?_some hinfo
       simp only [decide_eq_true_eq] at hm
       rw [hm]
       exact ⟨rfl, (hrows info (List.mem_of_find?_eq_some hinfo)).2⟩)
  · obtain ⟨a, b, c, d⟩ := not_operation_lookups t hmem
    rw [a, b, c, d]
    refine ⟨by decide, by decide, by decide, by decide, by decide, by decide, ?_⟩
    intro info hinfo
    simp at hinfo

theorem opcode_lookups_agree_witness :
    get_operation_info "lea".toList
      = some ⟨"lea".toList, [2, -1, -1, -1, -1], [2, 4, 8, -1, -1]⟩ ∧
    (allowed_types [2, -1, -1, -1, -1] ≠ [] ↔ get_operand_count "lea".toList = 2) ∧
    (allowed_types [2, 4, 8, -1, -1] = [] ↔ get_operand_count "lea".toList = 0) :=
  ⟨by decide,
    ((opcode_lookups_agree "lea".toList).2.2.2.2.2.2.2.2.2
      ⟨"lea".toList, [2, -1, -1, -1, -1], [2, 4, 8, -1, -1]⟩ (by decide)).2⟩

/-! ## Claim on the operands that begin with `#` -/

theorem is_valid_operand_immediate (s : List Char) :
    is_valid_operand ('#' :: s) = s.all (fun c => is_digit c || c == '-' || c == '+') := by
  simp [is_valid_operand, char_at]

theorem decimal_literal_chars (s : List Char) (h : is_decimal_literal s = true) :
    s ≠ [] ∧ ∀ c ∈ s, is_digit c = true ∨ c = '-' ∨ c = '+' := by
  unfold is_decimal_literal at h
  simp only [Bool.and_eq_true, Bool.not_eq_true', List.isEmpty_eq_false_iff_exists_mem,
    List.all_eq_true] at h
  obtain ⟨⟨x, hx⟩, hall⟩ := h
  cases s with
  | nil => simp at hx
  | cons c cs =>
    refine ⟨by simp, ?_⟩
    intro d hd
    by_cases hs : c = '-' ∨ c = '+'
    · simp only [List.head?_cons, Option.some.injEq, hs, if_true, List.drop_succ_cons,
        List.drop_zero] at hall
      rcases List.mem_cons.mp hd with h1 | h1
      · subst h1
        rcases hs with h2 | h2
        · exact Or.inr (Or.inl h2)
        · exact Or.inr (Or.inr h2)
      · exact Or.inl (hall d h1)
    · simp only [List.head?_cons, Option.some.injEq, hs, if_false] at hall
      exact Or.inl (hall d hd)

/-- An operand `#` followed by a literal decimal integer is accepted by
`is_valid_operand`. -/
theorem decimal_literal_valid_immediate (s : List Char) (h : is_decimal_literal s = true) :
    is_valid_operand ('#' :: s) = true := by
  rw [is_valid_operand_immediate, List.all_eq_true]
  intro c hc
  rcases (decimal_literal_chars s h).2 c hc with h1 | h1 | h1 <;> simp [h1]

/-- C38, the code at the failing inputs: `is_valid_operand` accepts the
operands `#`, `#-`, `#1-2` and `#+-3`, none of which is `#` followed by a
literal decimal integer; pass one sizes `prn #1-2` at two words and the
assembly succeeds, the extension word holding the value 1 (12 is 1 shifted
by three bits, with the bits 4 of `ARE`), and `prn #` and `prn #+-3`
assemble with the value 0. The same texts are rejected as values of
`.data`, whose handler requires `strtol` to read the token in full. -/
theorem malformed_immediate_accepted :
    is_decimal_literal "".toList = false ∧ is_decimal_literal "-".toList = false ∧
    is_decimal_literal "1-2".toList = false ∧ is_decimal_literal "+-3".toList = false ∧
    is_valid_operand "#".toList = true ∧ is_valid_operand "#-".toList = true ∧
    is_valid_operand "#1-2".toList = true ∧ is_valid_operand "#+-3".toList = true ∧
    (first_pass ["prn #1-2".toList]).map (fun st => st.line_counter) = .ok 102 ∧
    assemble_values sample_memory ["prn #1-2".toList]
      = some ((2, 0), [(100, 24588), (101, 12)]) ∧
    assemble_values sample_memory ["prn #".toList]
      = some ((2, 0), [(100, 24588), (101, 4)]) ∧
    assemble_values sample_memory ["prn #+-3".toList]
      = some ((2, 0), [(100, 24588), (101, 4)]) ∧
    first_pass [".data 1-2".toList] = .error .invalid_number ∧
    first_pass [".data -".toList] = .error .invalid_number ∧
    first_pass [".data +-3".toList] = .error .invalid_number := by
  decide

/-! ## Claim on the addressing type of a valid operand -/

theorem register_digit (d : Char) (h1 : is_digit d = true) (h2 : digit_value d ≤ 7) :
    ∃ n, n ≤ 7 ∧ d = Char.ofNat (48 + n) := by
  unfold is_digit at h1
  unfold digit_value at h2
  simp only [Bool.and_eq_true, decide_eq_true_eq] at h1
  have hlo : 48 ≤ d.toNat := by
    have := h1.1
    rw [Char.le_def] at this
    exact this
  refine ⟨d.toNat - 48, by omega, ?_⟩
  have : 48 + (d.toNat - 48) = d.toNat := by omega
  rw [this, Char.ofNat_toNat]

theorem text_of_two (t : List Char) (hnul : '\x00' ∉ t) (h : char_at t 2 = '\x00')
    (h1 : char_at t 1 ≠ '\x00') : t = [char_at t 0, char_at t 1] := by
  match t, hnul, h, h1 with
  | [], _, _, h1 => simp [char_at] at h1
  | [a], _, _, h1 => simp [char_at] at h1
  | [a, b], _, _, _ => simp [char_at]
  | a :: b :: c :: r, hnul, h, _ =>
    simp only [char_at, List.getD_cons_succ, List.getD_cons_zero] at h
    subst h
    simp at hnul

theorem text_of_three (t : List Char) (hnul : '\x00' ∉ t) (h : char_at t 3 = '\x00')
    (h2 : char_at t 2 ≠ '\x00') : t = [char_at t 0, char_at t 1, char_at t 2] := by
  match t, hnul, h, h2 with
  | [], _, _, h2 => simp [char_at] at h2
  | [a], _, _, h2 => simp [char_at] at h2
  | [a, b], _, _, h2 => simp [char_at] at h2
  | [a, b, c], _, _, _ => simp [char_at]
  | a :: b :: c :: d :: r, hnul, h, _ =>
    simp only [char_at, List.getD_cons_succ, List.getD_cons_zero] at h
    subst h
    simp at hnul

theorem is_digit_ne_nul (c : Char) (h : is_digit c = true) : c ≠ '\x00' := by
  intro hc
  subst hc
  revert h
  decide

theorem register_text_facts :
    ∀ n, n ≤ 7 →
      get_addressing_type (register_text n) = .REGISTER_ADDR ∧
      get_addressing_type ('*' :: register_text n) = .RELATIVE_ADDR ∧
      (register_text n).head? = some 'r' ∧
      is_valid_operand (register_text n) = true ∧
      is_valid_operand ('*' :: register_text n) = true := by
  intro n hn
  interval_cases n <;> decide

/-- The forms of an operand that `is_valid_operand` accepts. -/
theorem is_valid_operand_forms (operand : List Char) (hnul : '\x00' ∉ operand)
    (h : is_valid_operand operand = true) :
    (operand.head? = some '#' ∧ get_addressing_type operand = .IMMEDIATE_ADDR) ∨
    (∃ n, n ≤ 7 ∧ operand = register_text n) ∨
    (∃ n, n ≤ 7 ∧ operand = '*' :: register_text n) ∨
    (operand.head? ≠ some '#' ∧ operand.head? ≠ some 'r' ∧ operand.head? ≠ some '*' ∧
      get_addressing_type operand = .DIRECT_ADDR) := by
  have hhead : ∀ c, char_at operand 0 = c → c ≠ '\x00' → operand.head? = some c := by
    intro c hc hne
    cases operand with
    | nil => simp [char_at] at hc; exact absurd hc.symm hne
    | cons a r => simp [char_at] at hc; simp [hc]
  have hhead2 : ∀ c, operand.head? = some c → char_at operand 0 = c := by
    intro c hc
    cases operand with
    | nil => simp at hc
    | cons a r => simp at hc; simp [char_at, hc]
  unfold is_valid_operand at h
  by_cases h0 : char_at operand 0 = '#'
  · left
    exact ⟨hhead _ h0 (by decide), by simp [get_addressing_type, h0]⟩
  · simp only [h0, if_false] at h
    by_cases h1 : char_at operand 0 = 'r'
    · right; left
      simp only [h1, if_true] at h
      split at h
      · rename_i hc
        simp only [Bool.and_eq_true, beq_iff_eq] at hc
        simp only [Bool.not_eq_true', Bool.or_eq_false_iff, decide_eq_false_iff_not] at h
        obtain ⟨n, hn, hd⟩ := register_digit _ hc.1 (by omega)
        refine ⟨n, hn, ?_⟩
        rw [text_of_two operand hnul hc.2 (is_digit_ne_nul _ hc.1), h1, hd]
        rfl
      · simp at h
    · simp only [h1, if_false] at h
      by_cases h2 : char_at operand 0 = '*'
      · right; right; left
        simp only [h2, if_true] at h
        split at h
        · rename_i hc
          simp only [Bool.and_eq_true, beq_iff_eq] at hc
          simp only [Bool.not_eq_true', Bool.or_eq_false_iff, decide_eq_false_iff_not] at h
          obtain ⟨n, hn, hd⟩ := register_digit _ hc.1.2 (by omega)
          refine ⟨n, hn, ?_⟩
          rw [text_of_three operand hnul hc.2 (is_digit_ne_nul _ hc.1.2), h2, hc.1.1, hd]
          rfl
        · simp at h
      · right; right; right
        simp only [h2, if_false] at h
        split at h
        · rename_i ha
          refine ⟨fun hc => h0 (hhead2 _ hc), fun hc => h1 (hhead2 _ hc),
            fun hc => h2 (hhead2 _ hc), ?_⟩
          have hr : (char_at operand 0 == 'r') = false := by simpa using h1
          simp [get_addressing_type, h0, ha, hr]
        · simp at h

/-- C39: for every operand (a C string) that `is_valid_operand` accepts,
`get_addressing_type` returns one of the four modes and never `NONE_ADDR`,
and the mode agrees with the syntax: immediate (1) iff the operand begins
with `#`, register (8) iff it is `rN` with N in 0 .. 7, relative (4) iff it
is `*rN` with N in 0 .. 7, and direct (2) otherwise; so the classification
that `process_code` makes of the operand it copied (at most 30 characters)
never fails on an operand that pass one validated. -/
theorem valid_operand_addressing (operand : List Char) (hnul : '\x00' ∉ operand)
    (h : is_valid_operand operand = true) :
    get_addressing_type operand ≠ .NONE_ADDR ∧
    (get_addressing_type operand = .IMMEDIATE_ADDR ↔ operand.head? = some '#') ∧
    (get_addressing_type operand = .REGISTER_ADDR ↔ ∃ n, n ≤ 7 ∧ operand = register_text n) ∧
    (get_addressing_type operand = .RELATIVE_ADDR ↔
      ∃ n, n ≤ 7 ∧ operand = '*' :: register_text n) ∧
    (get_addressing_type operand = .DIRECT_ADDR ↔
      operand.head? ≠ some '#' ∧ (¬ ∃ n, n ≤ 7 ∧ operand = register_text n) ∧
        ¬ ∃ n, n ≤ 7 ∧ operand = '*' :: register_text n) ∧
    addressing_type.IMMEDIATE_ADDR.toInt = 1 ∧ addressing_type.DIRECT_ADDR.toInt = 2 ∧
    addressing_type.RELATIVE_ADDR.toInt = 4 ∧ addressing_type.REGISTER_ADDR.toInt = 8 ∧
    operand_addressing (some (operand.take (MAX_OPERAND_LENGTH - 1)))
      = .ok (get_addressing_type operand) := by
  have hne := valid_operand_type_ne_none operand h
  have hlast : operand_addressing (some (operand.take (MAX_OPERAND_LENGTH - 1)))
      = .ok (get_addressing_type operand) := by
    rw [operand_addressing_some _ (by rw [get_addressing_type_take]; exact hne),
      get_addressing_type_take]
  refine ⟨hne, ?_, ?_, ?_, ?_, rfl, rfl, rfl, rfl, hlast⟩
  all_goals
    rcases is_valid_operand_forms operand hnul h with
      ⟨f1, f2⟩ | ⟨n, hn, f⟩ | ⟨n, hn, f⟩ | ⟨f1, f2, f3, f4⟩
  -- immediate
  · simp [f1, f2]
  · obtain ⟨a, b, c, -⟩ := register_text_facts n hn
    subst f
    simp [a, c]
  · obtain ⟨a, b, c, -⟩ := register_text_facts n hn
    subst f
    simp [b]
  · simp [f1, f4]
  -- register
  · constructor
    · intro hr; rw [f2] at hr; exact absurd hr (by decide)
    · rintro ⟨n, hn, f⟩
      exact (register_text_facts n hn).1 ▸ f ▸ rfl
  · exact ⟨fun _ => ⟨n, hn, f⟩, fun _ => f ▸ (register_text_facts n hn).1⟩
  · constructor
    · intro hr
      rw [f, (register_text_facts n hn).2.1] at hr
      exact absurd hr (by decide)
    · rintro ⟨m, hm, g⟩
      rw [g]
      exact (register_text_facts m hm).1
  · constructor
    · intro hr; rw [f4] at hr; exact absurd hr (by decide)
    · rintro ⟨m, hm, g⟩
      rw [g]
      exact (register_text_facts m hm).1
  -- relative
  · constructor
    · intro hr; rw [f2] at hr; exact absurd hr (by decide)
    · rintro ⟨m, hm, g⟩
      rw [g]
      exact (register_text_facts m hm).2.1
  · constructor
    · intro hr
      rw [f, (register_text_facts n hn).1] at hr
      exact absurd hr (by decide)
    · rintro ⟨m, hm, g⟩
      rw [g]
      exact (register_text_facts m hm).2.1
  · exact ⟨fun _ => ⟨n, hn, f⟩, fun _ => f ▸ (register_text_facts n hn).2.1⟩
  · constructor
    · intro hr; rw [f4] at hr; exact absurd hr (by decide)
    · rintro ⟨m, hm, g⟩
      rw [g]
      exact (register_text_facts m hm).2.1
  -- direct
  · constructor
    · intro hr; rw [f2] at hr; exact absurd hr (by decide)
    · rintro ⟨g, -, -⟩
      exact absurd f1 g
  · constructor
    · intro hr
      rw [f, (register_text_facts n hn).1] at hr
      exact absurd hr (by decide)
    · rintro ⟨-, g, -⟩
      exact absurd ⟨n, hn, f⟩ g
  · constructor
    · intro hr
      rw [f, (register_text_facts n hn).2.1] at hr
      exact absurd hr (by decide)
    · rintro ⟨-, -, g⟩
      exact absurd ⟨n, hn, f⟩ g
  · refine ⟨fun _ => ⟨f1, ?_, ?_⟩, fun _ => f4⟩
    · rintro ⟨m, hm, g⟩
      rw [g] at f2
      exact f2 (register_text_facts m hm).2.2.1
    · rintro ⟨m, hm, g⟩
      rw [g] at f3
      exact f3 rfl

theorem valid_operand_addressing_witness :
    is_valid_operand "*r5".toList = true ∧
    (get_addressing_type "*r5".toList = .RELATIVE_ADDR ↔
      ∃ n, n ≤ 7 ∧ "*r5".toList = '*' :: register_text n) ∧
    operand_addressing (some ("*r5".toList.take (MAX_OPERAND_LENGTH - 1)))
      = .ok (get_addressing_type "*r5".toList) :=
  ⟨by decide,
    (valid_operand_addressing "*r5".toList (by decide) (by decide)).2.2.2.1,
    (valid_operand_addressing "*r5".toList (by decide) (by decide)).2.2.2.2.2.2.2.2.2⟩

/-! ## Claim on a comma at the start or at the end of the operands -/

theorem validate_commas_loop_last_comma (is_data : Bool) (s : List Char) :
    ∀ (expecting : Bool) (prev_char : Char) (in_string : Bool),
      validate_commas_loop is_data (s ++ [',']) expecting prev_char in_string = false := by
  induction s with
  | nil =>
    intro e p i
    simp only [List.nil_append, validate_commas_loop]
    split
    · simp only [if_true]
      split
      · rfl
      · simp
    · split
      · split
        · rfl
        · simp
      · rename_i h
        simp only [true_and] at h
        have hq : (',' : Char) ≠ '"' := by decide
        simp only [hq, if_false]
        split <;> simp
  | cons c cs ih =>
    intro e p i
    simp only [List.cons_append, validate_commas_loop]
    repeat' split
    all_goals first | rfl | exact ih _ _ _

/-- A line whose last character is a comma is rejected by `validate_commas`
in both modes. -/
theorem validate_commas_last_comma (is_data : Bool) (s : List Char) :
    validate_commas (s ++ [',']) is_data = false :=
  validate_commas_loop_last_comma is_data s true '\x00' false

/-- C31, the code at the failing inputs: pass one accepts `mov , r1, r2`,
whose operand list begins with a comma, and `mov r1, r2, ` and
`.data 1, 2, `, whose operand lists end with a comma followed by a blank,
and counts the two words of `mov r1, r2` and of `.data 1, 2`; the assembly
of the two instruction lines yields the words of `mov r1, r2`. A comma that
is the last character of the line is rejected, and so is a comma before the
first value of `.data`. -/
theorem comma_at_start_or_end_accepted :
    first_pass ["mov , r1, r2".toList]
      = .ok { label_array := [], ext_entry_array := ⟨[], []⟩, line_counter := 102,
              user_line_counter := 2 } ∧
    first_pass ["mov r1, r2, ".toList]
      = .ok { label_array := [], ext_entry_array := ⟨[], []⟩, line_counter := 102,
              user_line_counter := 2 } ∧
    first_pass [".data 1, 2, ".toList]
      = .ok { label_array := [], ext_entry_array := ⟨[], []⟩, line_counter := 102,
              user_line_counter := 2 } ∧
    assemble_values sample_memory ["mov , r1, r2".toList]
      = assemble_values sample_memory ["mov r1, r2".toList] ∧
    assemble_values sample_memory ["mov r1, r2, ".toList]
      = assemble_values sample_memory ["mov r1, r2".toList] ∧
    assemble_values sample_memory ["mov r1, r2".toList]
      = some ((2, 0), [(100, 1092), (101, 84)]) ∧
    assemble_values sample_memory [".data 1, 2, ".toList]
      = some ((0, 2), [(100, 1), (101, 2)]) ∧
    first_pass ["mov r1, r2,".toList] = .error .invalid_comma ∧
    first_pass [".data 1, 2,".toList] = .error .invalid_comma ∧
    first_pass [".data , 1".toList] = .error .invalid_comma :=
  ⟨by decide, by decide, by decide, by decide, by decide, by decide, by decide, by decide,
    by decide, by decide⟩

/-! ## Claim on `.data` values without a comma between them -/

theorem scan_operands_not_line_too_long (operands : List Char) :
    scan_operands operands ≠ .error .line_too_long := by
  unfold scan_operands
  intro h
  repeat' split at h
  all_goals simp at h

theorem operand_type_error_not_line_too_long (op_info : operation_info) (k : Int)
    (src dest : addressing_type) :
    operand_type_error op_info k src dest ≠ some .line_too_long := by
  unfold operand_type_error
  split_ifs <;> simp

theorem calculate_instruction_lines_not_line_too_long (operation operands : List Char) :
    calculate_instruction_lines operation operands ≠ .error .line_too_long := by
  unfold calculate_instruction_lines
  intro h
  cases hi : get_operation_info operation with
  | none => simp [hi] at h
  | some op_info =>
    cases hs : scan_operands operands with
    | error e =>
      simp only [hi, hs, Except.error.injEq] at h
      subst h
      exact scan_operands_not_line_too_long operands hs
    | ok r =>
      obtain ⟨k, src, dest⟩ := r
      simp only [hi, hs] at h
      split at h
      · split at h <;> simp at h
      · cases hte : operand_type_error op_info k src dest with
        | none => simp [hte] at h
        | some e =>
          simp only [hte, Except.error.injEq] at h
          subst h
          exact operand_type_error_not_line_too_long _ _ _ _ hte

theorem count_data_tokens_not_line_too_long (tokens : List (List Char)) :
    ∀ c : Int, count_data_tokens tokens c ≠ .error .line_too_long := by
  induction tokens with
  | nil => intro c; simp [count_data_tokens]
  | cons t ts ih =>
    intro c
    simp only [count_data_tokens]
    split
    · simp
    · exact ih _

theorem handle_data_directive_not_line_too_long (line : List Char) (c : Int) :
    handle_data_directive line c ≠ .error .line_too_long := by
  unfold handle_data_directive
  split
  · simp
  · exact count_data_tokens_not_line_too_long _ _

theorem handle_string_directive_not_line_too_long (line : List Char) (c : Int) :
    handle_string_directive line c ≠ .error .line_too_long := by
  unfold handle_string_directive
  simp only
  repeat' split
  all_goals simp

theorem add_extern_entry_tokens_not_line_too_long (directive : List Char) (n : Int)
    (tokens : List (List Char)) :
    ∀ a : ExternEntryArray,
      add_extern_entry_tokens directive n tokens a ≠ .error .line_too_long := by
  induction tokens with
  | nil => intro a; simp [add_extern_entry_tokens]
  | cons t ts ih =>
    intro a
    simp only [add_extern_entry_tokens]
    split
    · split
      · rename_i e he
        unfold add_extern at he
        split at he
        · simp only [Except.error.injEq] at he
          subst he
          simp
        · simp at he
      · exact ih _
    · split
      · split
        · rename_i e he
          unfold add_entry at he
          split at he
          · simp only [Except.error.injEq] at he
            subst he
            simp
          · simp at he
        · exact ih _
      · exact ih _

theorem first_pass_dispatch_not_line_too_long (st : first_pass_state) (token rest : List Char) :
    first_pass_dispatch st token rest ≠ .error .line_too_long := by
  unfold first_pass_dispatch
  intro h
  simp only at h
  split at h
  · split at h
    · rename_i e he
      simp only [Except.error.injEq] at h
      subst h
      exact calculate_instruction_lines_not_line_too_long _ _ he
    · simp at h
  · split at h
    · split at h
      · split at h
        · rename_i e he
          simp only [Except.error.injEq] at h
          subst h
          exact handle_data_directive_not_line_too_long _ _ he
        · simp at h
      · simp at h
    · split at h
      · split at h
        · split at h
          · rename_i e he
            simp only [Except.error.injEq] at h
            subst h
            exact handle_string_directive_not_line_too_long _ _ he
          · simp at h
        · simp at h
      · split at h
        · split at h
          · rename_i e he
            simp only [Except.error.injEq] at h
            subst h
            exact add_extern_entry_tokens_not_line_too_long _ _ _ _ he
          · simp at h
        · simp at h

theorem first_pass_statement_not_line_too_long (st : first_pass_state)
    (token : Option (List Char × List Char)) :
    first_pass_statement st token ≠ .error .line_too_long := by
  unfold first_pass_statement
  intro h
  split at h
  · simp at h
  · split at h
    · rename_i e he
      simp only [Except.error.injEq] at h
      subst h
      exact first_pass_dispatch_not_line_too_long _ _ _ he
    · split at h <;> simp at h

theorem add_label_not_line_too_long (array : List Label) (label : List Char) (n : Int) :
    add_label array label n ≠ .error .line_too_long := by
  unfold add_label
  split <;> simp

/-- The line-length error of `first_pass` is raised exactly when `fgets`
has returned more than `MAX_LINE_LENGTH` characters. -/
theorem first_pass_line_too_long_iff (st : first_pass_state) (raw : List Char) :
    first_pass_line st raw = .error .line_too_long ↔ raw.length > MAX_LINE_LENGTH := by
  constructor
  · intro h
    by_contra hlen
    unfold first_pass_line at h
    rw [if_neg hlen] at h
    simp only at h
    split at h
    · simp at h
    · split at h
      · simp at h
      · split at h
        · split at h
          · split at h
            · split at h
              · rename_i e he
                simp only [Except.error.injEq] at h
                subst h
                exact add_label_not_line_too_long _ _ _ he
              · exact first_pass_statement_not_line_too_long _ _ h
            · simp at h
          · exact first_pass_statement_not_line_too_long _ _ h
        · exact first_pass_statement_not_line_too_long _ _ h
  · intro h
    unfold first_pass_line
    rw [if_pos h]

theorem first_pass_lines_not_too_long (lines : List (List Char)) :
    ∀ st : first_pass_state, (∀ l ∈ lines, l.length ≤ MAX_LINE_LENGTH) →
      first_pass_lines st lines ≠ .error .line_too_long := by
  induction lines with
  | nil => intro st _; simp [first_pass_lines]
  | cons l ls ih =>
    intro st hl h
    simp only [first_pass_lines] at h
    split at h
    · rename_i e he
      simp only [Except.error.injEq] at h
      subst h
      have := (first_pass_line_too_long_iff st l).mp he
      have := hl l (by simp)
      omega
    · exact ih _ (fun x hx => hl x (List.mem_cons_of_mem _ hx)) h

theorem fgets_chars_length (n : Nat) : ∀ s : List Char, (fgets_chars n s).1.length ≤ n := by
  induction n with
  | zero => intro s; simp [fgets_chars]
  | succ n ih =>
    intro s
    cases s with
    | nil => simp [fgets_chars]
    | cons c cs =>
      simp only [fgets_chars]
      split
      · simp
      · have := ih cs
        simp only [List.length_cons]
        omega

theorem read_lines_aux_length (size fuel : Nat) :
    ∀ s : List Char, ∀ l ∈ read_lines_aux size fuel s, l.length ≤ size - 1 := by
  induction fuel with
  | zero => intro s l hl; simp [read_lines_aux] at hl
  | succ f ih =>
    intro s l hl
    simp only [read_lines_aux] at hl
    cases s with
    | nil => simp [fgets] at hl
    | cons c cs =>
      simp only [fgets, List.mem_cons] at hl
      rcases hl with h | h
      · rw [h]
        exact fgets_chars_length _ _
      · exact ih _ l h

/-- The test `strlen(line) > MAX_LINE_LENGTH` of `first_pass` never holds:
`fgets` stores at most `MAX_LINE_LENGTH` characters in the buffer of
`MAX_LINE_LENGTH + 1` bytes, so pass one raises the line-length error on no
file at all. -/
theorem first_pass_file_not_too_long (input : List Char) :
    (∀ l ∈ read_lines (MAX_LINE_LENGTH + 1) input, l.length ≤ MAX_LINE_LENGTH) ∧
    first_pass_file input ≠ .error .line_too_long := by
  have h : ∀ l ∈ read_lines (MAX_LINE_LENGTH + 1) input, l.length ≤ MAX_LINE_LENGTH :=
    fun l hl => read_lines_aux_length _ _ _ l hl
  exact ⟨h, first_pass_lines_not_too_long _ _ h⟩

/-- The file-level facts on a line of 104 characters: the text
`.data 1,1, ... ,1,11stop`, which would be no valid line, is read as the two
lines `.data 1,1, ... ,1,11` (100 characters) and `stop`; pass one accepts
both and counts 47 data words and a code word, and the assembly succeeds.
No line-length error is raised. -/
theorem long_line_split :
    (data_ones_line 46 ++ "1stop\n".toList).length = 105 ∧
    read_lines (MAX_LINE_LENGTH + 1) (data_ones_line 46 ++ "1stop\n".toList)
      = [data_ones_line 46 ++ "1".toList, "stop\n".toList] ∧
    first_pass_file (data_ones_line 46 ++ "1stop\n".toList)
      = .ok { label_array := [], ext_entry_array := ⟨[], []⟩, line_counter := 148,
              user_line_counter := 3 } ∧
    (assemble_values sample_memory
        (read_lines (MAX_LINE_LENGTH + 1) (data_ones_line 46 ++ "1stop\n".toList))).map
      (fun r => r.1) = some (1, 47) :=
  ⟨by decide, by decide, by decide, by decide⟩

/-- C33, the claim as stated fails: a line with 87 characters of content,
more than 80, is accepted by pass one, which counts its 41 data words; no
line-length error is raised. -/
theorem long_content_line_accepted :
    (data_ones_line 40).length = 87 ∧
    first_pass_file (data_ones_line 40 ++ "\n".toList)
      = .ok { label_array := [], ext_entry_array := ⟨[], []⟩, line_counter := 141,
              user_line_counter := 2 } ∧
    (assemble_values sample_memory
        (read_lines (MAX_LINE_LENGTH + 1) (data_ones_line 40 ++ "\n".toList))).map
      (fun r => r.1) = some (0, 41) :=
  ⟨by decide, by decide, by decide⟩

/-- C33, amended: pass one has no limit of 80 characters of content; the
only length it compares a line with is `MAX_LINE_LENGTH` = 100. Every source
line of at most 100 characters, the newline included, is read whole by
`fgets`, and pass one raises no line-length error on it, whatever the state
it is in. -/
theorem line_length_limit (st : first_pass_state) (content rest : List Char)
    (hcontent : '\n' ∉ content) (hlen : content.length + 1 ≤ MAX_LINE_LENGTH) :
    MAX_LINE_LENGTH = 100 ∧
    fgets (MAX_LINE_LENGTH + 1) (content ++ '\n' :: rest) = some (content ++ ['\n'], rest) ∧
    first_pass_line st (content ++ ['\n']) ≠ .error .line_too_long := by
  refine ⟨rfl, ?_, ?_⟩
  · have h := fgets_chars_newline content rest hcontent (MAX_LINE_LENGTH + 1 - 1)
      (by simp only [Nat.add_sub_cancel]; omega)
    cases hc : content ++ '\n' :: rest with
    | nil => simp at hc
    | cons c cs =>
      simp only [fgets]
      rw [← hc, h]
  · intro h
    have := (first_pass_line_too_long_iff st _).mp h
    simp only [List.length_append, List.length_singleton] at this
    omega

theorem line_length_limit_witness :
    '\n' ∉ data_ones_line 40 ∧
    fgets (MAX_LINE_LENGTH + 1) (data_ones_line 40 ++ '\n' :: "stop\n".toList)
      = some (data_ones_line 40 ++ ['\n'], "stop\n".toList) ∧
    first_pass_line first_pass_init (data_ones_line 40 ++ ['\n']) ≠ .error .line_too_long :=
  ⟨by decide,
    (line_length_limit first_pass_init (data_ones_line 40) "stop\n".toList (by decide)
      (by decide)).2⟩

/-! ## Helper lemmas on lines without a macro invocation -/

theorem suffix_words_cons (c : Char) (cs : List Char) :
    suffix_words (c :: cs) =
      (match sscanf_word (c :: cs) with
        | some w => [w]
        | none => []) ++ suffix_words cs := by
  unfold suffix_words
  rw [List.tails_cons, List.filterMap_cons]
  cases sscanf_word (c :: cs) <;> rfl

theorem suffix_words_head (c : Char) (cs w : List Char) (h : sscanf_word (c :: cs) = some w) :
    w ∈ suffix_words (c :: cs) := by
  rw [suffix_words_cons, h]
  simp

theorem suffix_words_tail (c : Char) (cs w : List Char) (h : w ∈ suffix_words cs) :
    w ∈ suffix_words (c :: cs) := by
  rw [suffix_words_cons]
  exact List.mem_append_right _ h

/-- When neither the word in the buffer nor any word read from a position
of the text is the name of a macro, the loop appends the text character by
character. -/
theorem expand_line_copy (macros : List Macro) (start : List Char) :
    ∀ (word output_line : List Char), get_macro_content macros word = none →
      (∀ w ∈ suffix_words start, get_macro_content macros w = none) →
      output_line.length < MAX_LINE_LENGTH →
      ∃ word1, get_macro_content macros word1 = none ∧
        expand_line macros start word output_line =
          (strcat_output_line output_line start).map (fun o => (o, word1)) := by
  induction start with
  | nil =>
    intro word out hw _ h
    refine ⟨word, hw, ?_⟩
    have : ¬ out.length + 0 + 1 > MAX_LINE_LENGTH := by omega
    simp [expand_line, strcat_output_line, this, Except.map]
  | cons c cs ih =>
    intro word out hw hwords h
    have hlook : get_macro_content macros ((sscanf_word (c :: cs)).getD word) = none := by
      cases hs : sscanf_word (c :: cs) with
      | none => simpa using hw
      | some w => simpa using hwords w (suffix_words_head c cs w hs)
    simp only [expand_line, hlook]
    by_cases hfit : out.length + 1 + 1 > MAX_LINE_LENGTH
    · refine ⟨word, hw, ?_⟩
      have h2 : out.length + (c :: cs).length + 1 > MAX_LINE_LENGTH := by
        simp only [List.length_cons]; omega
      have h3 : out.length + [c].length + 1 > MAX_LINE_LENGTH := hfit
      simp only [strcat_output_line]
      rw [if_pos h2, if_pos h3]
      rfl
    · have hstep : strcat_output_line out [c] = .ok (out ++ [c]) := by
        simp [strcat_output_line, hfit]
      simp only [hstep]
      obtain ⟨w1, hw1, hexp⟩ := ih ((sscanf_word (c :: cs)).getD word) (out ++ [c]) hlook
        (fun w hwm => hwords w (suffix_words_tail c cs w hwm))
        (by simp only [List.length_append, List.length_singleton]; omega)
      refine ⟨w1, hw1, ?_⟩
      rw [hexp]
      have hsame : strcat_output_line (out ++ [c]) cs = strcat_output_line out (c :: cs) := by
        unfold strcat_output_line
        simp only [List.length_append, List.length_singleton, List.length_cons,
          List.append_assoc, List.singleton_append, List.length_nil, Nat.zero_add]
        split <;> split <;> first | rfl | (exfalso; omega)
      rw [hsame]

theorem sscanf_word_some_of_head (c : Char) (cs : List Char) (h : isspace c = false) :
    ∃ w, sscanf_word (c :: cs) = some w := by
  unfold sscanf_word
  simp [List.dropWhile_cons, h]

/-- The same when the text begins with a character that is no white space:
the word in the buffer is then replaced before it is looked up. -/
theorem expand_line_copy_text (macros : List Macro) (start word output_line : List Char)
    (hstale : get_macro_content macros word = none ∨
      ∃ c cs, start = c :: cs ∧ isspace c = false)
    (hwords : ∀ w ∈ suffix_words start, get_macro_content macros w = none)
    (hlen : output_line.length < MAX_LINE_LENGTH) :
    ∃ word1, expand_line macros start word output_line =
      (strcat_output_line output_line start).map (fun o => (o, word1)) := by
  rcases hstale with h | ⟨c, cs, hstart, hc⟩
  · obtain ⟨w1, -, h1⟩ := expand_line_copy macros start word output_line h hwords hlen
    exact ⟨w1, h1⟩
  · subst hstart
    obtain ⟨w, hw⟩ := sscanf_word_some_of_head c cs hc
    have hnone := hwords w (suffix_words_head c cs w hw)
    have hstep : expand_line macros (c :: cs) word output_line
        = expand_line macros (c :: cs) w output_line := by
      simp only [expand_line, hw, Option.getD_some]
    rw [hstep]
    obtain ⟨w1, -, h1⟩ := expand_line_copy macros (c :: cs) w output_line hnone hwords hlen
    exact ⟨w1, h1⟩

theorem preprocess_line_body (st : preprocess_state) (l : List Char)
    (hin : st.in_macro = true) (hcomment : char_at l 0 ≠ ';')
    (hdef : is_definition_line l = false) :
    preprocess_line st l
      = .ok { st with
          macro_content := st.macro_content.map
            (fun content => content ++ [l.dropWhile (fun c => c == ' ' || c == '\t')]) } := by
  unfold is_definition_line at hdef
  simp only [Bool.or_eq_false_iff] at hdef
  unfold preprocess_line
  simp only [hcomment, if_false, hdef.1, hdef.2, Bool.false_eq_true, hin, if_true]

theorem preprocess_lines_body (body : List (List Char)) :
    ∀ (st : preprocess_state) (content : List (List Char)),
      st.in_macro = true → st.macro_content = some content →
      (∀ l ∈ body, char_at l 0 ≠ ';' ∧ is_definition_line l = false) →
      preprocess_lines st body
        = .ok { st with
            macro_content := some (content ++
              body.map (fun l => l.dropWhile (fun c => c == ' ' || c == '\t'))) } := by
  induction body with
  | nil =>
    intro st content _ hc _
    simp only [preprocess_lines, List.map_nil, List.append_nil, ← hc]
  | cons l ls ih =>
    intro st content hin hc hbody
    have hl := hbody l (by simp)
    simp only [preprocess_lines, preprocess_line_body st l hin hl.1 hl.2, hc, Option.map_some']
    rw [ih { st with
        macro_content := some (content ++ [l.dropWhile (fun c => c == ' ' || c == '\t')]) }
      (content ++ [l.dropWhile (fun c => c == ' ' || c == '\t')]) hin rfl
      (fun x hx => hbody x (List.mem_cons_of_mem _ hx))]
    simp

theorem preprocess_line_macr (st : preprocess_state) (M : List Char)
    (hne : M ≠ []) (hword : ∀ c ∈ M, isspace c = false)
    (hvalid : is_valid_macro_name M = true) :
    preprocess_line st ("macr ".toList ++ (M ++ "\n".toList))
      = .ok { st with in_macro := true, macro_name := M, macro_content := some [] } := by
  obtain ⟨x, xs, hx⟩ := List.exists_cons_of_ne_nil hne
  have hxs : (fun c : Char => c == ' ') x = false := by
    have := hword x (by rw [hx]; simp)
    have hne2 : x ≠ ' ' := by
      intro h
      rw [h] at this
      revert this
      decide
    simpa using hne2
  have hfirst : char_at ("macr ".toList ++ (M ++ "\n".toList)) 0 ≠ ';' := by
    simp [char_at]
  have hstart : ("macr ".toList ++ (M ++ "\n".toList)).dropWhile
      (fun c => c == ' ' || c == '\t') = "macr ".toList ++ (M ++ "\n".toList) := rfl
  have hstarts : "macr ".toList.isPrefixOf ("macr ".toList ++ (M ++ "\n".toList)) = true := by
    simp
  have hdrop5 : ("macr ".toList ++ (M ++ "\n".toList)).drop 5 = M ++ "\n".toList := by
    simp
  have hcheck : (M ++ "\n".toList).dropWhile (fun c => c == ' ') = M ++ "\n".toList := by
    rw [hx, List.cons_append, List.dropWhile_cons]
    have hxb : (x == ' ') = false := hxs
    simp only [hxb, Bool.false_eq_true, if_false]
  have hscan : sscanf_word (M ++ "\n".toList) = some M := by
    have := sscanf_word_of_word [] M "\n".toList (by simp) hne hword
      (Or.inr ⟨'\n', [], rfl, by decide⟩)
    simpa using this
  unfold preprocess_line
  simp only [hfirst, if_false, hstart, hstarts, if_true, hdrop5, hcheck, hscan,
    Option.getD_some, hvalid, Bool.not_true, Bool.false_eq_true]

theorem preprocess_line_endmacr (st : preprocess_state) :
    preprocess_line st "endmacr\n".toList
      = .ok { st with
          macros := st.macros ++ [{ name := st.macro_name, content := st.macro_content }]
          in_macro := false
          macro_content := none } := by
  have h1 : char_at "endmacr\n".toList 0 ≠ ';' := by decide
  have h2 : "endmacr\n".toList.dropWhile (fun c => c == ' ' || c == '\t')
      = "endmacr\n".toList := by decide
  have h3 : "macr ".toList.isPrefixOf "endmacr\n".toList = false := by decide
  have h4 : "endmacr".toList.isPrefixOf "endmacr\n".toList = true := by decide
  unfold preprocess_line
  simp only [h1, if_false, h2, h3, Bool.false_eq_true, h4, if_true]

theorem get_macro_content_append (macros : List Macro) (M : List Char)
    (content : Option (List (List Char))) (h : get_macro_content macros M = none)
    (hcontents : ∀ m ∈ macros, m.content ≠ none) :
    get_macro_content (macros ++ [⟨M, content⟩]) M = content := by
  unfold get_macro_content at h ⊢
  have hfind : macros.find? (fun m => decide (m.name = M)) = none := by
    cases hf : macros.find? (fun m => decide (m.name = M)) with
    | none => rfl
    | some m =>
      rw [hf] at h
      exact absurd h (hcontents m (List.mem_of_find?_eq_some hf))
  rw [List.find?_append, hfind]
  simp

/-- C34, the claim as stated fails: the body lines ` inc r1` and
tab-`dec r2` of a macro are stored, and expanded, without their leading
blank and tab. -/
theorem macro_body_line_stripped :
    preprocess_file sample_buffers "macr M\n inc r1\n\tdec r2\nendmacr\nM\n".toList
      = .ok "inc r1\ndec r2\n".toList ∧
    preprocess_file sample_buffers "macr M\n inc r1\n\tdec r2\nendmacr\nM\n".toList
      ≠ .ok " inc r1\n\tdec r2\n".toList :=
  ⟨by decide, by decide⟩

/-- C34, amended: the preprocessor stores every line between `macr <name>`
and `endmacr` (that does not begin with `;` and is not itself taken for the
start or the end of a definition) from its first character that is no
space or tab on, in source order; so, for a name that was not defined
before, each expanded body line in the output of an invocation that fits
the buffer is equal, character for character, to the corresponding source
body line without its leading spaces and tabs. -/
theorem macro_body_stored (st : preprocess_state) (M : List Char) (body : List (List Char))
    (hne : M ≠ []) (hword : ∀ c ∈ M, isspace c = false)
    (hvalid : is_valid_macro_name M = true)
    (hbody : ∀ l ∈ body, char_at l 0 ≠ ';' ∧ is_definition_line l = false) :
    preprocess_lines st
        (("macr ".toList ++ (M ++ "\n".toList)) :: (body ++ ["endmacr\n".toList]))
      = .ok { st with
          macros := st.macros ++
            [⟨M, some (body.map (fun l => l.dropWhile (fun c => c == ' ' || c == '\t')))⟩]
          in_macro := false
          macro_name := M
          macro_content := none } ∧
    (get_macro_content st.macros M = none → (∀ m ∈ st.macros, m.content ≠ none) →
      ':' ∉ M → char_at M 0 ≠ ';' → is_definition_line (M ++ "\n".toList) = false →
      (body.map (fun l => l.dropWhile (fun c => c == ' ' || c == '\t'))).flatten.length
        < MAX_LINE_LENGTH →
      preprocess_lines st
          (("macr ".toList ++ (M ++ "\n".toList)) ::
            (body ++ ["endmacr\n".toList, M ++ "\n".toList]))
        = .ok { st with
            macros := st.macros ++
              [⟨M, some (body.map (fun l => l.dropWhile (fun c => c == ' ' || c == '\t')))⟩]
            in_macro := false
            macro_name := M
            macro_content := none
            word := M
            output := st.output ++
              (body.map (fun l => l.dropWhile (fun c => c == ' ' || c == '\t'))).flatten }) := by
  have hdefinition : preprocess_lines st
      (("macr ".toList ++ (M ++ "\n".toList)) :: (body ++ ["endmacr\n".toList]))
      = .ok { st with
          macros := st.macros ++
            [⟨M, some (body.map (fun l => l.dropWhile (fun c => c == ' ' || c == '\t')))⟩]
          in_macro := false
          macro_name := M
          macro_content := none } := by
    simp only [preprocess_lines, preprocess_line_macr st M hne hword hvalid]
    rw [preprocess_lines_append,
      preprocess_lines_body body _ [] rfl rfl hbody]
    simp only [preprocess_lines, preprocess_line_endmacr, List.nil_append]
  refine ⟨hdefinition, ?_⟩
  intro hnew hcontents hcolon hcomment hdef hfits
  have hsplit : ("macr ".toList ++ (M ++ "\n".toList)) ::
      (body ++ ["endmacr\n".toList, M ++ "\n".toList])
      = (("macr ".toList ++ (M ++ "\n".toList)) :: (body ++ ["endmacr\n".toList]))
        ++ [M ++ "\n".toList] := by
    simp
  rw [hsplit, preprocess_lines_append, hdefinition]
  simp only [preprocess_lines]
  obtain ⟨x, xs, hx⟩ := List.exists_cons_of_ne_nil hne
  have hxb : (x == ' ' || x == '\t') = false :=
    blank_of_not_isspace x (hword x (by rw [hx]; simp))
  have hstart : (M ++ "\n".toList).dropWhile (fun c => c == ' ' || c == '\t')
      = M ++ "\n".toList := by
    rw [hx, List.cons_append, List.dropWhile_cons]
    simp only [hxb, Bool.false_eq_true, if_false]
  have hcomment2 : char_at (M ++ "\n".toList) 0 ≠ ';' := by
    rw [hx] at hcomment ⊢
    simpa [char_at] using hcomment
  have hcontains : (M ++ "\n".toList).contains ':' = false := by
    have : ':' ∉ M ++ "\n".toList := by
      intro h
      rcases List.mem_append.mp h with h | h
      · exact hcolon h
      · revert h; decide
    simpa using this
  unfold is_definition_line at hdef
  rw [hstart] at hdef
  simp only [Bool.or_eq_false_iff] at hdef
  have hlook := get_macro_content_append st.macros M
    (some (body.map (fun l => l.dropWhile (fun c => c == ' ' || c == '\t')))) hnew hcontents
  have hexp := expand_line_invocation
    (st.macros ++
      [⟨M, some (body.map (fun l => l.dropWhile (fun c => c == ' ' || c == '\t')))⟩])
    M "\n".toList st.word []
    (body.map (fun l => l.dropWhile (fun c => c == ' ' || c == '\t'))) hlook hne hword
    (Or.inr ⟨'\n', [], rfl, by decide⟩) (by simpa using hfits)
  unfold preprocess_line
  simp only [hcomment2, if_false, hstart, hdef.1, hdef.2, Bool.false_eq_true, copy_label,
    hcontains, hexp]
  simp

theorem macro_body_stored_witness :
    preprocess_lines (preprocess_init sample_buffers)
        (("macr ".toList ++ ("M".toList ++ "\n".toList)) ::
          ([" \tinc r1\n".toList, "dec  r2\n".toList] ++ ["endmacr\n".toList]))
      = .ok { preprocess_init sample_buffers with
          macros := (preprocess_init sample_buffers).macros ++
            [⟨"M".toList, some ([" \tinc r1\n".toList, "dec  r2\n".toList].map
              (fun l => l.dropWhile (fun c => c == ' ' || c == '\t')))⟩]
          in_macro := false
          macro_name := "M".toList
          macro_content := none } :=
  (macro_body_stored (preprocess_init sample_buffers) "M".toList
    [" \tinc r1\n".toList, "dec  r2\n".toList] (by decide) (by decide) (by decide)
    (by decide)).1

/-! ## Claim on the tokens that are looked up as macro names -/

/-- Over a token none of whose ends is the name of a macro, and which is
followed by white space, the loop appends the characters of the token. -/
theorem expand_line_token (macros : List Macro) (tok : List Char) :
    ∀ (word output_line tail : List Char),
      (∀ c ∈ tok, isspace c = false) →
      (∃ g gs, tail = g :: gs ∧ isspace g = true) →
      (∀ b, b ≠ [] → b <:+ tok → get_macro_content macros b = none) →
      output_line.length + tok.length < MAX_LINE_LENGTH →
      ∃ word1, expand_line macros (tok ++ tail) word output_line
        = expand_line macros tail word1 (output_line ++ tok) := by
  induction tok with
  | nil =>
    intro word out tail _ _ _ _
    exact ⟨word, by simp⟩
  | cons c cs ih =>
    intro word out tail htok htail hends hfit
    obtain ⟨g, gs, hg, hgs⟩ := htail
    have hscan : sscanf_word (c :: (cs ++ tail)) = some (c :: cs) := by
      have := sscanf_word_of_word [] (c :: cs) tail (by simp) (by simp) htok
        (Or.inr ⟨g, gs, hg, hgs⟩)
      simpa using this
    have hnone : get_macro_content macros (c :: cs) = none :=
      hends (c :: cs) (by simp) (List.suffix_refl _)
    simp only [List.length_cons] at hfit
    have hstep : strcat_output_line out [c] = .ok (out ++ [c]) :=
      strcat_output_line_fits _ _ (by simp only [List.length_singleton]; omega)
    obtain ⟨w1, hw1⟩ := ih (c :: cs) (out ++ [c]) tail
      (fun d hd => htok d (List.mem_cons_of_mem _ hd)) ⟨g, gs, hg, hgs⟩
      (fun b hb hsuf => hends b hb (List.suffix_cons_iff.mpr (Or.inr hsuf)))
      (by simp only [List.length_append, List.length_singleton]; omega)
    have hexp : ∀ s, s = cs ++ tail →
        expand_line macros (c :: s) word out = expand_line macros s (c :: cs) (out ++ [c]) := by
      intro s hs
      have hscan2 : sscanf_word (c :: s) = some (c :: cs) := by rw [hs]; exact hscan
      simp only [expand_line, hscan2, Option.getD_some, hnone, hstep]
    refine ⟨w1, ?_⟩
    rw [List.cons_append, hexp _ rfl, hw1]
    simp

/-- At white space followed by the name of a macro, the loop appends the
body of the macro and ends. -/
theorem expand_line_invocation_after_gap (macros : List Macro)
    (gap M rest word output_line : List Char) (body : List (List Char))
    (hdefined : get_macro_content macros M = some body)
    (hgap : ∀ c ∈ gap, isspace c = true)
    (hne : M ≠ []) (hword : ∀ c ∈ M, isspace c = false)
    (hrest : rest = [] ∨ ∃ c r, rest = c :: r ∧ isspace c = true)
    (hfits : output_line.length + body.flatten.length < MAX_LINE_LENGTH) :
    expand_line macros (gap ++ (M ++ rest)) word output_line
      = .ok (output_line ++ body.flatten, M) := by
  have hscan : sscanf_word (gap ++ (M ++ rest)) = some M :=
    sscanf_word_of_word gap M rest hgap hne hword hrest
  have hnil : gap ++ (M ++ rest) ≠ [] := by
    intro h
    exact hne (List.append_eq_nil.mp (List.append_eq_nil.mp h).2).1
  obtain ⟨x, xs, hx⟩ := List.exists_cons_of_ne_nil hnil
  rw [hx] at hscan ⊢
  simp only [expand_line, hscan, Option.getD_some, hdefined,
    strcat_macro_lines_fits body output_line hfits]

/-- C35, the code at the failing inputs: with `M` a defined macro whose body
is the line `stop`, the line `jmp M`, whose first token is no macro name, is
expanded, and the blank between `jmp` and `M` is lost: the output is the
single word `jmpstop`, although the statement that copies a character is
commented `preserve spaces and tabs`. The line `jmp XM`, in which no token
is a macro name, is expanded as well, to `jmp Xstop`. The line `jmp X` is
copied. -/
theorem later_token_expanded :
    preprocess_file sample_buffers "macr M\nstop\nendmacr\njmp M\n".toList
      = .ok "jmpstop\n".toList ∧
    preprocess_file sample_buffers "macr M\nstop\nendmacr\njmp XM\n".toList
      = .ok "jmp Xstop\n".toList ∧
    preprocess_file sample_buffers "macr M\nstop\nendmacr\njmp X\n".toList
      = .ok "jmp X\n".toList :=
  ⟨by decide, by decide, by decide⟩

/-- The lookup of the `while(*start)` loop at every position of a line:
`sscanf` skips white space, so at the first white space behind a token the
word that is read is the next token. For a line `<token> M <rest>` without
a colon, outside a macro definition, in which no end of the first token is
a macro name, the loop therefore appends the first token and then, in
place of the white space, the body lines of `M`. When no word read at a
position of the text, a token or the end of a token, is a defined macro
name (and the text begins with a token, or the word buffer holds no macro
name), the loop copies the text character by character. -/
theorem macro_lookup_at_every_token (st : preprocess_state)
    (indent tok gap M rest : List Char) (body : List (List Char))
    (hin : st.in_macro = false)
    (hdefined : get_macro_content st.macros M = some body)
    (hindent : ∀ c ∈ indent, c = ' ' ∨ c = '\t')
    (htokne : tok ≠ []) (htok : ∀ c ∈ tok, isspace c = false)
    (hends : ∀ b, b ≠ [] → b <:+ tok → get_macro_content st.macros b = none)
    (hgapne : gap ≠ []) (hgap : ∀ c ∈ gap, isspace c = true)
    (hne : M ≠ []) (hword : ∀ c ∈ M, isspace c = false)
    (hrest : rest = [] ∨ ∃ c r, rest = c :: r ∧ isspace c = true)
    (hcolon : ':' ∉ tok ++ (gap ++ (M ++ rest)))
    (hcomment : char_at (indent ++ (tok ++ (gap ++ (M ++ rest)))) 0 ≠ ';')
    (hdef : is_definition_line (tok ++ (gap ++ (M ++ rest))) = false)
    (hfits : tok.length + body.flatten.length < MAX_LINE_LENGTH) :
    preprocess_line st (indent ++ (tok ++ (gap ++ (M ++ rest))))
      = .ok { st with word := M, output := st.output ++ (tok ++ body.flatten) } ∧
    (∀ (start word output_line : List Char),
      (∀ w ∈ suffix_words start, get_macro_content st.macros w = none) →
      (get_macro_content st.macros word = none ∨ ∃ c cs, start = c :: cs ∧ isspace c = false) →
      output_line.length + start.length < MAX_LINE_LENGTH →
      ∃ word1, expand_line st.macros start word output_line
        = .ok (output_line ++ start, word1)) := by
  constructor
  · obtain ⟨x, xs, hx⟩ := List.exists_cons_of_ne_nil htokne
    have hxblank : (fun c : Char => c == ' ' || c == '\t') x = false :=
      blank_of_not_isspace x (htok x (by rw [hx]; simp))
    have hindent2 : ∀ c ∈ indent, (fun c : Char => c == ' ' || c == '\t') c = true := by
      intro c hc
      rcases hindent c hc with h | h <;> simp [h]
    have hstart : (indent ++ (tok ++ (gap ++ (M ++ rest)))).dropWhile
        (fun c => c == ' ' || c == '\t') = tok ++ (gap ++ (M ++ rest)) := by
      rw [hx, List.cons_append]
      exact dropWhile_append_stop _ indent x _ hindent2 hxblank
    have hcontains : (tok ++ (gap ++ (M ++ rest))).contains ':' = false := by
      simpa using hcolon
    have hdrop : (tok ++ (gap ++ (M ++ rest))).dropWhile (fun c => c == ' ' || c == '\t')
        = tok ++ (gap ++ (M ++ rest)) := by
      have hxb : (x == ' ' || x == '\t') = false := hxblank
      rw [hx, List.cons_append, List.dropWhile_cons]
      simp only [hxb, Bool.false_eq_true, if_false]
    unfold is_definition_line at hdef
    rw [hdrop] at hdef
    simp only [Bool.or_eq_false_iff] at hdef
    obtain ⟨g, gs, hg⟩ := List.exists_cons_of_ne_nil hgapne
    obtain ⟨w1, hw1⟩ := expand_line_token st.macros tok st.word [] (gap ++ (M ++ rest)) htok
      ⟨g, gs ++ (M ++ rest), by rw [hg]; rfl, hgap g (by rw [hg]; simp)⟩ hends
      (by simp only [List.length_nil]; omega)
    unfold preprocess_line
    simp only [hcomment, if_false, hstart, hdef.1, hdef.2, Bool.false_eq_true, hin, copy_label,
      hcontains, hw1]
    rw [expand_line_invocation_after_gap st.macros gap M rest w1 ([] ++ tok) body hdefined hgap
      hne hword hrest (by simpa using hfits)]
    simp
  · intro start word out hwords hstale hlen
    obtain ⟨w1, hw1⟩ := expand_line_copy_text st.macros start word out hstale hwords (by omega)
    refine ⟨w1, ?_⟩
    rw [hw1, strcat_output_line_fits _ _ hlen]
    rfl

theorem macro_lookup_at_every_token_witness :
    preprocess_line
        { macros := [⟨"M".toList, some ["inc r1\n".toList, "dec r2\n".toList]⟩],
          in_macro := false, macro_name := "M".toList, macro_content := none,
          word := "junk".toList, output := [] }
        (" ".toList ++ ("jmp".toList ++ ("\t ".toList ++ ("M".toList ++ " r3\n".toList))))
      = .ok { macros := [⟨"M".toList, some ["inc r1\n".toList, "dec r2\n".toList]⟩],
              in_macro := false, macro_name := "M".toList, macro_content := none,
              word := "M".toList,
              output := [] ++ ("jmp".toList ++ ["inc r1\n".toList, "dec r2\n".toList].flatten) } :=
  (macro_lookup_at_every_token
    { macros := [⟨"M".toList, some ["inc r1\n".toList, "dec r2\n".toList]⟩],
      in_macro := false, macro_name := "M".toList, macro_content := none,
      word := "junk".toList, output := [] }
    " ".toList "jmp".toList "\t ".toList "M".toList " r3\n".toList
    ["inc r1\n".toList, "dec r2\n".toList]
    rfl (by decide) (by decide) (by decide) (by decide)
    (fun b hb hsuf =>
      (by decide : ∀ b ∈ "jmp".toList.tails, b ≠ [] →
        get_macro_content [⟨"M".toList, some ["inc r1\n".toList, "dec r2\n".toList]⟩] b = none)
        b ((List.mem_tails _ _).mpr hsuf) hb)
    (by decide) (by decide) (by decide) (by decide)
    (Or.inr ⟨' ', "r3\n".toList, rfl, by decide⟩) (by decide) (by decide) (by decide)
    (by decide)).1

/-! ## Claim on the lines that are copied -/

end Assembler
